import Mathlib

/-!
Programs of the `cs467` collection.

A shallow embedding of the board, decision and turn-node code of `tictactoe.c` (namespace
`TicTacToe`), of the exhaustive knapsack searches of `knapsack1.c` and `knapsack2.c` (namespaces
`Knapsack1` and `Knapsack2`, with the arithmetic of `int` in namespace `CInt`), and of the
mutation step of `ga-knapsack.c` (namespace `GaKnapsack`). The definitions of all programs come
first, the theorems follow.

* `char` cells are `Char`; a `gameboard` (`char[9]`) is a function `Fin 9 → Char`.
* The `int` values of `tictactoe.c` (`worth`, `sum`, `lastMove`, `win`) are mathematical
  integers: signed overflow is undefined behaviour in C, and the model describes the executions
  in which no `int` overflows.
* The costs and values of knapsack items come from the input file and are summed in `int`
  variables; these sums are computed modulo `2 ^ 32` (`CInt.add`, `CInt.sub`), so that a model
  run agrees with the compiled program also when a sum leaves the range of `int`.
* Bytes (`uint8_t`) are natural numbers below 256.
* The dynamic array `actions` is a `List decision`; reading it outside `0 .. da_top-1` is a fault.
  The null-terminated item arrays of the knapsack programs are lists, and a sack holds the list
  of its items.
* Global variables that a function updates are passed to it and returned by it.
* `while` loops whose termination depends on the data take a fuel argument, one unit per
  iteration, and fail with `fault.out_of_fuel` when it runs out.
-/

namespace TicTacToe

/-! ## Constants -/

inductive board_state where
  | board_won
  | board_complete
  | board_incomplete
  deriving DecidableEq

inductive move_result where
  | move_win
  | move_draw
  | move_good
  | move_bad
  deriving DecidableEq

/-- The marker of the player who goes first. -/
def X : Char := 'X'
/-- The marker of the player who goes second. -/
def O : Char := 'O'
/-- The marker of a free cell. -/
def EMPTY : Char := '.'

/-! ## The game board -/

/-- The type `typedef char gameboard[9]`. -/
abbrev gameboard := Fin 9 → Char

/-- The read `board[i]`. The code only reads indices `0 .. 8`; outside that range (undefined in C)
the model yields `EMPTY`. -/
def cell (board : gameboard) (i : Nat) : Char :=
  if h : i < 9 then board ⟨i, h⟩ else EMPTY

/-- The write `config[pos] = player` on a copy of the board. -/
def set_cell (board : gameboard) (pos : Nat) (player : Char) : gameboard :=
  fun k => if k.val = pos then player else board k

/-- A board given by the list of its cells, row by row (cells missing from the list are EMPTY). -/
def board_of (cells : List Char) : gameboard :=
  fun k => cells.getD k.val EMPTY

/-- The board of `gameboard_init` and `EMPTY_BOARD`. -/
def EMPTY_BOARD : gameboard := fun _ => EMPTY

/-- The first loop of `gameboard_get_state`: `complete` starts true and the scan over `i` stops with
false at the first EMPTY cell. -/
def scan_complete (board : gameboard) : List Nat → Bool
  | [] => true
  | i :: rest => if cell board i = EMPTY then false else scan_complete board rest

/-- The inner loops of `gameboard_get_state`: `success` starts true, `k` more cells are examined
starting at `j`, `j` advancing by `step` (1 for a row, 3 for a column); the scan stops with false at
the first cell that is not `player`. -/
def scan_line (board : gameboard) (player : Char) (step : Nat) : Nat → Nat → Bool
  | 0, _ => true
  | k + 1, j =>
    if cell board j ≠ player then false
    else scan_line board player step k (j + step)

/-- The loop `for (i = 0; i < 3; ++i)` of `gameboard_get_state`: true when the loop executes
`return board_won`. Row `i` starts at `i*3`, column `i` at `i`. -/
def scan_rows_cols (board : gameboard) (player : Char) : List Nat → Bool
  | [] => false
  | i :: rest =>
    if scan_line board player 1 3 (i * 3) then true
    else if scan_line board player 3 3 i then true
    else scan_rows_cols board player rest

/-- The function `gameboard_get_state`. -/
def gameboard_get_state (board : gameboard) (player : Char) : board_state :=
  let complete := scan_complete board (List.range 9)
  if scan_rows_cols board player (List.range 3) then board_state.board_won
  else if cell board 4 = player ∧
      ((cell board 0 = player ∧ cell board 8 = player) ∨
        (cell board 2 = player ∧ cell board 6 = player)) then board_state.board_won
  else if complete then board_state.board_complete
  else board_state.board_incomplete

/-- The function `gameboard_would_move`, together with the caller's board after the call. The only
array written is the local copy `config`. -/
def gameboard_would_move_run (board : gameboard) (player : Char) (pos : Nat) :
    move_result × gameboard :=
  if cell board pos ≠ EMPTY then (move_result.move_bad, board)
  else
    let config := board
    let config := set_cell config pos player
    let state := gameboard_get_state config player
    (if state = board_state.board_won then move_result.move_win
      else if state = board_state.board_complete then move_result.move_draw
      else move_result.move_good, board)

/-- The value returned by `gameboard_would_move`. -/
def gameboard_would_move (board : gameboard) (player : Char) (pos : Nat) : move_result :=
  (gameboard_would_move_run board player pos).1

/-- The function `gameboard_count_empty`. -/
def gameboard_count_empty (board : gameboard) : Int :=
  (List.range 9).foldl (fun c i => if cell board i = EMPTY then c + 1 else c) 0

/-! ## Decisions and turn nodes -/

/-- The record `struct decision`. A position is an index into the board. -/
structure decision where
  pos : Nat
  worth : Int
  deriving DecidableEq

/-- The function `decision_new` (with `decision_init`). -/
def decision_new (pos : Nat) (worth : Int) : decision :=
  { pos := pos, worth := worth }

/-- The record `struct turn_node`; `actions` is the dynamic array of decisions, whose `da_top` is
the length of the list. -/
structure turn_node where
  board : gameboard
  sum : Int
  lastMove : Int
  actions : List decision

/-- The ways in which a call can fail to return. -/
inductive fault where
  | out_of_bounds
  | division_by_zero
  | out_of_fuel
  deriving DecidableEq

/-- The read `actions.da_data[i]` for an `int` index. -/
def da_get (actions : List decision) (i : Int) : Option decision :=
  if 0 ≤ i then actions[i.toNat]? else none

/-- The write `((struct decision*)actions.da_data[i])->worth = w` for an `int` index. -/
def da_set_worth (actions : List decision) (i : Int) (w : Int) : List decision :=
  if 0 ≤ i then actions.modify (fun d => { d with worth := w }) i.toNat else actions

/-- The total of the worths of a decision sequence. -/
def total_worth (actions : List decision) : Int :=
  (actions.map decision.worth).sum

/-- The variables of `turn_node_new` that its first loop updates. -/
structure new_scan where
  sum : Int
  actions : List decision
  win : Int

/-- The body of the first loop of `turn_node_new` for the cell `i`. -/
def turn_node_new_step (board : gameboard) (st : new_scan) (i : Nat) : new_scan :=
  if cell board i = EMPTY then
    let ndecision := decision_new i 100
    let sum := st.sum + 100
    let actions := st.actions ++ [ndecision]
    if gameboard_would_move board O ndecision.pos = move_result.move_win then
      { sum := sum, actions := actions, win := (actions.length : Int) - 1 }
    else if st.win = -1 ∧ gameboard_would_move board X ndecision.pos = move_result.move_win then
      { sum := sum, actions := actions, win := (actions.length : Int) - 1 }
    else
      { sum := sum, actions := actions, win := st.win }
  else st

/-- The first loop of `turn_node_new`, started with `sum = 0`, no action and `win = -1`. -/
def turn_node_new_scan (board : gameboard) : new_scan :=
  (List.range 9).foldl (turn_node_new_step board) { sum := 0, actions := [], win := -1 }

/-- The loop `for (i = 0; i < da_top; ++i) if (win != i) worth = 0`, from index `i` on. -/
def zero_others (win : Int) : List decision → Nat → List decision
  | [], _ => []
  | d :: rest, i =>
    (if win ≠ (i : Int) then { d with worth := 0 } else d) :: zero_others win rest (i + 1)

/-- The function `turn_node_new`. -/
def turn_node_new (board : gameboard) : turn_node :=
  let st := turn_node_new_scan board
  let actions :=
    if st.win > -1 then da_set_worth (zero_others st.win st.actions 0) st.win st.sum
    else st.actions
  { board := board, sum := st.sum, lastMove := -1, actions := actions }

/-- The function `turn_node_new_fromnone`. -/
def turn_node_new_fromnone : turn_node :=
  { board := EMPTY_BOARD, sum := 0, lastMove := -1, actions := [] }

/-- The loop of `turn_node_make_move`: `i` is the running total, `j` the index examined; the scan
walks the array from `j` on and faults when it leaves the array. -/
def make_move_scan (r : Int) : List decision → Int → Nat → Except fault Nat
  | [], _, _ => Except.error fault.out_of_bounds
  | d :: rest, i, j =>
    let i := i + d.worth
    if r < i then Except.ok j else make_move_scan r rest i (j + 1)

/-- The function `turn_node_make_move`; `rnd` is the value returned by `rand()`. The result is the
node after the call and the decision returned. The code does not test `sum`: for `sum = 0` the
remainder `rand() % node->sum` is undefined behaviour, recorded here as a fault. -/
def turn_node_make_move (node : turn_node) (rnd : Nat) : Except fault (turn_node × decision) :=
  if node.sum = 0 then Except.error fault.division_by_zero
  else
    let r : Int := Int.tmod (rnd : Int) node.sum + 1
    match make_move_scan r node.actions 1 0 with
    | Except.error e => Except.error e
    | Except.ok j =>
      match node.actions[j]? with
      | none => Except.error fault.out_of_bounds
      | some d => Except.ok ({ node with lastMove := (j : Int) }, d)

/-- The loop of `turn_node_mark_good`: one unit of fuel per iteration. -/
def mark_good_loop (lastMove : Int) :
    Nat → List decision → Nat → Int → Int → Except fault (List decision)
  | 0, actions, _, cnt, take =>
    if cnt < (actions.length : Int) ∧ take > 0 then Except.error fault.out_of_fuel
    else Except.ok actions
  | fuel + 1, actions, i, cnt, take =>
    if cnt < (actions.length : Int) ∧ take > 0 then
      let next := if i + 1 ≥ actions.length then 0 else i + 1
      if (i : Int) ≠ lastMove then
        match actions[i]? with
        | none => Except.error fault.out_of_bounds
        | some d =>
          if d.worth ≤ 0 then mark_good_loop lastMove fuel actions next (cnt + 1) take
          else
            mark_good_loop lastMove fuel (da_set_worth actions i (d.worth - 1)) next cnt (take - 1)
      else mark_good_loop lastMove fuel actions next cnt take
    else Except.ok actions

/-- The function `turn_node_mark_good`, its loop run with the given fuel. -/
def turn_node_mark_good (fuel : Nat) (node : turn_node) : Except fault turn_node :=
  match da_get node.actions node.lastMove with
  | none => Except.error fault.out_of_bounds
  | some d =>
    let take : Int := ((node.actions.length : Int) - 1) + 100
    let worth := d.worth + take
    let worth := if worth > node.sum ∨ worth < 0 then node.sum else worth
    let actions := da_set_worth node.actions node.lastMove worth
    match mark_good_loop node.lastMove fuel actions 0 1 take with
    | Except.error e => Except.error e
    | Except.ok actions => Except.ok { node with actions := actions }

/-- The loop of `turn_node_mark_bad`: one unit of fuel per iteration. -/
def mark_bad_loop (lastMove : Int) :
    Nat → List decision → Nat → Int → Except fault (List decision)
  | 0, actions, _, give =>
    if give > 0 then Except.error fault.out_of_fuel else Except.ok actions
  | fuel + 1, actions, i, give =>
    if give > 0 then
      let next := if i + 1 ≥ actions.length then 0 else i + 1
      if (i : Int) ≠ lastMove then
        match actions[i]? with
        | none => Except.error fault.out_of_bounds
        | some d =>
          mark_bad_loop lastMove fuel (da_set_worth actions i (d.worth + 1)) next (give - 1)
      else mark_bad_loop lastMove fuel actions next give
    else Except.ok actions

/-- The function `turn_node_mark_bad`, its loop run with the given fuel. -/
def turn_node_mark_bad (fuel : Nat) (node : turn_node) : Except fault turn_node :=
  if node.actions.length > 1 then
    match da_get node.actions node.lastMove with
    | none => Except.error fault.out_of_bounds
    | some d =>
      let give : Int := ((node.actions.length : Int) - 1) + 50
      let worth := d.worth - give
      let give := if worth < 0 then give + worth else give
      let worth := if worth < 0 then 0 else worth
      let actions := da_set_worth node.actions node.lastMove worth
      match mark_bad_loop node.lastMove fuel actions 0 give with
      | Except.error e => Except.error e
      | Except.ok actions => Except.ok { node with actions := actions }
  else Except.ok node


/-! ## Predicates used in the proofs -/

/-- The invariant on `win` in the first loop of `turn_node_new`: it is the sentinel, or the index
of a decision whose cell wins at once for O or for X. -/
def win_valid (board : gameboard) (st : new_scan) : Prop :=
  st.win = -1 ∨ ∃ w : Nat, st.win = (w : Int) ∧ ∃ d, st.actions[w]? = some d ∧
    (gameboard_would_move board O d.pos = move_result.move_win ∨
      gameboard_would_move board X d.pos = move_result.move_win)

/-! ## Concrete nodes and boards used in the examples -/

/-- A node with three decisions (cells 4, 6 and 8 free) whose last move was the decision of index
1, of worth 20. -/
def penalised_node : turn_node :=
  { board := board_of ['X', 'X', 'O', 'O', '.', 'X', '.', 'O', '.'],
    sum := 300, lastMove := 1,
    actions := [decision_new 4 228, decision_new 6 20, decision_new 8 52] }

/-- The root node of the first-moving tree after one `turn_node_mark_bad` of decision 1 and three
`turn_node_mark_good` of decision 0, with decision 0 selected again. -/
def drained_root : turn_node :=
  { board := EMPTY_BOARD, sum := 900, lastMove := 0,
    actions := [decision_new 0 432, decision_new 1 0, decision_new 2 66, decision_new 3 65,
      decision_new 4 65, decision_new 5 68, decision_new 6 68, decision_new 7 68,
      decision_new 8 68] }

/-- The calls that lead from `turn_node_new EMPTY_BOARD` to `drained_root`: decision 1 is selected
and penalised, then decision 0 is selected and reinforced three times, then selected again. -/
def drained_root_trace : Except fault turn_node := do
  let n ← turn_node_make_move (turn_node_new EMPTY_BOARD) 150
  let n ← turn_node_mark_bad 200 n.1
  let n ← turn_node_make_move n 0
  let n ← turn_node_mark_good 200 n.1
  let n ← turn_node_make_move n 0
  let n ← turn_node_mark_good 200 n.1
  let n ← turn_node_make_move n 0
  let n ← turn_node_mark_good 200 n.1
  let n ← turn_node_make_move n 0
  pure n.1

/-- The board `X O X / O O . / . . X`, reached by the moves X0 O1 X2 O3 X8 O4; X is to move. -/
def fork_board : gameboard := board_of ['X', 'O', 'X', 'O', 'O', '.', '.', '.', 'X']

/-- The moves that lead to `fork_board` from the empty board, X and O alternating. -/
def fork_moves : List (Nat × Char) := [(0, X), (1, O), (2, X), (3, O), (8, X), (4, O)]

/-- The board after the given moves (`board[pos] = turn` for each of them in turn). -/
def play_moves (board : gameboard) (moves : List (Nat × Char)) : gameboard :=
  moves.foldl (fun b m => set_cell b m.1 m.2) board

/-- The move `m` can be selected in the fresh node of `board` (its decision has a positive worth)
and the game goes on after it. -/
def playable (board : gameboard) (m : Nat × Char) : Bool :=
  (turn_node_new board).actions.any (fun d => decide (d.pos = m.1 ∧ 0 < d.worth)) &&
    decide (gameboard_get_state (set_cell board m.1 m.2) m.2 = board_state.board_incomplete)

/-- The array `l` is `orig` after some iterations of the loop of `turn_node_mark_good`: same length
and positions, the decision at `lastMove` untouched, no worth raised, and no worth lowered below 0
(or below its old value, if that was negative). -/
def lowered (lastMove : Int) (orig l : List decision) : Prop :=
  l.length = orig.length ∧ ∀ (k : Nat) (e : decision), orig[k]? = some e →
    ∃ e', l[k]? = some e' ∧ e'.pos = e.pos ∧ e'.worth ≤ e.worth ∧ min e.worth 0 ≤ e'.worth ∧
      ((k : Int) = lastMove → e' = e)

/-- The array `l` is `orig` after some iterations of the loop of `turn_node_mark_bad`: same length
and positions, the decision at `lastMove` untouched, no worth lowered. -/
def raised (lastMove : Int) (orig l : List decision) : Prop :=
  l.length = orig.length ∧ ∀ (k : Nat) (e : decision), orig[k]? = some e →
    ∃ e', l[k]? = some e' ∧ e'.pos = e.pos ∧ e.worth ≤ e'.worth ∧
      ((k : Int) = lastMove → e' = e)

/-- A node with three decisions (cells 4, 6 and 8 free) whose worths 227, 0 and 73 add up to
`sum = 300`, with decision 0 selected. -/
def clamped_node : turn_node :=
  { board := board_of ['X', 'X', 'O', 'O', '.', 'X', '.', 'O', '.'],
    sum := 300, lastMove := 0,
    actions := [decision_new 4 227, decision_new 6 0, decision_new 8 73] }

/-- The calls that lead from the fresh node of `X X O / O . X / . O .` to `clamped_node`: decision
0 is selected and reinforced, decision 1 is selected and penalised, decision 0 is selected. -/
def clamped_node_trace : Except fault turn_node := do
  let n ← turn_node_make_move
    (turn_node_new (board_of ['X', 'X', 'O', 'O', '.', 'X', '.', 'O', '.'])) 0
  let n ← turn_node_mark_good 500 n.1
  let n ← turn_node_make_move n 210
  let n ← turn_node_mark_bad 200 n.1
  let n ← turn_node_make_move n 0
  pure n.1

/-- A node with a single decision (cell 8 free). -/
def single_node : turn_node :=
  { board := board_of ['X', 'O', 'X', 'X', 'O', 'O', 'O', 'X', '.'],
    sum := 100, lastMove := 0, actions := [decision_new 8 100] }

/-! ## Sequences of operations on a node -/

/-- One call of a function that works on an existing node, with the value it is given by the
environment: the random draw for `turn_node_make_move`, the fuel for the loops of the other two. -/
inductive node_op where
  | make_move (rnd : Nat)
  | mark_good (fuel : Nat)
  | mark_bad (fuel : Nat)

/-- The node after one operation. -/
def apply_op (node : turn_node) : node_op → Except fault turn_node
  | node_op.make_move rnd =>
    match turn_node_make_move node rnd with
    | Except.error e => Except.error e
    | Except.ok r => Except.ok r.1
  | node_op.mark_good fuel => turn_node_mark_good fuel node
  | node_op.mark_bad fuel => turn_node_mark_bad fuel node

/-- The node after a sequence of operations, the first of the list first. -/
def apply_ops (node : turn_node) : List node_op → Except fault turn_node
  | [] => Except.ok node
  | op :: ops =>
    match apply_op node op with
    | Except.error e => Except.error e
    | Except.ok n => apply_ops n ops

/-! ## The map from boards to nodes -/

/-- The loop of `compar_board` over the cells `i`: -1 or 1 at the first cell where the boards
differ, 0 when the loop ends. Cells are compared as `char` values; for the markers of the program
(`X`, `O`, `.`) that is the order of `Char`. -/
def compar_board_scan (left right : gameboard) : List Nat → Int
  | [] => 0
  | i :: rest =>
    if cell left i < cell right i then -1
    else if cell left i > cell right i then 1
    else compar_board_scan left right rest

/-- The function `compar_board`; `sizeof(gameboard)` is 9. -/
def compar_board (left right : gameboard) : Int :=
  compar_board_scan left right (List.range 9)

/-- Modelled from the spec: the treemap of `dstructs/treemap.h`, whose code is not among the
sources. The spec describes the knowledge tree as a mapping from board configuration to turn node
with unique keys, compared cell by cell; the model keeps the nodes in a list, the key of a node
being its board (the first field of the record, which is what `compar_board` reads). -/
structure treemap where
  entries : List turn_node

/-- Modelled from the spec: `treemap_new`, the map without entries. -/
def treemap_new : treemap := { entries := [] }

/-- Modelled from the spec: `treemap_lookup`, the node whose key compares equal to `key` under
`compar_board`, if the mapping has one. -/
def treemap_lookup (reactions : treemap) (key : gameboard) : Option turn_node :=
  reactions.entries.find? (fun n => decide (compar_board n.board key = 0))

/-- Modelled from the spec: `treemap_insert`, which adds the node under its board; keys are unique,
so nothing is added when the key is present. -/
def treemap_insert (reactions : treemap) (node : turn_node) : treemap :=
  match treemap_lookup reactions node.board with
  | some _ => reactions
  | none => { entries := reactions.entries ++ [node] }

/-- The function `get_move_reaction`: the node returned and the map after the call. -/
def get_move_reaction (reactions : treemap) (newboard : gameboard) : turn_node × treemap :=
  match treemap_lookup reactions newboard with
  | some nturn => (nturn, reactions)
  | none =>
    let nturn := turn_node_new newboard
    (nturn, treemap_insert reactions nturn)

/-- The keys of the map are pairwise different boards. -/
def distinct_keys (reactions : treemap) : Prop :=
  reactions.entries.Pairwise (fun a b => a.board ≠ b.board)

/-- A map whose only entry is a node of the empty board with learned worths. -/
def learned_map : treemap := { entries := [drained_root] }

/-! ## The human move of the interactive session -/

/-- The human turn of `main` once `scanf` has read the integers `x` and `y`: `x += y*3`, then the
move is refused (`none`, the board as it was) when `x >= 9 || board[x] != EMPTY`, and otherwise
`board[x] = X`. For a negative `x` the test reads `board[x]` outside the array. -/
def human_move (board : gameboard) (x y : Int) : Except fault (Option gameboard) :=
  let x := x + y * 3
  if x ≥ 9 then Except.ok none
  else if x < 0 then Except.error fault.out_of_bounds
  else if cell board x.toNat ≠ EMPTY then Except.ok none
  else Except.ok (some (set_cell board x.toNat X))

/-- The fresh node of the board `X X O / O . X / . O .`: three decisions of worth 100, no forced
move. -/
def fresh_three : turn_node :=
  turn_node_new (board_of ['X', 'X', 'O', 'O', '.', 'X', '.', 'O', '.'])

/-! ## Knowledge and self-play -/

/-- A pointer to a turn node owned by a `struct knowledge`: its root node `first`, or the node
stored in `reactions` under a board. -/
inductive node_ref where
  | first
  | reaction (key : gameboard)

/-- The record `struct knowledge`; the pointer `node` refers to `first` or to a node of
`reactions`. -/
structure knowledge where
  first : turn_node
  node : node_ref
  reactions : treemap

/-- The function `knowledge_new`. -/
def knowledge_new (player : Char) : knowledge :=
  { first := if player = X then turn_node_new EMPTY_BOARD else turn_node_new_fromnone,
    node := node_ref.first,
    reactions := treemap_new }

/-- The entries of a map after a write through a pointer to the node stored under `key`: the first
entry with that board is replaced by the node as written. -/
def store_entry (key : gameboard) (n : turn_node) : List turn_node → List turn_node
  | [] => []
  | e :: rest =>
    if compar_board e.board key = 0 then n :: rest else e :: store_entry key n rest

/-- The node a pointer refers to. -/
def knowledge_deref (k : knowledge) : node_ref → Option turn_node
  | node_ref.first => some k.first
  | node_ref.reaction key => treemap_lookup k.reactions key

/-- The knowledge after the node a pointer refers to has been written. -/
def knowledge_store (k : knowledge) (ref : node_ref) (n : turn_node) : knowledge :=
  match ref with
  | node_ref.first => { k with first := n }
  | node_ref.reaction key =>
    { k with reactions := { entries := store_entry key n k.reactions.entries } }

/-- The call `turn_node_mark_good(node)` for a pointer into `k`; the loop gets the fuel that
suffices for every node with a valid `lastMove`. -/
def mark_good_at (k : knowledge) (ref : node_ref) : Except fault knowledge :=
  match knowledge_deref k ref with
  | none => Except.error fault.out_of_bounds
  | some n =>
    match turn_node_mark_good (4 * n.actions.length + 200) n with
    | Except.error e => Except.error e
    | Except.ok n' => Except.ok (knowledge_store k ref n')

/-- The call `turn_node_mark_bad(node)` for a pointer into `k`; the loop gets the fuel that
suffices for every node with a valid `lastMove`. -/
def mark_bad_at (k : knowledge) (ref : node_ref) : Except fault knowledge :=
  match knowledge_deref k ref with
  | none => Except.error fault.out_of_bounds
  | some n =>
    match turn_node_mark_bad (2 * n.actions.length + 100) n with
    | Except.error e => Except.error e
    | Except.ok n' => Except.ok (knowledge_store k ref n')

/-- What a frame of `self_play_recursive` does, in the order of execution: the move it writes on
the board (with the node it moved from and the board before the write), and the update it applies
to that node (`good` for `turn_node_mark_good`, otherwise `turn_node_mark_bad`). -/
inductive play_event where
  | moved (turn : Char) (ref : node_ref) (pos : Nat) (before : gameboard)
  | marked (turn : Char) (ref : node_ref) (good : Bool)

/-- The state when a call of `self_play_recursive` returns: the marker returned, the board, the
two knowledge records (in the roles of the call), the number of random draws made so far, and the
events of the call. -/
structure play_result where
  winner : Char
  board : gameboard
  active : knowledge
  inactive : knowledge
  tick : Nat
  events : List play_event

/-- The function `self_play_recursive`. `rand k` is the value of the `k`-th call of `rand()`,
`tick` the number of calls made so far, `depth` a bound on the nesting of the recursion. -/
def self_play_recursive (rand : Nat → Nat) :
    Nat → gameboard → knowledge → knowledge → Char → Nat → Except fault play_result
  | 0, _, _, _, _, _ => Except.error fault.out_of_fuel
  | depth + 1, board, active, inactive, turn, tick =>
    let node := active.node
    match knowledge_deref active node with
    | none => Except.error fault.out_of_bounds
    | some n =>
      match turn_node_make_move n (rand tick) with
      | Except.error e => Except.error e
      | Except.ok (n', decision) =>
        let active := knowledge_store active node n'
        let move := play_event.moved turn node decision.pos board
        let board := set_cell board decision.pos turn
        let state := gameboard_get_state board turn
        if state = board_state.board_won ∨ state = board_state.board_complete then
          match mark_good_at active node with
          | Except.error e => Except.error e
          | Except.ok active =>
            Except.ok { winner := turn, board := board, active := active, inactive := inactive,
                        tick := tick + 1, events := [move, play_event.marked turn node true] }
        else
          let inactive : knowledge :=
            { inactive with
              node := node_ref.reaction board,
              reactions := (get_move_reaction inactive.reactions board).2 }
          match self_play_recursive rand depth board inactive active
              (if turn = X then O else X) (tick + 1) with
          | Except.error e => Except.error e
          | Except.ok r =>
            if r.winner = turn then
              match mark_good_at r.inactive node with
              | Except.error e => Except.error e
              | Except.ok active =>
                Except.ok { winner := turn, board := r.board, active := active,
                            inactive := r.active, tick := r.tick,
                            events := move :: r.events ++ [play_event.marked turn node true] }
            else
              match mark_bad_at r.inactive node with
              | Except.error e => Except.error e
              | Except.ok active =>
                Except.ok { winner := if turn = O then X else O, board := r.board,
                            active := active, inactive := r.active, tick := r.tick,
                            events := move :: r.events ++ [play_event.marked turn node false] }

/-- The state of the training loop of `aquire_knowledge`: the two knowledge records, the number of
random draws made, and the events of the games played so far, the first game first. -/
structure training_state where
  us : knowledge
  them : knowledge
  tick : Nat
  games : List (List play_event)

/-- The loop of `aquire_knowledge` for the given number of games. -/
def training_loop (rand : Nat → Nat) (depth : Nat) :
    Nat → training_state → Except fault training_state
  | 0, s => Except.ok s
  | games + 1, s =>
    let board := EMPTY_BOARD
    match self_play_recursive rand depth board s.them s.us X s.tick with
    | Except.error e => Except.error e
    | Except.ok r =>
      training_loop rand depth games
        { us := r.inactive, them := r.active, tick := r.tick, games := s.games ++ [r.events] }

/-- The function `aquire_knowledge`, with the number of games (1000000 in the source) as a
parameter; the result keeps both knowledge records. -/
def aquire_knowledge (rand : Nat → Nat) (depth games : Nat) : Except fault training_state :=
  training_loop rand depth games
    { us := knowledge_new O, them := knowledge_new X, tick := 0, games := [] }

/-- The cells of a board as a list, row by row. -/
def board_cells (board : gameboard) : List Char :=
  (List.range 9).map (cell board)

/-- An event in plain data: the marker, the cells of the board the node is stored under (`none`
for the root node `first`), and the position moved to or the kind of update. -/
structure event_data where
  turn : Char
  key : Option (List Char)
  pos : Option Nat
  good : Option Bool
  deriving DecidableEq

/-- The plain data of an event. -/
def event_summary : play_event → event_data
  | play_event.moved turn node_ref.first pos _ =>
    { turn := turn, key := none, pos := some pos, good := none }
  | play_event.moved turn (node_ref.reaction key) pos _ =>
    { turn := turn, key := some (board_cells key), pos := some pos, good := none }
  | play_event.marked turn node_ref.first good =>
    { turn := turn, key := none, pos := none, good := some good }
  | play_event.marked turn (node_ref.reaction key) good =>
    { turn := turn, key := some (board_cells key), pos := none, good := some good }

/-- The first event of each of the first two training games when every draw is 0. -/
def two_games_openings : Option (List (Option event_data)) :=
  (aquire_knowledge (fun _ => 0) 9 2).toOption.map
    (fun s => s.games.map (fun g => g.head?.map event_summary))

/-- One frame of a self-play game: the mover's marker, the node it moved from, the position it
moved to and the board before the move. -/
structure frame where
  turn : Char
  ref : node_ref
  pos : Nat
  before : gameboard

/-- The frames of a game follow each other: the markers alternate from `turn` on, the first frame
starts on `board`, and each frame starts on the board of the frame before it with that frame's
move written and no other cell changed. -/
def frames_chain : Char → gameboard → List frame → Prop
  | _, _, [] => True
  | t, b, f :: fs =>
    f.turn = t ∧ f.before = b ∧ frames_chain (if t = X then O else X) (set_cell b f.pos t) fs

/-- The events of a game with the given frames when the marker `winner` is returned: the moves in
order, then the updates from the last frame to the first, `turn_node_mark_good` for the frames of
`winner` and `turn_node_mark_bad` for the others. -/
def frames_events (winner : Char) (frames : List frame) : List play_event :=
  frames.map (fun f => play_event.moved f.turn f.ref f.pos f.before) ++
    frames.reverse.map (fun f => play_event.marked f.turn f.ref (decide (f.turn = winner)))

/-- Every decision of the node is for a cell in `0 .. 8` that is EMPTY on the node's board. -/
def node_wf (n : turn_node) : Prop :=
  ∀ d ∈ n.actions, d.pos < 9 ∧ cell n.board d.pos = EMPTY

/-- Every node owned by the knowledge record is well-formed in the sense of `node_wf`. -/
def knowledge_wf (k : knowledge) : Prop :=
  node_wf k.first ∧ ∀ e ∈ k.reactions.entries, node_wf e

/-- A move event writes into a cell in `0 .. 8` that is EMPTY on the board before the move. -/
def event_safe : play_event → Prop
  | play_event.moved _ _ pos before => pos < 9 ∧ cell before pos = EMPTY
  | play_event.marked _ _ _ => True

/-- The forced decision of `turn_node_new board` is the one for cell `c`: `win` is the index of
that decision, which holds the whole `sum`, and every other decision has worth 0. -/
def forced_decision (board : gameboard) (c : Nat) : Prop :=
  ∃ (w : Nat) (d : decision), (turn_node_new_scan board).win = (w : Int) ∧
    (turn_node_new board).actions[w]? = some d ∧ d.pos = c ∧
    d.worth = (turn_node_new board).sum ∧
    ∀ (j : Nat) (e : decision), j ≠ w → (turn_node_new board).actions[j]? = some e → e.worth = 0

/-- The node that `turn_node_mark_good` returns for `drained_root`: the worths add up to 959 while
`sum` is 900. -/
def reinforced_root : turn_node :=
  { board := EMPTY_BOARD, sum := 900, lastMove := 0,
    actions := [decision_new 0 540, decision_new 1 0, decision_new 2 59, decision_new 3 58,
      decision_new 4 58, decision_new 5 61, decision_new 6 61, decision_new 7 61,
      decision_new 8 61] }

/-- The index `lastMove` of the node is inside its decision array. -/
def valid_last (n : turn_node) : Prop :=
  0 ≤ n.lastMove ∧ n.lastMove < (n.actions.length : Int)

/-- A node on which `turn_node_make_move` can select a move: it is well-formed, has a decision,
its worths are at least 0, and `1 ≤ sum ≤` total worth. -/
def node_live (n : turn_node) : Prop :=
  node_wf n ∧ n.actions ≠ [] ∧ (∀ d ∈ n.actions, 0 ≤ d.worth) ∧ 1 ≤ n.sum ∧
    n.sum ≤ total_worth n.actions

/-- Every node stored in the map of the knowledge record is live. -/
def knowledge_live (k : knowledge) : Prop :=
  ∀ e ∈ k.reactions.entries, node_live e

/-- Every pointer that refers to a live node of `k` refers to a live node of `k'`, with a valid
`lastMove` if it had one in `k`. -/
def knowledge_ext (k k' : knowledge) : Prop :=
  ∀ (ref : node_ref) (n : turn_node), knowledge_deref k ref = some n → node_live n →
    ∃ n', knowledge_deref k' ref = some n' ∧ node_live n' ∧ (valid_last n → valid_last n')

/-- The pointer `node` of the knowledge record refers to a live node. -/
def pointer_live (k : knowledge) : Prop :=
  ∃ n, knowledge_deref k k.node = some n ∧ node_live n

end TicTacToe

namespace CInt

/-! ## The arithmetic of `int` -/

/-- The smallest value of an `int` (32 bits, two's complement). -/
def INT_MIN : Int := -2147483648

/-- The largest value of an `int`. -/
def INT_MAX : Int := 2147483647

/-- The `int` that holds the mathematical result `x` of an addition or subtraction: `x` itself
when it lies in `INT_MIN .. INT_MAX`, and otherwise `x` reduced modulo `2 ^ 32` into that range
(signed overflow is undefined behaviour in C; the wrap-around is what the compiled `+=` and `-=`
of these programs produce). -/
def wrap (x : Int) : Int :=
  (x + 2147483648) % 4294967296 - 2147483648

/-- The sum `a + b` of two `int`s, as stored in an `int`. -/
def add (a b : Int) : Int :=
  wrap (a + b)

/-- The difference `a - b` of two `int`s, as stored in an `int`. -/
def sub (a b : Int) : Int :=
  wrap (a - b)

/-- The integer `x` is a value of type `int`. -/
@[reducible]
def fits (x : Int) : Prop :=
  INT_MIN ≤ x ∧ x ≤ INT_MAX

end CInt

namespace Knapsack1

/-! ## The exhaustive knapsack search of `knapsack1.c` -/

/-- The record `struct k_item`. -/
structure k_item where
  cost : Int
  value : Int
  name : String
  deriving DecidableEq

/-- The record `struct k_sack`: the items added so far, in the order of addition (`itemSz` is the
length of the list; `itemCap` only concerns the allocation). -/
structure k_sack where
  items : List k_item
  deriving DecidableEq

/-- The function `k_sack_new`. -/
def k_sack_new : k_sack :=
  { items := [] }

/-- The function `k_sack_copy`. -/
def k_sack_copy (sack : k_sack) : k_sack :=
  { items := sack.items }

/-- The function `k_sack_add_item`. -/
def k_sack_add_item (sack : k_sack) (item : k_item) : k_sack :=
  { items := sack.items ++ [item] }

/-- The function `k_sack_sum_up`: the values it stores in `*cost` and `*value`, two `int`s to
which the cost and the value of each item are added in turn. -/
def k_sack_sum_up (sack : k_sack) : Int × Int :=
  sack.items.foldl (fun acc item => (CInt.add acc.1 item.cost, CInt.add acc.2 item.value)) (0, 0)

/-- The record `struct k_solution`. -/
structure k_solution where
  limit : Int
  bestCost : Int
  bestValue : Int
  bestSack : Option k_sack

/-- The function `k_solution_new`, which only sets `bestSack`; the other fields hold whatever the
allocated memory held, given here as arguments. -/
def k_solution_new (limit bestCost bestValue : Int) : k_solution :=
  { limit := limit, bestCost := bestCost, bestValue := bestValue, bestSack := none }

/-- The function `k_solution_check_sack`: the value returned and the solution after the call. -/
def k_solution_check_sack (sol : k_solution) (sack : k_sack) : Bool × k_solution :=
  let sums := k_sack_sum_up sack
  let cost := sums.1
  let value := sums.2
  let better : Bool :=
    match sol.bestSack with
    | none => true
    | some _ => decide (value > sol.bestValue)
  if cost ≤ sol.limit ∧ better = true then
    (true, { sol with bestCost := cost, bestValue := value, bestSack := some sack })
  else (false, sol)

/-- The function `knapsack_candidates_recursive`: the list is the null-terminated array `item`
points into, the result is the global `solution` after the call. -/
def knapsack_candidates_recursive : List k_item → k_sack → k_solution → k_solution
  | [], sack, sol => (k_solution_check_sack sol sack).2
  | item :: rest, sack, sol =>
    let right := k_sack_copy sack
    let sol := knapsack_candidates_recursive rest sack sol
    let right := k_sack_add_item right item
    knapsack_candidates_recursive rest right sol

/-- The total cost of a list of items. -/
def items_cost (l : List k_item) : Int :=
  (l.map k_item.cost).sum

/-- The total value of a list of items. -/
def items_value (l : List k_item) : Int :=
  (l.map k_item.value).sum

/-- The fields `bestCost` and `bestValue` are the sums that `k_sack_sum_up` computes for the
recorded sack, if there is one. -/
def solution_ok (sol : k_solution) : Prop :=
  ∀ b, sol.bestSack = some b →
    sol.bestCost = (k_sack_sum_up b).1 ∧ sol.bestValue = (k_sack_sum_up b).2

/-- No sum overflows: the total cost and the total value of every subset of the items are values
of type `int`. -/
@[reducible]
def no_overflow (items : List k_item) : Prop :=
  ∀ sub ∈ items.sublists, CInt.fits (items_cost sub) ∧ CInt.fits (items_value sub)

/-- Three items used in the examples: with cost limit 5 the best subset is the first two items,
of value 7. -/
def sample_items : List k_item :=
  [{ cost := 2, value := 3, name := "a" }, { cost := 3, value := 4, name := "b" },
    { cost := 4, value := 5, name := "c" }]

/-- Two items whose costs add up to `INT_MAX + 1`; with cost limit 0 the only subset within the
limit is the empty one. -/
def overflow_items : List k_item :=
  [{ cost := 2147483647, value := 10, name := "a" }, { cost := 1, value := 10, name := "b" }]

end Knapsack1

namespace Knapsack2

/-! ## The knapsack searches of `knapsack2.c` -/

/-- The record `struct k_item`. -/
structure k_item where
  cost : Int
  value : Int
  name : String
  deriving DecidableEq

/-- The record `struct k_sack`: the items added so far, in the order of addition (`itemSz` is the
length of the list; `itemCap` only concerns the allocation), with their running cost and value. -/
structure k_sack where
  cost : Int
  value : Int
  items : List k_item
  deriving DecidableEq

/-- The function `k_sack_new`. -/
def k_sack_new : k_sack :=
  { cost := 0, value := 0, items := [] }

/-- The function `k_sack_copy`. -/
def k_sack_copy (sack : k_sack) : k_sack :=
  { cost := sack.cost, value := sack.value, items := sack.items }

/-- The function `k_sack_add_item`: `sack->cost += item->cost` and `sack->value += item->value`
are additions on `int`. -/
def k_sack_add_item (sack : k_sack) (item : k_item) : k_sack :=
  { items := sack.items ++ [item], cost := CInt.add sack.cost item.cost,
    value := CInt.add sack.value item.value }

/-- The record `struct k_solution`; `sackCounter` is a `size_t`. -/
structure k_solution where
  sackCounter : Nat
  sack : Option k_sack

/-- The function `k_solution_new`. -/
def k_solution_new : k_solution :=
  { sackCounter := 0, sack := none }

/-- The record `struct k_info` of the global `globlInfo`, which the searches only read. -/
structure k_info where
  limit : Int
  lowerValueBound : Int
  upperValueBound : Int
  deriving DecidableEq

/-- The function `k_solution_check_sack`: the value returned and the solution after the call. -/
def k_solution_check_sack (info : k_info) (sol : k_solution) (sack : k_sack) :
    Bool × k_solution :=
  let better : Bool :=
    match sol.sack with
    | none => true
    | some best => decide (sack.value > best.value)
  if sack.cost ≤ info.limit ∧ better = true then
    (true, { sol with sack := some sack })
  else (false, sol)

/-- The statement `++globlSolution->sackCounter`. -/
def count_sack (sol : k_solution) : k_solution :=
  { sol with sackCounter := (sol.sackCounter + 1) % 2 ^ 64 }

/-- The function `knapsack_bruteforce_recursive`: the list is the null-terminated array `item`
points into, the result is the global solution after the call. -/
def knapsack_bruteforce_recursive (info : k_info) :
    List k_item → k_sack → k_solution → k_solution
  | [], sack, sol =>
    let sol := count_sack sol
    (k_solution_check_sack info sol sack).2
  | item :: rest, sack, sol =>
    let right := k_sack_copy sack
    let sol := knapsack_bruteforce_recursive info rest sack sol
    let right := k_sack_add_item right item
    knapsack_bruteforce_recursive info rest right sol

/-- The function `knapsack_optimized1_recursive`. -/
def knapsack_optimized1_recursive (info : k_info) :
    List k_item → k_sack → k_solution → k_solution
  | [], sack, sol =>
    let sol := count_sack sol
    (k_solution_check_sack info sol sack).2
  | item :: rest, sack, sol =>
    let right := k_sack_copy sack
    let right := k_sack_add_item right item
    let sol :=
      if right.cost ≤ info.limit then knapsack_optimized1_recursive info rest right sol
      else sol
    knapsack_optimized1_recursive info rest sack sol

/-- The function `knapsack_optimized2_recursive`: the value returned (`true` for 1, `false` for
0) and the global solution after the call. -/
def knapsack_optimized2_recursive (info : k_info) :
    List k_item → k_sack → k_solution → Bool × k_solution
  | [], sack, sol =>
    let sol := count_sack sol
    if sack.value < info.lowerValueBound then (false, sol)
    else (true, (k_solution_check_sack info sol sack).2)
  | item :: rest, sack, sol =>
    let right := k_sack_copy sack
    let right := k_sack_add_item right item
    if right.cost ≤ info.limit then
      let res := knapsack_optimized2_recursive info rest right sol
      if res.1 = false then (false, res.2)
      else (true, (knapsack_optimized2_recursive info rest sack res.2).2)
    else (true, (knapsack_optimized2_recursive info rest sack sol).2)

/-- The sack after the items of `sub` have been added to it, one `k_sack_add_item` each. -/
def sack_with (sack : k_sack) (sub : List k_item) : k_sack :=
  sub.foldl k_sack_add_item sack

/-- The total cost of a list of items. -/
def items_cost (l : List k_item) : Int :=
  (l.map k_item.cost).sum

/-- The total value of a list of items. -/
def items_value (l : List k_item) : Int :=
  (l.map k_item.value).sum

/-- The recorded sack `res` is a best subset of `items` under the cost limit: if a sack is
recorded, its items are a subset of `items` (a sublist, the items in their order) of total cost
at most `limit`, and its fields `cost` and `value` are the totals of its items; and every subset
of total cost at most `limit` is matched in value by the recorded sack (so a sack is recorded as
soon as some subset fits). -/
def is_best (limit : Int) (items : List k_item) (res : Option k_sack) : Prop :=
  (∀ b, res = some b → b.items.Sublist items ∧ items_cost b.items ≤ limit ∧
    b.cost = items_cost b.items ∧ b.value = items_value b.items) ∧
  (∀ sub : List k_item, sub.Sublist items → items_cost sub ≤ limit →
    ∃ b, res = some b ∧ items_value sub ≤ items_value b.items)

/-- Three items and the value bound used in the examples: with cost limit 5 the best subset is
the first two items, of value 7. -/
def sample_items : List k_item :=
  [{ cost := 2, value := 3, name := "a" }, { cost := 3, value := 4, name := "b" },
    { cost := 4, value := 5, name := "c" }]

/-- The global `globlInfo` for the examples: cost limit 5, lower value bound 7. -/
def sample_info : k_info :=
  { limit := 5, lowerValueBound := 7, upperValueBound := 0 }

/-- Two items whose costs add up to `INT_MAX + 1`; with cost limit 0 the only subset within the
limit is the empty one. -/
def overflow_items : List k_item :=
  [{ cost := 2147483647, value := 10, name := "a" }, { cost := 1, value := 10, name := "b" }]

/-- The global `globlInfo` for `overflow_items`: cost limit 0, lower value bound 0. -/
def overflow_info : k_info :=
  { limit := 0, lowerValueBound := 0, upperValueBound := 0 }

/-- No sum overflows: the total cost and the total value of every subset of the items are values
of type `int`. -/
@[reducible]
def no_overflow (items : List k_item) : Prop :=
  ∀ sub ∈ items.sublists, CInt.fits (items_cost sub) ∧ CInt.fits (items_value sub)

/-- The running cost and value of `sack` stay exact while items of `items` are added to it: for
every subset of `items`, the sack with the subset added holds the cost and value of `sack` plus
the totals of the subset. -/
def sack_exact (sack : k_sack) (items : List k_item) : Prop :=
  ∀ s : List k_item, s.Sublist items →
    (sack_with sack s).cost = sack.cost + items_cost s ∧
    (sack_with sack s).value = sack.value + items_value s

/-- The loop of `greedy_highest_value` and of `greedy_highest_ratio` over the array as `qsort`
left it: `leftover` is the cost still available, `sack` the sack of the solution. -/
def greedy_fill : List k_item → Int → k_sack → k_sack
  | [], _, sack => sack
  | item :: rest, leftover, sack =>
    if item.cost ≤ leftover then
      greedy_fill rest (CInt.sub leftover item.cost) (k_sack_add_item sack item)
    else greedy_fill rest leftover sack

/-- The loop of `greedy_lowest_cost` over the array as `qsort` left it: it stops at the first
item that does not fit. -/
def greedy_fill_break : List k_item → Int → k_sack → k_sack
  | [], _, sack => sack
  | item :: rest, leftover, sack =>
    if item.cost ≤ leftover then
      greedy_fill_break rest (CInt.sub leftover item.cost) (k_sack_add_item sack item)
    else sack

/-- The function `greedy_highest_value`; `sorted` is the array after its call of `qsort` (a
library function, which permutes the array). -/
def greedy_highest_value (info : k_info) (sorted : List k_item) : k_solution :=
  { k_solution_new with sack := some (greedy_fill sorted info.limit k_sack_new) }

/-- The function `greedy_lowest_cost`; `sorted` is the array after its call of `qsort`. -/
def greedy_lowest_cost (info : k_info) (sorted : List k_item) : k_solution :=
  { k_solution_new with sack := some (greedy_fill_break sorted info.limit k_sack_new) }

/-- The function `greedy_highest_ratio`; `sorted` is the array after its call of `qsort`. -/
def greedy_highest_ratio (info : k_info) (sorted : List k_item) : k_solution :=
  { k_solution_new with sack := some (greedy_fill sorted info.limit k_sack_new) }

/-- The function `k_info_init`, applied to the global `globlInfo`. -/
def k_info_init (info : k_info) : k_info :=
  { info with lowerValueBound := 0, upperValueBound := 0 }

/-- The function `k_info_update_lower_value_bound`, applied to the global `globlInfo`; it is only
called on solutions that hold a sack. -/
def k_info_update_lower_value_bound (info : k_info) (sol : k_solution) : k_info :=
  match sol.sack with
  | none => info
  | some sack =>
    if sack.value > info.lowerValueBound then { info with lowerValueBound := sack.value }
    else info

/-- The global `globlInfo` when `knapsack` starts the searches: the zero-initialised global after
`k_info_init`, with the cost limit read from the input. -/
def knapsack_info_start (limit : Int) : k_info :=
  { k_info_init { limit := 0, lowerValueBound := 0, upperValueBound := 0 } with limit := limit }

/-- The global `globlInfo` when `knapsack` starts the searches: the three greedy solutions are
folded into the lower value bound; `byValue`, `byCost` and `byRatio` are the item array as the
three calls of `qsort` left it. -/
def knapsack_info (limit : Int) (byValue byCost byRatio : List k_item) : k_info :=
  let info := knapsack_info_start limit
  let info := k_info_update_lower_value_bound info (greedy_highest_value info byValue)
  let info := k_info_update_lower_value_bound info (greedy_lowest_cost info byCost)
  k_info_update_lower_value_bound info (greedy_highest_ratio info byRatio)

/-- The lower value bound is admissible: it is at most the total value of some subset of the
items whose total cost is at most the limit. -/
def bound_admissible (items : List k_item) (info : k_info) : Prop :=
  ∃ sub : List k_item, sub.Sublist items ∧ items_cost sub ≤ info.limit ∧
    info.lowerValueBound ≤ items_value sub

end Knapsack2

namespace GaKnapsack

/-! ## The mutation step of `ga-knapsack.c` -/

/-- The update `bits[t] ^= bits[t] & (0x1<<u)` that `gak_candidate_mutate` and
`gak_population_cataclysmic_mutation` apply to the byte `b = bits[t]` (a `uint8_t`): the operands
are promoted to `int`, and the result is stored back into the byte. -/
def mutate_byte (b u : Nat) : Nat :=
  (b ^^^ (b &&& (1 <<< u))) % 2 ^ 8

end GaKnapsack

namespace TicTacToe

/-! ## Lemmas on the board -/

theorem cell_lt (board : gameboard) (i : Nat) (h : i < 9) : cell board i = board ⟨i, h⟩ := by
  simp [cell, h]

theorem scan_complete_iff (board : gameboard) (l : List Nat) :
    scan_complete board l = true ↔ ∀ i ∈ l, cell board i ≠ EMPTY := by
  induction l with
  | nil => simp [scan_complete]
  | cons i rest ih =>
    by_cases h : cell board i = EMPTY
    · simp [scan_complete, h]
    · simp [scan_complete, h, ih]

theorem scan_complete_range (board : gameboard) :
    scan_complete board (List.range 9) = true ↔ ∀ k : Fin 9, board k ≠ EMPTY := by
  rw [scan_complete_iff]
  constructor
  · intro h k
    have := h k.val (List.mem_range.mpr k.isLt)
    rwa [cell_lt board k.val k.isLt] at this
  · intro h i hi
    rw [cell_lt board i (List.mem_range.mp hi)]
    exact h _

theorem scan_line_three (board : gameboard) (p : Char) (step j : Nat) :
    scan_line board p step 3 j = true ↔
      cell board j = p ∧ cell board (j + step) = p ∧ cell board (j + step + step) = p := by
  by_cases h0 : cell board j = p <;> by_cases h1 : cell board (j + step) = p <;>
    by_cases h2 : cell board (j + step + step) = p <;> simp [scan_line, h0, h1, h2]

theorem scan_rows_cols_iff (board : gameboard) (p : Char) :
    scan_rows_cols board p (List.range 3) = true ↔
      (board 0 = p ∧ board 1 = p ∧ board 2 = p) ∨ (board 0 = p ∧ board 3 = p ∧ board 6 = p) ∨
      (board 3 = p ∧ board 4 = p ∧ board 5 = p) ∨ (board 1 = p ∧ board 4 = p ∧ board 7 = p) ∨
      (board 6 = p ∧ board 7 = p ∧ board 8 = p) ∨ (board 2 = p ∧ board 5 = p ∧ board 8 = p) := by
  have hr : List.range 3 = [0, 1, 2] := rfl
  have c0 : cell board 0 = board 0 := rfl
  have c1 : cell board 1 = board 1 := rfl
  have c2 : cell board 2 = board 2 := rfl
  have c3 : cell board 3 = board 3 := rfl
  have c4 : cell board 4 = board 4 := rfl
  have c5 : cell board 5 = board 5 := rfl
  have c6 : cell board 6 = board 6 := rfl
  have c7 : cell board 7 = board 7 := rfl
  have c8 : cell board 8 = board 8 := rfl
  rw [hr]
  simp only [scan_rows_cols, Bool.if_true_left, Bool.or_eq_true, decide_eq_true_eq,
    scan_line_three, Bool.or_false, ite_eq_left_iff, Bool.not_eq_true]
  norm_num [c0, c1, c2, c3, c4, c5, c6, c7, c8]

/-- The eight lines, regrouped the way `gameboard_get_state` tests them. -/
theorem eight_lines_iff (a0 a1 a2 a3 a4 a5 a6 a7 a8 : Prop) :
    ((a0 ∧ a1 ∧ a2) ∨ (a3 ∧ a4 ∧ a5) ∨ (a6 ∧ a7 ∧ a8) ∨ (a0 ∧ a3 ∧ a6) ∨
      (a1 ∧ a4 ∧ a7) ∨ (a2 ∧ a5 ∧ a8) ∨ (a0 ∧ a4 ∧ a8) ∨ (a2 ∧ a4 ∧ a6)) ↔
    (((a0 ∧ a1 ∧ a2) ∨ (a0 ∧ a3 ∧ a6) ∨ (a3 ∧ a4 ∧ a5) ∨ (a1 ∧ a4 ∧ a7) ∨
      (a6 ∧ a7 ∧ a8) ∨ (a2 ∧ a5 ∧ a8)) ∨ (a4 ∧ ((a0 ∧ a8) ∨ (a2 ∧ a6)))) := by
  constructor
  · rintro (h | h | h | h | h | h | h | h) <;>
      simp only [h, and_self, true_or, or_true, true_and]
  · rintro ((h | h | h | h | h | h) | ⟨h4, (h | h)⟩) <;>
      simp only [*, and_self, true_or, or_true, true_and]

/-! ## Claims on the board -/

/-- Claim C4: `gameboard_get_state board p` is `board_won` exactly when one of the 8 lines is
filled with `p`; otherwise it is `board_complete` exactly when no cell is EMPTY; otherwise it is
`board_incomplete`. So a full board with three in a row for `p` is won, not complete. This holds
for every marker `p`, in particular for X and O. -/
theorem gameboard_get_state_spec (board : gameboard) (p : Char) :
    let line : Prop :=
      (board 0 = p ∧ board 1 = p ∧ board 2 = p) ∨ (board 3 = p ∧ board 4 = p ∧ board 5 = p) ∨
      (board 6 = p ∧ board 7 = p ∧ board 8 = p) ∨ (board 0 = p ∧ board 3 = p ∧ board 6 = p) ∨
      (board 1 = p ∧ board 4 = p ∧ board 7 = p) ∨ (board 2 = p ∧ board 5 = p ∧ board 8 = p) ∨
      (board 0 = p ∧ board 4 = p ∧ board 8 = p) ∨ (board 2 = p ∧ board 4 = p ∧ board 6 = p)
    (gameboard_get_state board p = board_state.board_won ↔ line) ∧
    (gameboard_get_state board p = board_state.board_complete ↔
      ¬ line ∧ ∀ k : Fin 9, board k ≠ EMPTY) ∧
    (gameboard_get_state board p = board_state.board_incomplete ↔
      ¬ line ∧ ∃ k : Fin 9, board k = EMPTY) ∧
    ((line ∧ ∀ k : Fin 9, board k ≠ EMPTY) →
      gameboard_get_state board p = board_state.board_won ∧
      gameboard_get_state board p ≠ board_state.board_complete) := by
  intro line
  have c0 : cell board 0 = board 0 := rfl
  have c2 : cell board 2 = board 2 := rfl
  have c4 : cell board 4 = board 4 := rfl
  have c6 : cell board 6 = board 6 := rfl
  have c8 : cell board 8 = board 8 := rfl
  have hrc := scan_rows_cols_iff board p
  have hc := scan_complete_range board
  have hline : line ↔ (scan_rows_cols board p (List.range 3) = true ∨
      (board 4 = p ∧ ((board 0 = p ∧ board 8 = p) ∨ (board 2 = p ∧ board 6 = p)))) := by
    rw [hrc]; exact eight_lines_iff _ _ _ _ _ _ _ _ _
  by_cases h1 : scan_rows_cols board p (List.range 3) = true
  · have hl : line := hline.mpr (Or.inl h1)
    simp [gameboard_get_state, h1, hl]
  · by_cases h2 : board 4 = p ∧ ((board 0 = p ∧ board 8 = p) ∨ (board 2 = p ∧ board 6 = p))
    · have hl : line := hline.mpr (Or.inr h2)
      simp [gameboard_get_state, h1, c0, c2, c4, c6, c8, h2, hl]
    · have hl : ¬ line := fun h => (hline.mp h).elim h1 h2
      by_cases h3 : scan_complete board (List.range 9) = true
      · have h3a := hc.mp h3
        have : ¬ ∃ k : Fin 9, board k = EMPTY := fun ⟨k, hk⟩ => h3a k hk
        simp [gameboard_get_state, h1, c0, c2, c4, c6, c8, h2, hl, h3, h3a, this]
      · have h3a : ¬ ∀ k : Fin 9, board k ≠ EMPTY := fun h => h3 (hc.mpr h)
        have h3b : ∃ k : Fin 9, board k = EMPTY := by
          by_contra hne
          exact h3a (fun k hk => hne ⟨k, hk⟩)
        simp [gameboard_get_state, h1, c0, c2, c4, c6, c8, h2, hl, h3, h3a, h3b]


theorem set_cell_eq_update (board : gameboard) (pos : Fin 9) (p : Char) :
    set_cell board pos.val p = Function.update board pos p := by
  funext k
  by_cases h : k = pos
  · subst h; simp [set_cell]
  · have h2 : k.val ≠ pos.val := fun e => h (Fin.ext e)
    simp [set_cell, h, h2]

/-- Claim C5: when `board[pos]` is EMPTY, `gameboard_would_move board p pos` is `move_win`,
`move_draw` or `move_good` according to whether `gameboard_get_state` of the board with `p` placed
at `pos` is `board_won`, `board_complete` or `board_incomplete`; the caller's board is the same
after the call. This holds for every marker `p`, in particular for X and O. -/
theorem gameboard_would_move_spec (board : gameboard) (p : Char) (pos : Fin 9)
    (hempty : board pos = EMPTY) :
    gameboard_would_move board p pos.val =
      (match gameboard_get_state (Function.update board pos p) p with
        | board_state.board_won => move_result.move_win
        | board_state.board_complete => move_result.move_draw
        | board_state.board_incomplete => move_result.move_good) ∧
    (gameboard_would_move_run board p pos.val).2 = board := by
  have hc : cell board pos.val = EMPTY := by rw [cell_lt board pos.val pos.isLt]; exact hempty
  constructor
  · rw [← set_cell_eq_update]
    simp only [gameboard_would_move, gameboard_would_move_run, hc, ne_eq, not_true_eq_false,
      if_false]
    cases gameboard_get_state (set_cell board pos.val p) p <;> simp
  · simp [gameboard_would_move_run, hc]

/-- Witness for C5 on the board `X X . / . O . / . . .`: cell 2 is EMPTY, and playing X there is
classified `move_win`. -/
theorem gameboard_would_move_spec_witness :
    board_of ['X', 'X', '.', '.', 'O', '.', '.', '.', '.'] 2 = EMPTY ∧
    gameboard_would_move (board_of ['X', 'X', '.', '.', 'O', '.', '.', '.', '.']) X 2 =
      move_result.move_win ∧
    gameboard_would_move_run (board_of ['X', 'X', '.', '.', 'O', '.', '.', '.', '.']) X 2 =
      (move_result.move_win, board_of ['X', 'X', '.', '.', 'O', '.', '.', '.', '.']) := by
  have h := gameboard_would_move_spec
    (board_of ['X', 'X', '.', '.', 'O', '.', '.', '.', '.']) X 2 (by decide)
  have hw : gameboard_would_move (board_of ['X', 'X', '.', '.', 'O', '.', '.', '.', '.']) X 2 =
      move_result.move_win := by decide
  refine ⟨by decide, hw, ?_⟩
  exact Prod.ext hw h.2

/-- Claim C6: on a cell that is not EMPTY, `gameboard_would_move` returns `move_bad`, for every
board, every player marker and every position in `0 .. 8`. -/
theorem gameboard_would_move_occupied (board : gameboard) (player : Char) (pos : Fin 9)
    (hocc : board pos ≠ EMPTY) :
    gameboard_would_move board player pos.val = move_result.move_bad := by
  have hc : cell board pos.val ≠ EMPTY := by rw [cell_lt board pos.val pos.isLt]; exact hocc
  simp [gameboard_would_move, gameboard_would_move_run, hc]

/-- Witness for C6: the centre of `X X . / . O . / . . .` is taken, so X cannot move there. -/
theorem gameboard_would_move_occupied_witness :
    board_of ['X', 'X', '.', '.', 'O', '.', '.', '.', '.'] 4 ≠ EMPTY ∧
    gameboard_would_move (board_of ['X', 'X', '.', '.', 'O', '.', '.', '.', '.']) X 4 =
      move_result.move_bad :=
  ⟨by decide, gameboard_would_move_occupied
    (board_of ['X', 'X', '.', '.', 'O', '.', '.', '.', '.']) X 4 (by decide)⟩


/-! ## Lemmas on the decision array -/

theorem total_worth_nil : total_worth [] = 0 := rfl

theorem total_worth_cons (d : decision) (l : List decision) :
    total_worth (d :: l) = d.worth + total_worth l := by
  simp [total_worth]

theorem total_worth_append (l₁ l₂ : List decision) :
    total_worth (l₁ ++ l₂) = total_worth l₁ + total_worth l₂ := by
  simp [total_worth]

theorem total_worth_modify (w : Int) :
    ∀ (l : List decision) (i : Nat) (d : decision), l[i]? = some d →
      total_worth (l.modify (fun d => { d with worth := w }) i) = total_worth l - d.worth + w
  | [], i, d, h => by simp at h
  | a :: l, 0, d, h => by
    simp at h
    subst h
    simp [total_worth_cons]
    ring
  | a :: l, i + 1, d, h => by
    simp at h
    simp [total_worth_cons, total_worth_modify w l i d h]
    ring

theorem map_pos_modify (w : Int) (l : List decision) (i : Nat) :
    (l.modify (fun d => { d with worth := w }) i).map decision.pos = l.map decision.pos := by
  induction l generalizing i with
  | nil => simp
  | cons a l ih =>
    cases i with
    | zero => simp
    | succ i => simp [ih]

theorem map_pos_da_set_worth (l : List decision) (i w : Int) :
    (da_set_worth l i w).map decision.pos = l.map decision.pos := by
  unfold da_set_worth
  split
  · exact map_pos_modify w l _
  · rfl

theorem length_da_set_worth (l : List decision) (i w : Int) :
    (da_set_worth l i w).length = l.length := by
  unfold da_set_worth
  split <;> simp

theorem map_pos_zero_others (win : Int) (l : List decision) (i : Nat) :
    (zero_others win l i).map decision.pos = l.map decision.pos := by
  induction l generalizing i with
  | nil => simp [zero_others]
  | cons a l ih =>
    simp only [zero_others, List.map_cons, ih]
    split <;> rfl

theorem length_zero_others (win : Int) (l : List decision) (i : Nat) :
    (zero_others win l i).length = l.length := by
  induction l generalizing i with
  | nil => simp [zero_others]
  | cons a l ih => simp [zero_others, ih]

theorem getElem?_zero_others (win : Int) (l : List decision) (i j : Nat) :
    (zero_others win l i)[j]? =
      (l[j]?).map (fun d => if win ≠ ((i + j : Nat) : Int) then { d with worth := 0 } else d) := by
  induction l generalizing i j with
  | nil => simp [zero_others]
  | cons a l ih =>
    cases j with
    | zero => simp [zero_others]
    | succ j =>
      simp only [zero_others, List.getElem?_cons_succ, ih]
      have : i + 1 + j = i + (j + 1) := by omega
      rw [this]

theorem total_worth_zero_others_of_lt (win : Int) (l : List decision) (i : Nat)
    (h : win < (i : Int)) : total_worth (zero_others win l i) = 0 := by
  induction l generalizing i with
  | nil => simp [zero_others, total_worth]
  | cons a l ih =>
    have hne : win ≠ (i : Int) := by omega
    have h2 : win < ((i + 1 : Nat) : Int) := by push_cast; omega
    simp [zero_others, total_worth_cons, hne, ih (i + 1) h2]

/-- After the forcing step of `turn_node_new` the worths add up to the value written at `win`. -/
theorem total_worth_forced (s : Int) (l : List decision) (i w : Nat) (h1 : i ≤ w)
    (h2 : w < i + l.length) :
    total_worth ((zero_others (w : Int) l i).modify (fun d => { d with worth := s }) (w - i))
      = s := by
  induction l generalizing i with
  | nil => simp at h2; omega
  | cons a l ih =>
    by_cases hw : w = i
    · subst hw
      have hz := total_worth_zero_others_of_lt (w : Int) l (w + 1) (by push_cast; omega)
      simp [zero_others, total_worth_cons, hz]
    · have hlt : i + 1 ≤ w := by omega
      have hne : (w : Int) ≠ (i : Int) := by omega
      have hidx : w - i = (w - (i + 1)) + 1 := by omega
      have h3 : w < i + 1 + l.length := by simp at h2; omega
      rw [hidx]
      simp [zero_others, total_worth_cons, hne, ih (i + 1) hlt h3]


/-! ## Lemmas on the first loop of `turn_node_new` -/

theorem would_move_win_empty (board : gameboard) (p : Char) (i : Nat)
    (h : gameboard_would_move board p i = move_result.move_win) : cell board i = EMPTY := by
  by_contra hne
  simp [gameboard_would_move, gameboard_would_move_run, hne] at h

theorem step_actions (board : gameboard) (st : new_scan) (i : Nat) :
    (turn_node_new_step board st i).actions =
      if cell board i = EMPTY then st.actions ++ [decision_new i 100] else st.actions := by
  unfold turn_node_new_step
  split
  · simp only []
    split
    · rfl
    · split <;> rfl
  · rfl

theorem step_sum (board : gameboard) (st : new_scan) (i : Nat) :
    (turn_node_new_step board st i).sum =
      if cell board i = EMPTY then st.sum + 100 else st.sum := by
  unfold turn_node_new_step
  split
  · simp only []
    split
    · rfl
    · split <;> rfl
  · rfl

theorem step_win (board : gameboard) (st : new_scan) (i : Nat) :
    (turn_node_new_step board st i).win =
      if gameboard_would_move board O i = move_result.move_win then (st.actions.length : Int)
      else if st.win = -1 ∧ gameboard_would_move board X i = move_result.move_win then
        (st.actions.length : Int)
      else st.win := by
  unfold turn_node_new_step
  by_cases he : cell board i = EMPTY
  · simp only [he, if_true, decision_new]
    split
    · simp
    · split
      · simp
      · rfl
  · have hO : gameboard_would_move board O i ≠ move_result.move_win :=
      fun h => he (would_move_win_empty board O i h)
    have hX : gameboard_would_move board X i ≠ move_result.move_win :=
      fun h => he (would_move_win_empty board X i h)
    simp [he, hO, hX]

theorem fold_actions (board : gameboard) (l : List Nat) (st : new_scan) :
    (l.foldl (turn_node_new_step board) st).actions =
      st.actions ++
        (l.filter (fun i => decide (cell board i = EMPTY))).map (fun i => decision_new i 100) := by
  induction l generalizing st with
  | nil => simp
  | cons i l ih =>
    rw [List.foldl_cons, ih, step_actions]
    by_cases he : cell board i = EMPTY <;> simp [he, List.filter_cons]

theorem fold_sum (board : gameboard) (l : List Nat) (st : new_scan) :
    (l.foldl (turn_node_new_step board) st).sum =
      st.sum + 100 * ((l.filter (fun i => decide (cell board i = EMPTY))).length : Int) := by
  induction l generalizing st with
  | nil => simp
  | cons i l ih =>
    rw [List.foldl_cons, ih, step_sum]
    by_cases he : cell board i = EMPTY
    · simp [he, List.filter_cons]; ring
    · simp [he, List.filter_cons]

theorem fold_win_none (board : gameboard) (l : List Nat) (st : new_scan) :
    (l.foldl (turn_node_new_step board) st).win = -1 ↔
      st.win = -1 ∧ ∀ i ∈ l, gameboard_would_move board O i ≠ move_result.move_win ∧
        gameboard_would_move board X i ≠ move_result.move_win := by
  induction l generalizing st with
  | nil => simp
  | cons i l ih =>
    rw [List.foldl_cons, ih, step_win]
    have hlen : (st.actions.length : Int) ≠ -1 := by omega
    by_cases hO : gameboard_would_move board O i = move_result.move_win
    · simp [hO, hlen]
    · by_cases hw : st.win = -1
      · by_cases hX : gameboard_would_move board X i = move_result.move_win
        · simp [hO, hw, hX, hlen]
        · simp [hO, hw, hX]
      · simp [hO, hw]

theorem step_win_valid (board : gameboard) (st : new_scan) (i : Nat) (h : win_valid board st) :
    win_valid board (turn_node_new_step board st i) := by
  unfold win_valid
  rw [step_win, step_actions]
  by_cases hO : gameboard_would_move board O i = move_result.move_win
  · have he := would_move_win_empty board O i hO
    right
    refine ⟨st.actions.length, by simp [hO], decision_new i 100, by simp [he], ?_⟩
    exact Or.inl hO
  · by_cases hX : st.win = -1 ∧ gameboard_would_move board X i = move_result.move_win
    · have he := would_move_win_empty board X i hX.2
      right
      refine ⟨st.actions.length, by simp [hO, hX], decision_new i 100, by simp [he], ?_⟩
      exact Or.inr hX.2
    · simp only [hO, hX, if_false]
      rcases h with h | ⟨w, hw, d, hd, hwin⟩
      · exact Or.inl h
      · right
        refine ⟨w, hw, d, ?_, hwin⟩
        have hlt : w < st.actions.length := by
          rcases Nat.lt_or_ge w st.actions.length with h | h
          · exact h
          · rw [List.getElem?_eq_none h] at hd; cases hd
        split
        · rw [List.getElem?_append_left hlt]; exact hd
        · exact hd

theorem fold_win_valid (board : gameboard) (l : List Nat) (st : new_scan)
    (h : win_valid board st) : win_valid board (l.foldl (turn_node_new_step board) st) := by
  induction l generalizing st with
  | nil => exact h
  | cons i l ih => exact ih _ (step_win_valid board st i h)

/-! ## Lemmas on `turn_node_new` -/

theorem count_empty_eq (board : gameboard) :
    ((List.range 9).filter (fun i => decide (cell board i = EMPTY))).length =
      (Finset.univ.filter (fun k : Fin 9 => board k = EMPTY)).card := by
  rw [← List.map_coe_finRange, List.filter_map, List.length_map]
  have hf : ((fun i => decide (cell board i = EMPTY)) ∘ (Fin.val : Fin 9 → Nat)) =
      fun k : Fin 9 => decide (board k = EMPTY) := by
    funext k
    simp [cell_lt board k.val k.isLt]
  rw [hf, Finset.card_def, Finset.filter_val, Fin.univ_def]
  simp

theorem scan_actions (board : gameboard) :
    (turn_node_new_scan board).actions =
      ((List.range 9).filter (fun i => decide (cell board i = EMPTY))).map
        (fun i => decision_new i 100) := by
  simp [turn_node_new_scan, fold_actions]

theorem scan_sum (board : gameboard) :
    (turn_node_new_scan board).sum = 100 * ((turn_node_new_scan board).actions.length : Int) := by
  rw [scan_actions]
  simp [turn_node_new_scan, fold_sum]

theorem scan_win_valid (board : gameboard) : win_valid board (turn_node_new_scan board) :=
  fold_win_valid board _ _ (Or.inl rfl)

theorem scan_win_none (board : gameboard) :
    (turn_node_new_scan board).win = -1 ↔
      ∀ i : Fin 9, gameboard_would_move board O i.val ≠ move_result.move_win ∧
        gameboard_would_move board X i.val ≠ move_result.move_win := by
  unfold turn_node_new_scan
  rw [fold_win_none]
  constructor
  · rintro ⟨-, h⟩ i
    exact h i.val (List.mem_range.mpr i.isLt)
  · intro h
    exact ⟨rfl, fun i hi => h ⟨i, List.mem_range.mp hi⟩⟩

theorem total_worth_fresh (l : List Nat) :
    total_worth (l.map (fun i => decision_new i 100)) = 100 * (l.length : Int) := by
  induction l with
  | nil => simp [total_worth]
  | cons i l ih =>
    rw [List.map_cons, total_worth_cons, ih, List.length_cons]
    simp only [decision_new]
    push_cast
    ring

theorem turn_node_new_sum_eq (board : gameboard) :
    (turn_node_new board).sum = (turn_node_new_scan board).sum := rfl

theorem turn_node_new_map_pos (board : gameboard) :
    (turn_node_new board).actions.map decision.pos =
      (List.range 9).filter (fun i => decide (cell board i = EMPTY)) := by
  have h : (turn_node_new board).actions.map decision.pos =
      (turn_node_new_scan board).actions.map decision.pos := by
    simp only [turn_node_new]
    split
    · rw [map_pos_da_set_worth, map_pos_zero_others]
    · rfl
  rw [h, scan_actions, List.map_map]
  have : (decision.pos ∘ fun i => decision_new i 100) = id := by
    funext i; rfl
  rw [this, List.map_id]

theorem turn_node_new_length (board : gameboard) :
    (turn_node_new board).actions.length = (turn_node_new_scan board).actions.length := by
  have h1 := congrArg List.length (turn_node_new_map_pos board)
  rw [List.length_map] at h1
  rw [h1, scan_actions, List.length_map]

/-- When the first loop of `turn_node_new` leaves `win > -1`, `win` is an index into the actions,
the decision there is an immediate win for O or X, and the node's actions are the scanned ones with
the other worths zeroed and `sum` written at `win`. -/
theorem turn_node_new_forced (board : gameboard) (h : (turn_node_new_scan board).win > -1) :
    ∃ (w : Nat) (d : decision), (turn_node_new_scan board).win = (w : Int) ∧
      (turn_node_new_scan board).actions[w]? = some d ∧
      (gameboard_would_move board O d.pos = move_result.move_win ∨
        gameboard_would_move board X d.pos = move_result.move_win) ∧
      (turn_node_new board).actions =
        (zero_others (w : Int) (turn_node_new_scan board).actions 0).modify
          (fun d => { d with worth := (turn_node_new_scan board).sum }) w := by
  rcases scan_win_valid board with h0 | ⟨w, hw, d, hd, hwin⟩
  · omega
  · refine ⟨w, d, hw, hd, hwin, ?_⟩
    have h1 : (turn_node_new board).actions =
        da_set_worth (zero_others (turn_node_new_scan board).win
          (turn_node_new_scan board).actions 0) (turn_node_new_scan board).win
          (turn_node_new_scan board).sum := by
      simp only [turn_node_new]
      rw [if_pos h]
    rw [h1, hw]
    simp [da_set_worth]

theorem turn_node_new_unforced (board : gameboard) (h : ¬ (turn_node_new_scan board).win > -1) :
    (turn_node_new board).actions = (turn_node_new_scan board).actions := by
  simp only [turn_node_new, h, if_false]

theorem getElem?_lt_length {α : Type} (l : List α) (w : Nat) (d : α) (h : l[w]? = some d) :
    w < l.length := by
  rcases Nat.lt_or_ge w l.length with h1 | h1
  · exact h1
  · rw [List.getElem?_eq_none h1] at h; cases h

/-- In the forced case the decision at `win` carries the whole `sum` and the others carry 0. -/
theorem turn_node_new_forced_worths (board : gameboard)
    (h : (turn_node_new_scan board).win > -1) :
    ∃ (w : Nat) (d : decision), (turn_node_new_scan board).win = (w : Int) ∧
      (turn_node_new board).actions[w]? = some d ∧
      (gameboard_would_move board O d.pos = move_result.move_win ∨
        gameboard_would_move board X d.pos = move_result.move_win) ∧
      d.worth = (turn_node_new board).sum ∧
      ∀ (j : Nat) (e : decision), j ≠ w → (turn_node_new board).actions[j]? = some e →
        e.worth = 0 := by
  obtain ⟨w, d, hw, hd, hwin, hact⟩ := turn_node_new_forced board h
  refine ⟨w, { d with worth := (turn_node_new_scan board).sum }, hw, ?_, hwin, rfl, ?_⟩
  · rw [hact, List.getElem?_modify, getElem?_zero_others, hd]
    simp
  · intro j e hj he
    rw [hact, List.getElem?_modify, getElem?_zero_others] at he
    have hjw : ((w : Int) ≠ ((0 + j : Nat) : Int)) := by
      intro e; apply hj; rw [Nat.zero_add] at e; exact (Int.ofNat_inj.mp e).symm
    have hwj : ¬ w = j := fun e => hj e.symm
    cases hj2 : (turn_node_new_scan board).actions[j]? with
    | none => rw [hj2] at he; simp at he
    | some a =>
      rw [hj2] at he
      simp only [Option.map_some', hjw, ne_eq, not_false_eq_true, if_true, hwj, if_false,
        Option.map_eq_map, Option.some.injEq] at he
      rw [← he]

theorem turn_node_new_sum_length (board : gameboard) :
    (turn_node_new board).sum = 100 * ((turn_node_new board).actions.length : Int) := by
  rw [turn_node_new_length, turn_node_new_sum_eq, scan_sum]

/-! ## Claims on `turn_node_new` -/

/-- Claim C3: immediately after `turn_node_new board`, `sum` is 100 times the number of EMPTY
cells of the board and equals the total of the decisions' worths, forced move or not. -/
theorem turn_node_new_sum (board : gameboard) :
    (turn_node_new board).sum =
      100 * ((Finset.univ.filter (fun k : Fin 9 => board k = EMPTY)).card : Int) ∧
    (turn_node_new board).sum = total_worth (turn_node_new board).actions := by
  constructor
  · rw [turn_node_new_sum_eq, scan_sum, scan_actions, List.length_map, count_empty_eq]
  · by_cases h : (turn_node_new_scan board).win > -1
    · obtain ⟨w, d, -, hd, -, hact⟩ := turn_node_new_forced board h
      have hlt := getElem?_lt_length _ w d hd
      have := total_worth_forced (turn_node_new_scan board).sum
        (turn_node_new_scan board).actions 0 w (Nat.zero_le _) (by omega)
      rw [Nat.sub_zero] at this
      rw [hact, this, turn_node_new_sum_eq]
    · rw [turn_node_new_unforced board h, turn_node_new_sum_eq, scan_sum, scan_actions,
        total_worth_fresh, List.length_map]

/-- Claim C7: the decisions of `turn_node_new board` list exactly the positions `i` in `0 .. 8`
with `board[i]` EMPTY, each once, in strictly ascending order; the node's board is the input board
and `lastMove` is the sentinel -1. -/
theorem turn_node_new_decisions (board : gameboard) :
    (∀ i : Nat, i ∈ (turn_node_new board).actions.map decision.pos ↔
      ∃ h : i < 9, board ⟨i, h⟩ = EMPTY) ∧
    ((turn_node_new board).actions.map decision.pos).Pairwise (· < ·) ∧
    ((turn_node_new board).actions.map decision.pos).Nodup ∧
    (turn_node_new board).board = board ∧
    (turn_node_new board).lastMove = -1 := by
  have hs : ((turn_node_new board).actions.map decision.pos).Pairwise (· < ·) := by
    rw [turn_node_new_map_pos]
    exact List.Pairwise.filter _ (List.pairwise_lt_range 9)
  refine ⟨?_, hs, ?_, rfl, rfl⟩
  · intro i
    rw [turn_node_new_map_pos, List.mem_filter, List.mem_range]
    constructor
    · rintro ⟨hi, he⟩
      refine ⟨hi, ?_⟩
      rw [← cell_lt board i hi]
      simpa using he
    · rintro ⟨hi, he⟩
      refine ⟨hi, ?_⟩
      rw [← cell_lt board i hi] at he
      simpa using he
  · exact hs.imp (fun h => Nat.ne_of_lt h)

/-- Claim C8: the worths of `turn_node_new board` are all 100 when no EMPTY cell is an immediate
win for O or for X; otherwise exactly one decision, the forced one (an immediate win for O or X),
has worth `sum` and every other decision has worth 0. In both cases `sum` is 100 times the number
of decisions. -/
theorem turn_node_new_worths (board : gameboard) :
    (((∀ i : Fin 9, board i = EMPTY →
          gameboard_would_move board O i.val ≠ move_result.move_win ∧
          gameboard_would_move board X i.val ≠ move_result.move_win) ∧
        ∀ d ∈ (turn_node_new board).actions, d.worth = 100) ∨
      ((∃ i : Fin 9, board i = EMPTY ∧
          (gameboard_would_move board O i.val = move_result.move_win ∨
            gameboard_would_move board X i.val = move_result.move_win)) ∧
        ∃ (w : Nat) (d : decision), (turn_node_new board).actions[w]? = some d ∧
          (gameboard_would_move board O d.pos = move_result.move_win ∨
            gameboard_would_move board X d.pos = move_result.move_win) ∧
          d.worth = (turn_node_new board).sum ∧
          ∀ (j : Nat) (e : decision), j ≠ w → (turn_node_new board).actions[j]? = some e →
            e.worth = 0)) ∧
    (turn_node_new board).sum = 100 * ((turn_node_new board).actions.length : Int) := by
  refine ⟨?_, turn_node_new_sum_length board⟩
  by_cases h : (turn_node_new_scan board).win > -1
  · right
    have hne : ¬ (turn_node_new_scan board).win = -1 := by omega
    rw [scan_win_none] at hne
    constructor
    · by_contra hno
      apply hne
      intro i
      constructor
      · intro hO
        exact hno ⟨i, by
          rw [← cell_lt board i.val i.isLt]; exact would_move_win_empty board O i.val hO,
          Or.inl hO⟩
      · intro hX
        exact hno ⟨i, by
          rw [← cell_lt board i.val i.isLt]; exact would_move_win_empty board X i.val hX,
          Or.inr hX⟩
    · obtain ⟨w, d, -, hd, hwin, hworth, hz⟩ := turn_node_new_forced_worths board h
      exact ⟨w, d, hd, hwin, hworth, hz⟩
  · left
    have heq : (turn_node_new_scan board).win = -1 := by
      rcases scan_win_valid board with h0 | ⟨w, hw, -⟩
      · exact h0
      · omega
    constructor
    · intro i _
      exact (scan_win_none board).mp heq i
    · intro d hd
      rw [turn_node_new_unforced board h, scan_actions, List.mem_map] at hd
      obtain ⟨i, -, rfl⟩ := hd
      rfl

/-! ## Lemmas on `turn_node_make_move` -/

/-- The scan of `turn_node_make_move` over an array in which one decision holds all the weight
stops at that decision. -/
theorem make_move_scan_forced (r acc s : Int) (hacc : acc ≤ r) (hr : r < acc + s) :
    ∀ (l : List decision) (w j : Nat) (d : decision), l[w]? = some d → d.worth = s →
      (∀ (k : Nat) (e : decision), k ≠ w → l[k]? = some e → e.worth = 0) →
      make_move_scan r l acc j = Except.ok (j + w)
  | [], w, j, d, hd, _, _ => by simp at hd
  | a :: rest, 0, j, d, hd, hs, _ => by
    simp at hd
    subst hd
    simp [make_move_scan, hs, hr]
  | a :: rest, w + 1, j, d, hd, hs, hz => by
    have ha : a.worth = 0 := hz 0 a (by omega) (by simp)
    have hrest : ∀ (k : Nat) (e : decision), k ≠ w → rest[k]? = some e → e.worth = 0 := by
      intro k e hk he
      exact hz (k + 1) e (by omega) (by simpa using he)
    have ih := make_move_scan_forced r acc s hacc hr rest w (j + 1) d (by simpa using hd) hs hrest
    have hnot : ¬ r < acc := by omega
    simp only [make_move_scan, ha, add_zero, hnot, if_false, ih]
    congr 1
    omega

theorem rand_mod_range (rnd : Nat) (s : Int) (hs : 0 < s) :
    1 ≤ Int.tmod (rnd : Int) s + 1 ∧ Int.tmod (rnd : Int) s + 1 < 1 + s := by
  have h1 := Int.tmod_nonneg s (Int.ofNat_nonneg rnd)
  have h2 := Int.tmod_lt_of_pos (rnd : Int) hs
  omega

/-! ## Claims on `turn_node_make_move` -/

/-- Claim C10: when `turn_node_new board` identifies a forced decision (its first loop ends with
`win > -1`), then for every value `rnd` of the random source `turn_node_make_move` on the fresh
node returns the decision at index `win` and records that index in `lastMove`. -/
theorem forced_move_certain (board : gameboard) (rnd : Nat)
    (hforced : (turn_node_new_scan board).win > -1) :
    ∃ (w : Nat) (d : decision), (turn_node_new_scan board).win = (w : Int) ∧
      (turn_node_new board).actions[w]? = some d ∧
      d.worth = (turn_node_new board).sum ∧
      turn_node_make_move (turn_node_new board) rnd =
        Except.ok ({ turn_node_new board with lastMove := (w : Int) }, d) := by
  obtain ⟨w, d, hw, hd, -, hworth, hz⟩ := turn_node_new_forced_worths board hforced
  have hlen := getElem?_lt_length _ w d hd
  have hsum := turn_node_new_sum_length board
  have hpos : 0 < (turn_node_new board).sum := by omega
  refine ⟨w, d, hw, hd, hworth, ?_⟩
  obtain ⟨hr1, hr2⟩ := rand_mod_range rnd (turn_node_new board).sum hpos
  have hscan := make_move_scan_forced _ 1 (turn_node_new board).sum hr1 hr2
    (turn_node_new board).actions w 0 d hd hworth hz
  have hne : (turn_node_new board).sum ≠ 0 := by omega
  simp only [turn_node_make_move, hne, if_false, hscan, Nat.zero_add, hd]

/-- Witness for C10 on the board `X X . / O O . / . . .`: the first loop ends with `win = 1` (the
decision for cell 5), and the theorem applies for the random value 12345. -/
theorem forced_move_certain_witness :
    (turn_node_new_scan (board_of ['X', 'X', '.', 'O', 'O', '.', '.', '.', '.'])).win > -1 ∧
    ∃ (w : Nat) (d : decision),
      (turn_node_new_scan (board_of ['X', 'X', '.', 'O', 'O', '.', '.', '.', '.'])).win
        = (w : Int) ∧
      (turn_node_new (board_of ['X', 'X', '.', 'O', 'O', '.', '.', '.', '.'])).actions[w]?
        = some d ∧
      d.worth = (turn_node_new (board_of ['X', 'X', '.', 'O', 'O', '.', '.', '.', '.'])).sum ∧
      turn_node_make_move
          (turn_node_new (board_of ['X', 'X', '.', 'O', 'O', '.', '.', '.', '.'])) 12345 =
        Except.ok ({ turn_node_new (board_of ['X', 'X', '.', 'O', 'O', '.', '.', '.', '.'])
          with lastMove := (w : Int) }, d) :=
  ⟨by decide, forced_move_certain _ 12345 (by decide)⟩

/-! ## Lemmas on `turn_node_mark_bad` -/

theorem da_get_natCast (l : List decision) (i : Nat) : da_get l (i : Int) = l[i]? := by
  simp [da_get]

theorem da_set_worth_natCast (l : List decision) (i : Nat) (w : Int) :
    da_set_worth l (i : Int) w = l.modify (fun d => { d with worth := w }) i := by
  simp [da_set_worth]

theorem total_worth_da_set_worth (l : List decision) (i : Nat) (d : decision) (w : Int)
    (h : l[i]? = some d) :
    total_worth (da_set_worth l (i : Int) w) = total_worth l - d.worth + w := by
  rw [da_set_worth_natCast]
  exact total_worth_modify w l i d h

/-- The loop of `turn_node_mark_bad` returns once it has at least `2 * give + 1` units of fuel, and
it adds exactly `give` to the total of the worths. -/
theorem mark_bad_loop_total (lastMove : Int) (hlast : 0 ≤ lastMove) :
    ∀ (fuel : Nat) (actions : List decision) (i : Nat) (give : Int),
      2 ≤ actions.length → lastMove < (actions.length : Int) → i < actions.length → 0 ≤ give →
      2 * give + (if (i : Int) = lastMove then 1 else 0) ≤ (fuel : Int) →
      ∃ actions', mark_bad_loop lastMove fuel actions i give = Except.ok actions' ∧
        total_worth actions' = total_worth actions + give ∧
        actions'.length = actions.length
  | 0, actions, i, give, _, _, _, hg, hf => by
    have hg0 : give = 0 := by
      split at hf <;> omega
    subst hg0
    exact ⟨actions, by simp [mark_bad_loop], by simp, rfl⟩
  | fuel + 1, actions, i, give, hn, hl, hi, hg, hf => by
    by_cases hpos : give > 0
    · by_cases hne : (i : Int) ≠ lastMove
      · obtain ⟨d, hd⟩ : ∃ d, actions[i]? = some d := ⟨actions[i], List.getElem?_eq_getElem hi⟩
        have hlen := length_da_set_worth actions (i : Int) (d.worth + 1)
        have htot := total_worth_da_set_worth actions i d (d.worth + 1) hd
        have hnext : (if i + 1 ≥ actions.length then 0 else i + 1) < actions.length := by
          split <;> omega
        rw [if_neg hne] at hf
        obtain ⟨a', h1, h2, h3⟩ := mark_bad_loop_total lastMove hlast fuel
          (da_set_worth actions (i : Int) (d.worth + 1))
          (if i + 1 ≥ actions.length then 0 else i + 1) (give - 1)
          (by omega) (by omega) (by omega) (by omega)
          (by push_cast at hf ⊢; split <;> omega)
        refine ⟨a', ?_, ?_, ?_⟩
        · simp only [mark_bad_loop, hpos, if_true, hne, ne_eq, not_false_eq_true, hd]
          exact h1
        · rw [h2, htot]; ring
        · rw [h3, hlen]
      · have heq : (i : Int) = lastMove := not_not.mp hne
        rw [if_pos heq] at hf
        have hnext : (if i + 1 ≥ actions.length then 0 else i + 1) < actions.length := by
          split <;> omega
        have hnext2 :
            ¬ (((if i + 1 ≥ actions.length then 0 else i + 1 : Nat) : Int) = lastMove) := by
          split <;> omega
        obtain ⟨a', h1, h2, h3⟩ := mark_bad_loop_total lastMove hlast fuel actions
          (if i + 1 ≥ actions.length then 0 else i + 1) give hn hl hnext hg
          (by rw [if_neg hnext2]; push_cast at hf ⊢; omega)
        refine ⟨a', ?_, h2, h3⟩
        simp only [mark_bad_loop, hpos, if_true, heq, ne_eq, not_true_eq_false, if_false]
        exact h1
    · have hg0 : give = 0 := by omega
      subst hg0
      exact ⟨actions, by simp [mark_bad_loop], by simp, rfl⟩

/-! ## Claims on `turn_node_mark_bad` -/

/-- Claim C2: for a node with at least 2 decisions, all worths at least 0 and `lastMove` a valid
index, `turn_node_mark_bad` returns (given fuel for `2 * da_top + 100` iterations of its loop) and
the total of the worths after it equals the total before it, whether the penalised worth stays
non-negative or is clamped to 0. -/
theorem mark_bad_conserves_total (fuel : Nat) (node : turn_node)
    (hn : 2 ≤ node.actions.length)
    (hworth : ∀ d ∈ node.actions, 0 ≤ d.worth)
    (hlast : 0 ≤ node.lastMove ∧ node.lastMove < (node.actions.length : Int))
    (hfuel : 2 * node.actions.length + 100 ≤ fuel) :
    ∃ node', turn_node_mark_bad fuel node = Except.ok node' ∧
      total_worth node'.actions = total_worth node.actions := by
  obtain ⟨m, hm⟩ : ∃ m : Nat, node.lastMove = (m : Int) := ⟨node.lastMove.toNat, by omega⟩
  have hmlt : m < node.actions.length := by omega
  obtain ⟨d, hd⟩ : ∃ d, node.actions[m]? = some d :=
    ⟨node.actions[m], List.getElem?_eq_getElem hmlt⟩
  have hdpos : 0 ≤ d.worth := hworth d (List.getElem?_mem hd)
  have hget : da_get node.actions node.lastMove = some d := by rw [hm, da_get_natCast, hd]
  have hgt : node.actions.length > 1 := by omega
  by_cases hneg : d.worth - (((node.actions.length : Int) - 1) + 50) < 0
  · obtain ⟨a', h1, h2, -⟩ := mark_bad_loop_total node.lastMove hlast.1 fuel
      (da_set_worth node.actions node.lastMove 0) 0
      ((((node.actions.length : Int) - 1) + 50) +
        (d.worth - (((node.actions.length : Int) - 1) + 50)))
      (by rw [length_da_set_worth]; exact hn) (by rw [length_da_set_worth]; exact hlast.2)
      (by rw [length_da_set_worth]; omega) (by omega)
      (by split <;> omega)
    refine ⟨{ node with actions := a' }, ?_, ?_⟩
    · simp only [turn_node_mark_bad, hgt, if_true, hget, hneg, h1]
    · show total_worth a' = _
      rw [h2, hm, total_worth_da_set_worth node.actions m d 0 hd]
      ring
  · obtain ⟨a', h1, h2, -⟩ := mark_bad_loop_total node.lastMove hlast.1 fuel
      (da_set_worth node.actions node.lastMove
        (d.worth - (((node.actions.length : Int) - 1) + 50))) 0
      (((node.actions.length : Int) - 1) + 50)
      (by rw [length_da_set_worth]; exact hn) (by rw [length_da_set_worth]; exact hlast.2)
      (by rw [length_da_set_worth]; omega) (by omega)
      (by split <;> omega)
    refine ⟨{ node with actions := a' }, ?_, ?_⟩
    · simp only [turn_node_mark_bad, hgt, if_true, hget, hneg, if_false, h1]
    · show total_worth a' = _
      rw [h2, hm, total_worth_da_set_worth node.actions m d _ hd]
      ring

/-- Witness for C2 on a node whose penalised worth (20) is clamped to 0: the hypotheses hold and
`turn_node_mark_bad` returns a node with the same total. -/
theorem mark_bad_conserves_total_witness :
    (2 ≤ penalised_node.actions.length ∧
      (∀ d ∈ penalised_node.actions, 0 ≤ d.worth) ∧
      (0 ≤ penalised_node.lastMove ∧
        penalised_node.lastMove < (penalised_node.actions.length : Int)) ∧
      2 * penalised_node.actions.length + 100 ≤ 200) ∧
    ∃ node', turn_node_mark_bad 200 penalised_node = Except.ok node' ∧
      total_worth node'.actions = total_worth penalised_node.actions :=
  ⟨⟨by decide, by decide, by decide, by decide⟩,
    mark_bad_conserves_total 200 penalised_node (by decide) (by decide) (by decide) (by decide)⟩

/-! ## `turn_node_mark_good` and the cached sum -/

set_option maxRecDepth 1000000 in
/-- The node `drained_root` is reached from the fresh root node by calls of `turn_node_make_move`,
`turn_node_mark_bad` and `turn_node_mark_good`. -/
theorem drained_root_reached :
    drained_root_trace.toOption.map (fun n => (n.sum, n.lastMove, n.actions)) =
      some (drained_root.sum, drained_root.lastMove, drained_root.actions) := by
  decide

set_option maxRecDepth 1000000 in
/-- Claim C1 fails on the code: `drained_root` has 9 decisions, worths at least 0 that add up to
`sum = 900`, a valid `lastMove = 0`, and `worth[lastMove] + (n-1) + 100 = 540 ≤ sum` (no clamp);
yet `turn_node_mark_good` returns a node whose worths add up to 959 while `sum` is still 900. The
counter `cnt` is incremented every time the zero-worth decision 1 is met, so the loop stops after
taking 49 of the 108 units it added to decision 0. -/
theorem mark_good_breaks_cached_sum :
    (2 ≤ drained_root.actions.length ∧
      (∀ d ∈ drained_root.actions, 0 ≤ d.worth) ∧
      drained_root.sum = total_worth drained_root.actions ∧
      (0 ≤ drained_root.lastMove ∧
        drained_root.lastMove < (drained_root.actions.length : Int)) ∧
      ∃ d, da_get drained_root.actions drained_root.lastMove = some d ∧
        d.worth + ((drained_root.actions.length : Int) - 1) + 100 ≤ drained_root.sum) ∧
    (turn_node_mark_good 200 drained_root).toOption.map
        (fun n => (n.sum, n.actions.map decision.worth)) =
      some (900, [540, 0, 59, 58, 58, 61, 61, 61, 61]) ∧
    (turn_node_mark_good 200 drained_root).toOption.map (fun n => total_worth n.actions) =
      some 959 :=
  ⟨⟨by decide, by decide, by decide, by decide, decision_new 0 432, by decide, by decide⟩,
    by decide, by decide⟩

/-! ## The forced move of `turn_node_new` when X is to move -/

/-- The board `fork_board` is reached from the empty board by moves that the fresh nodes allow:
every move of `fork_moves` has a positive worth in the node built for the board before it, and
leaves the game unfinished. -/
theorem fork_board_reached :
    (∀ k : Fin 9, play_moves EMPTY_BOARD fork_moves k = fork_board k) ∧
    ∀ k : Fin 6, playable (play_moves EMPTY_BOARD (fork_moves.take k.val))
      (fork_moves.getD k.val (0, EMPTY)) = true := by
  decide

/-- Claim C9 fails on the code: on `fork_board` (`X O X / O O . / . . X`, three X and three O, so
X is to move) cell 5 is EMPTY and wins at once for X, yet the node built by `turn_node_new` forces
the decision for cell 7, which does not win for X (it only blocks one of O's two threats):
`turn_node_new` tests `gameboard_would_move(board, O, pos)` first whoever is to move. -/
theorem turn_node_new_blocks_instead_of_winning :
    (Finset.univ.filter (fun k : Fin 9 => fork_board k = X)).card =
      (Finset.univ.filter (fun k : Fin 9 => fork_board k = O)).card ∧
    fork_board 5 = EMPTY ∧
    gameboard_would_move fork_board X 5 = move_result.move_win ∧
    (turn_node_new fork_board).actions =
      [decision_new 5 0, decision_new 6 0, decision_new 7 300] ∧
    (turn_node_new_scan fork_board).win = 2 ∧
    gameboard_would_move fork_board X 7 = move_result.move_good ∧
    gameboard_would_move fork_board O 7 = move_result.move_win ∧
    (turn_node_make_move (turn_node_new fork_board) 0).toOption.map (fun r => r.2) =
      some (decision_new 7 300) := by
  decide

/-! ## The scan of `turn_node_make_move` as weighted selection -/

theorem total_worth_take_succ (l : List decision) (j : Nat) (d : decision)
    (h : l[j]? = some d) :
    total_worth (l.take (j + 1)) = total_worth (l.take j) + d.worth := by
  induction l generalizing j with
  | nil => simp at h
  | cons a l ih =>
    cases j with
    | zero =>
      simp at h
      subst h
      simp [total_worth]
    | succ j =>
      simp at h
      rw [List.take_succ_cons, total_worth_cons, ih j h, List.take_succ_cons, total_worth_cons]
      ring

theorem total_worth_nonneg (l : List decision) (h : ∀ d ∈ l, 0 ≤ d.worth) :
    0 ≤ total_worth l := by
  induction l with
  | nil => simp [total_worth]
  | cons a l ih =>
    rw [total_worth_cons]
    have h1 := h a (List.mem_cons_self _ _)
    have h2 := ih (fun d hd => h d (List.mem_cons_of_mem _ hd))
    omega

theorem total_worth_take_le (l : List decision) (h : ∀ d ∈ l, 0 ≤ d.worth) (j : Nat) :
    total_worth (l.take j) ≤ total_worth l := by
  have hsplit : total_worth l = total_worth (l.take j) + total_worth (l.drop j) := by
    rw [← total_worth_append, List.take_append_drop]
  have := total_worth_nonneg (l.drop j) (fun d hd => h d (List.mem_of_mem_drop hd))
  omega

theorem make_move_scan_ge (r : Int) :
    ∀ (l : List decision) (acc : Int) (j k : Nat),
      make_move_scan r l acc j = Except.ok k → j ≤ k
  | [], _, _, _, h => by simp [make_move_scan] at h
  | a :: rest, acc, j, k, h => by
    simp only [make_move_scan] at h
    split at h
    · cases h; exact Nat.le_refl _
    · have := make_move_scan_ge r rest _ _ _ h
      omega

/-- The scan never leaves the array when the threshold is below the total still ahead. -/
theorem make_move_scan_returns (r : Int) :
    ∀ (l : List decision) (acc : Int) (j : Nat), acc ≤ r → r < acc + total_worth l →
      ∃ m, m < l.length ∧ make_move_scan r l acc j = Except.ok (j + m)
  | [], acc, j, h1, h2 => by simp [total_worth] at h2; omega
  | a :: rest, acc, j, h1, h2 => by
    by_cases hlt : r < acc + a.worth
    · exact ⟨0, by simp, by simp [make_move_scan, hlt]⟩
    · rw [total_worth_cons] at h2
      obtain ⟨m, hm, hscan⟩ := make_move_scan_returns r rest (acc + a.worth) (j + 1)
        (by omega) (by omega)
      refine ⟨m + 1, by simp; omega, ?_⟩
      simp only [make_move_scan, hlt, if_false, hscan]
      congr 1
      omega

/-- With worths at least 0, the scan stops at index `m` exactly when the threshold lies between
the running total before decision `m` and the running total after it. -/
theorem make_move_scan_iff (r : Int) :
    ∀ (l : List decision) (acc : Int) (j m : Nat), (∀ d ∈ l, 0 ≤ d.worth) → acc ≤ r →
      (make_move_scan r l acc j = Except.ok (j + m) ↔
        m < l.length ∧ acc + total_worth (l.take m) ≤ r ∧
          r < acc + total_worth (l.take (m + 1)))
  | [], acc, j, m, _, _ => by simp [make_move_scan]
  | a :: rest, acc, j, m, hw, hacc => by
    have ha : 0 ≤ a.worth := hw a (List.mem_cons_self _ _)
    have hrest : ∀ d ∈ rest, 0 ≤ d.worth := fun d hd => hw d (List.mem_cons_of_mem _ hd)
    by_cases hlt : r < acc + a.worth
    · cases m with
      | zero => simp [make_move_scan, hlt, total_worth, hacc]
      | succ m =>
        have h0 := total_worth_nonneg (rest.take m)
          (fun d hd => hrest d (List.mem_of_mem_take hd))
        simp only [make_move_scan, hlt, if_true, List.take_succ_cons, total_worth_cons]
        constructor
        · intro h
          have := (Except.ok.injEq _ _).mp h
          omega
        · rintro ⟨-, h1, -⟩
          omega
    · cases m with
      | zero =>
        simp only [make_move_scan, hlt, if_false, List.take_zero, List.take_succ_cons,
          total_worth_cons, total_worth_nil, add_zero]
        constructor
        · intro h
          have := make_move_scan_ge r rest _ _ _ h
          exact absurd this (by omega)
        · rintro ⟨-, -, h2⟩
          exact h2.elim
      | succ m =>
        have ih := make_move_scan_iff r rest (acc + a.worth) (j + 1) m hrest (by omega)
        have hidx : j + (m + 1) = j + 1 + m := by omega
        simp only [make_move_scan, hlt, if_false, List.take_succ_cons, total_worth_cons,
          List.length_cons, hidx, ih]
        constructor
        · rintro ⟨h1, h2, h3⟩
          exact ⟨by omega, by omega, by omega⟩
        · rintro ⟨h1, h2, h3⟩
          exact ⟨by omega, by omega, by omega⟩

theorem make_move_scan_lt (r : Int) :
    ∀ (l : List decision) (acc : Int) (j k : Nat),
      make_move_scan r l acc j = Except.ok k → k < j + l.length
  | [], _, _, _, h => by simp [make_move_scan] at h
  | a :: rest, acc, j, k, h => by
    simp only [make_move_scan] at h
    split at h
    · cases h; simp
    · have := make_move_scan_lt r rest _ _ _ h
      simp only [List.length_cons]
      omega

theorem make_move_of_scan (node : turn_node) (rnd : Nat) (j : Nat) (d : decision)
    (hsum : node.sum ≠ 0)
    (hscan : make_move_scan (Int.tmod (rnd : Int) node.sum + 1) node.actions 1 0 = Except.ok j)
    (hd : node.actions[j]? = some d) :
    turn_node_make_move node rnd = Except.ok ({ node with lastMove := (j : Int) }, d) := by
  simp only [turn_node_make_move, hsum, if_false, hscan, hd]

/-- The threshold `r = rand() % sum + 1` of `turn_node_make_move`, written with the mathematical
remainder: the two agree because `rand()` is not negative and `sum` is positive. -/
theorem threshold_eq (rnd : Nat) (s : Int) (hs : 1 ≤ s) :
    Int.tmod (rnd : Int) s + 1 = (rnd : Int) % s + 1 := by
  rw [Int.tmod_eq_emod (Int.ofNat_nonneg rnd) (by omega)]

/-- On a node whose worths are at least 0 and add up to `sum ≥ 1`, `turn_node_make_move` returns,
and it selects index `j` exactly when `r = rand() % sum + 1` lies above the total of the worths
before `j` and not above the total up to and including `j`. -/
theorem make_move_selects (node : turn_node) (rnd : Nat)
    (hworth : ∀ d ∈ node.actions, 0 ≤ d.worth)
    (htotal : total_worth node.actions = node.sum) (hsum : 1 ≤ node.sum) :
    ∃ (m : Nat) (d : decision), node.actions[m]? = some d ∧
      turn_node_make_move node rnd = Except.ok ({ node with lastMove := (m : Int) }, d) ∧
      ∀ j : Nat, (j = m ↔ j < node.actions.length ∧
        total_worth (node.actions.take j) < (rnd : Int) % node.sum + 1 ∧
        (rnd : Int) % node.sum + 1 ≤ total_worth (node.actions.take (j + 1))) := by
  obtain ⟨hr1, hr2⟩ := rand_mod_range rnd node.sum (by omega)
  have hthr := threshold_eq rnd node.sum hsum
  obtain ⟨m, hm, hscan⟩ := make_move_scan_returns (Int.tmod (rnd : Int) node.sum + 1)
    node.actions 1 0 hr1 (by rw [htotal]; exact hr2)
  rw [Nat.zero_add] at hscan
  refine ⟨m, node.actions[m], List.getElem?_eq_getElem hm,
    make_move_of_scan node rnd m _ (by omega) hscan (List.getElem?_eq_getElem hm), ?_⟩
  intro j
  have hiff := make_move_scan_iff (Int.tmod (rnd : Int) node.sum + 1) node.actions 1 0 j
    hworth hr1
  rw [Nat.zero_add, hscan, hthr] at hiff
  constructor
  · intro hj
    subst hj
    have := hiff.mp rfl
    exact ⟨this.1, by omega, by omega⟩
  · rintro ⟨h1, h2, h3⟩
    have := hiff.mpr ⟨h1, by omega, by omega⟩
    exact ((Except.ok.injEq _ _).mp this).symm

/-! ## Claims on `turn_node_make_move` as a selection -/

/-- Claim C11: on a node with worths at least 0 and total worth equal to `sum ≥ 1` (so with at
least one decision), `turn_node_make_move` returns for every draw, and with
`r = (draw mod sum) + 1` the index it selects is the unique `j` with
`w_0 + ... + w_(j-1) < r ≤ w_0 + ... + w_j`; hence for each index `j` exactly `worth_j` of the
values `r` in `1 .. sum` (the draws `r - 1`) select `j`. -/
theorem make_move_weighted (node : turn_node)
    (hworth : ∀ d ∈ node.actions, 0 ≤ d.worth)
    (htotal : total_worth node.actions = node.sum)
    (hsum : 1 ≤ node.sum) :
    (∀ rnd : Nat, ∃ (j : Nat) (d : decision),
      node.actions[j]? = some d ∧
      turn_node_make_move node rnd = Except.ok ({ node with lastMove := (j : Int) }, d) ∧
      total_worth (node.actions.take j) < (rnd : Int) % node.sum + 1 ∧
      (rnd : Int) % node.sum + 1 ≤ total_worth (node.actions.take (j + 1)) ∧
      ∀ j' : Nat, j' < node.actions.length →
        total_worth (node.actions.take j') < (rnd : Int) % node.sum + 1 →
        (rnd : Int) % node.sum + 1 ≤ total_worth (node.actions.take (j' + 1)) → j' = j) ∧
    (∀ (j : Nat) (d : decision), node.actions[j]? = some d →
      (((Finset.Icc (1 : Int) node.sum).filter (fun r =>
        (turn_node_make_move node (r - 1).toNat).toOption.map (fun p => p.1.lastMove) =
          some (j : Int))).card : Int) = d.worth) := by
  constructor
  · intro rnd
    obtain ⟨m, d, hd, hmove, hiff⟩ := make_move_selects node rnd hworth htotal hsum
    have hm := (hiff m).mp rfl
    exact ⟨m, d, hd, hmove, hm.2.1, hm.2.2, fun j' h1 h2 h3 => (hiff j').mpr ⟨h1, h2, h3⟩⟩
  · intro j d hd
    have hj := getElem?_lt_length _ j d hd
    have hdw : 0 ≤ d.worth := hworth d (List.getElem?_mem hd)
    have hsucc := total_worth_take_succ node.actions j d hd
    have hpre : 0 ≤ total_worth (node.actions.take j) :=
      total_worth_nonneg _ (fun e he => hworth e (List.mem_of_mem_take he))
    have hle := total_worth_take_le node.actions hworth (j + 1)
    have hset : (Finset.Icc (1 : Int) node.sum).filter (fun r =>
        (turn_node_make_move node (r - 1).toNat).toOption.map (fun p => p.1.lastMove) =
          some (j : Int)) =
        Finset.Icc (total_worth (node.actions.take j) + 1)
          (total_worth (node.actions.take j) + d.worth) := by
      ext r
      rw [Finset.mem_filter, Finset.mem_Icc, Finset.mem_Icc]
      constructor
      · rintro ⟨⟨h1, h2⟩, hsel⟩
        obtain ⟨m, e, -, hmove, hiff⟩ :=
          make_move_selects node (r - 1).toNat hworth htotal hsum
        have hcast : (((r - 1).toNat : Nat) : Int) = r - 1 := Int.toNat_of_nonneg (by omega)
        rw [hcast, Int.emod_eq_of_lt (by omega) (by omega)] at hiff
        rw [hmove] at hsel
        simp only [Except.toOption, Option.map_some', Option.some.injEq] at hsel
        have hjm : j = m := (Int.ofNat_inj.mp hsel).symm
        have := (hiff j).mp hjm
        omega
      · rintro ⟨h1, h2⟩
        refine ⟨⟨by omega, by omega⟩, ?_⟩
        obtain ⟨m, e, -, hmove, hiff⟩ :=
          make_move_selects node (r - 1).toNat hworth htotal hsum
        have hcast : (((r - 1).toNat : Nat) : Int) = r - 1 := Int.toNat_of_nonneg (by omega)
        rw [hcast, Int.emod_eq_of_lt (by omega) (by omega)] at hiff
        have hjm : j = m := (hiff j).mpr ⟨hj, by omega, by omega⟩
        rw [hmove, hjm]
        rfl
    rw [hset, Int.card_Icc]
    omega

/-- Witness for C11 on a node with worths 228, 20 and 52 and `sum = 300`: the hypotheses hold, the
draw 230 selects some decision, and 20 of the 300 values of `r` select decision 1. -/
theorem make_move_weighted_witness :
    ((∀ d ∈ penalised_node.actions, 0 ≤ d.worth) ∧
      total_worth penalised_node.actions = penalised_node.sum ∧ 1 ≤ penalised_node.sum) ∧
    (∃ (j : Nat) (d : decision), penalised_node.actions[j]? = some d ∧
      turn_node_make_move penalised_node 230 =
        Except.ok ({ penalised_node with lastMove := (j : Int) }, d)) ∧
    (((Finset.Icc (1 : Int) penalised_node.sum).filter (fun r =>
      (turn_node_make_move penalised_node (r - 1).toNat).toOption.map (fun p => p.1.lastMove) =
        some ((1 : Nat) : Int))).card : Int) = 20 := by
  have h := make_move_weighted penalised_node (by decide) (by decide) (by decide)
  refine ⟨⟨by decide, by decide, by decide⟩, ?_, h.2 1 (decision_new 6 20) rfl⟩
  obtain ⟨j, d, hd, hmove, -⟩ := h.1 230
  exact ⟨j, d, hd, hmove⟩

/-- When `turn_node_make_move` returns, the node it leaves is the old node with `lastMove` set to
the index of the decision returned. -/
theorem make_move_ok_inv (node : turn_node) (rnd : Nat) (node' : turn_node) (d : decision)
    (h : turn_node_make_move node rnd = Except.ok (node', d)) :
    ∃ j : Nat, node' = { node with lastMove := (j : Int) } ∧ node.actions[j]? = some d := by
  unfold turn_node_make_move at h
  split at h
  · cases h
  · simp only [] at h
    split at h
    · cases h
    · rename_i j hj
      split at h
      · cases h
      · rename_i e he
        have h1 := (Except.ok.injEq _ _).mp h
        have h2 := (Prod.mk.injEq _ _ _ _).mp h1
        obtain ⟨hn, hd⟩ := h2
        subst hn hd
        exact ⟨j, rfl, he⟩

/-- Claim C12: when `turn_node_make_move` returns, `lastMove` is the index of the decision it
returns, and `sum`, the board and the whole decision array (every position and worth) are as
before the call. -/
theorem make_move_frame (node : turn_node) (rnd : Nat) (node' : turn_node) (d : decision)
    (h : turn_node_make_move node rnd = Except.ok (node', d)) :
    (∃ j : Nat, node'.lastMove = (j : Int) ∧ node.actions[j]? = some d) ∧
    node'.sum = node.sum ∧ node'.board = node.board ∧ node'.actions = node.actions := by
  obtain ⟨j, hj, hd⟩ := make_move_ok_inv node rnd node' d h
  subst hj
  exact ⟨⟨j, rfl, hd⟩, rfl, rfl, rfl⟩

/-- Witness for C12: on the node with worths 228, 20, 52 the draw 230 gives `r = 231` and selects
decision 1; only `lastMove` is written. -/
theorem make_move_frame_witness :
    turn_node_make_move penalised_node 230 =
      Except.ok ({ penalised_node with lastMove := 1 }, decision_new 6 20) ∧
    ((∃ j : Nat, ({ penalised_node with lastMove := 1 } : turn_node).lastMove = (j : Int) ∧
        penalised_node.actions[j]? = some (decision_new 6 20)) ∧
      ({ penalised_node with lastMove := 1 } : turn_node).sum = penalised_node.sum ∧
      ({ penalised_node with lastMove := 1 } : turn_node).board = penalised_node.board ∧
      ({ penalised_node with lastMove := 1 } : turn_node).actions = penalised_node.actions) :=
  ⟨rfl, make_move_frame penalised_node 230 _ _ rfl⟩

/-- Claim C13: on a node whose only decision is (position 0, worth 100) with `sum = 100`,
`turn_node_make_move` returns that decision and records `lastMove = 0`, whatever the random
source returns (and whatever the board and the previous `lastMove` are). -/
theorem make_move_single (board : gameboard) (lastMove : Int) (rnd : Nat) :
    turn_node_make_move
        { board := board, sum := 100, lastMove := lastMove, actions := [decision_new 0 100] } rnd =
      Except.ok ({ board := board, sum := 100, lastMove := 0, actions := [decision_new 0 100] },
        decision_new 0 100) := by
  obtain ⟨-, hr⟩ := rand_mod_range rnd 100 (by decide)
  have hlt : Int.tmod (rnd : Int) 100 + 1 < 101 := by omega
  simp [turn_node_make_move, make_move_scan, decision_new, hlt]

/-! ## Loop rules for `turn_node_mark_good` and `turn_node_mark_bad` -/

theorem getElem?_da_set_worth (l : List decision) (i k : Nat) (w : Int) :
    (da_set_worth l (i : Int) w)[k]? =
      (l[k]?).map (fun d => if i = k then { d with worth := w } else d) := by
  rw [da_set_worth_natCast, List.getElem?_modify]
  rfl

theorem next_index_lt (i n : Nat) (hn : 0 < n) : (if i + 1 ≥ n then 0 else i + 1) < n := by
  split <;> omega

theorem next_index_ne (i n : Nat) (lastMove : Int) (hn : 2 ≤ n) (hi : (i : Int) = lastMove) :
    ¬ (((if i + 1 ≥ n then 0 else i + 1 : Nat) : Int) = lastMove) := by
  split <;> omega

/-- The rule for the loop of `turn_node_mark_good`: a property `P` of the array, `cnt` and `take`
that both branches of the loop body keep holds when the loop ends, and the loop does end within
`2 * ((da_top - cnt) + take) + 1` iterations. -/
theorem mark_good_loop_rule (lastMove : Int) (P : List decision → Int → Int → Prop)
    (hzero : ∀ (l : List decision) (i : Nat) (d : decision) (cnt take : Int),
      P l cnt take → l[i]? = some d → (i : Int) ≠ lastMove → d.worth ≤ 0 →
      P l (cnt + 1) take)
    (hdec : ∀ (l : List decision) (i : Nat) (d : decision) (cnt take : Int),
      P l cnt take → l[i]? = some d → (i : Int) ≠ lastMove → 0 < d.worth → 0 < take →
      P (da_set_worth l (i : Int) (d.worth - 1)) cnt (take - 1)) :
    ∀ (fuel : Nat) (actions : List decision) (i : Nat) (cnt take : Int),
      i < actions.length → 1 ≤ cnt → P actions cnt take →
      (cnt < (actions.length : Int) → 0 < take →
        2 * (((actions.length : Int) - cnt) + take) +
          (if (i : Int) = lastMove then 1 else 0) ≤ (fuel : Int)) →
      ∃ (a' : List decision) (cnt' take' : Int),
        mark_good_loop lastMove fuel actions i cnt take = Except.ok a' ∧
        P a' cnt' take' ∧ a'.length = actions.length ∧
        ¬ (cnt' < (a'.length : Int) ∧ take' > 0)
  | 0, actions, i, cnt, take, _, _, hP, hf => by
    by_cases hcond : cnt < (actions.length : Int) ∧ take > 0
    · have := hf hcond.1 hcond.2
      split at this <;> omega
    · exact ⟨actions, cnt, take, by simp [mark_good_loop, hcond], hP, rfl, hcond⟩
  | fuel + 1, actions, i, cnt, take, hi, hc, hP, hf => by
    by_cases hcond : cnt < (actions.length : Int) ∧ take > 0
    · have hfuel := hf hcond.1 hcond.2
      have hn2 : 2 ≤ actions.length := by omega
      have hnext := next_index_lt i actions.length (by omega)
      by_cases hne : (i : Int) ≠ lastMove
      · rw [if_neg hne] at hfuel
        obtain ⟨d, hd⟩ : ∃ d, actions[i]? = some d := ⟨actions[i], List.getElem?_eq_getElem hi⟩
        by_cases hw : d.worth ≤ 0
        · obtain ⟨a', c', t', h1, h2, h3, h4⟩ := mark_good_loop_rule lastMove P hzero hdec fuel
            actions (if i + 1 ≥ actions.length then 0 else i + 1) (cnt + 1) take hnext
            (by omega) (hzero actions i d cnt take hP hd hne hw)
            (by intro _ _; push_cast at hfuel ⊢; split <;> omega)
          refine ⟨a', c', t', ?_, h2, h3, h4⟩
          simp only [mark_good_loop, hcond, and_self, if_true, hne, ne_eq, not_false_eq_true, hd,
            hw]
          exact h1
        · have hlen := length_da_set_worth actions (i : Int) (d.worth - 1)
          obtain ⟨a', c', t', h1, h2, h3, h4⟩ := mark_good_loop_rule lastMove P hzero hdec fuel
            (da_set_worth actions (i : Int) (d.worth - 1))
            (if i + 1 ≥ actions.length then 0 else i + 1) cnt (take - 1)
            (by rw [hlen]; exact hnext) hc
            (hdec actions i d cnt take hP hd hne (by omega) hcond.2)
            (by rw [hlen]; intro _ _; push_cast at hfuel ⊢; split <;> omega)
          refine ⟨a', c', t', ?_, h2, by rw [h3, hlen], h4⟩
          simp only [mark_good_loop, hcond, and_self, if_true, hne, ne_eq, not_false_eq_true, hd,
            hw, if_false]
          exact h1
      · have heq : (i : Int) = lastMove := not_not.mp hne
        rw [if_pos heq] at hfuel
        have hnext2 := next_index_ne i actions.length lastMove hn2 heq
        obtain ⟨a', c', t', h1, h2, h3, h4⟩ := mark_good_loop_rule lastMove P hzero hdec fuel
          actions (if i + 1 ≥ actions.length then 0 else i + 1) cnt take hnext hc hP
          (by intro _ _; rw [if_neg hnext2]; push_cast at hfuel ⊢; omega)
        refine ⟨a', c', t', ?_, h2, h3, h4⟩
        simp only [mark_good_loop, hcond, and_self, if_true, heq, ne_eq, not_true_eq_false,
          if_false]
        exact h1
    · exact ⟨actions, cnt, take, by simp [mark_good_loop, hcond], hP, rfl, hcond⟩

/-- The rule for the loop of `turn_node_mark_bad`: a property `P` of the array and `give` that the
loop body keeps holds when the loop ends, and the loop does end within `2 * give + 1`
iterations. -/
theorem mark_bad_loop_rule (lastMove : Int) (P : List decision → Int → Prop)
    (hinc : ∀ (l : List decision) (i : Nat) (d : decision) (give : Int),
      P l give → l[i]? = some d → (i : Int) ≠ lastMove → 0 < give →
      P (da_set_worth l (i : Int) (d.worth + 1)) (give - 1)) :
    ∀ (fuel : Nat) (actions : List decision) (i : Nat) (give : Int),
      2 ≤ actions.length → i < actions.length → P actions give →
      (0 < give → 2 * give + (if (i : Int) = lastMove then 1 else 0) ≤ (fuel : Int)) →
      ∃ (a' : List decision) (give' : Int),
        mark_bad_loop lastMove fuel actions i give = Except.ok a' ∧
        P a' give' ∧ a'.length = actions.length ∧ give' ≤ 0
  | 0, actions, i, give, _, _, hP, hf => by
    by_cases hpos : give > 0
    · have := hf hpos
      split at this <;> omega
    · exact ⟨actions, give, by simp [mark_bad_loop, hpos], hP, rfl, by omega⟩
  | fuel + 1, actions, i, give, hn, hi, hP, hf => by
    by_cases hpos : give > 0
    · have hfuel := hf hpos
      have hnext := next_index_lt i actions.length (by omega)
      by_cases hne : (i : Int) ≠ lastMove
      · rw [if_neg hne] at hfuel
        obtain ⟨d, hd⟩ : ∃ d, actions[i]? = some d := ⟨actions[i], List.getElem?_eq_getElem hi⟩
        have hlen := length_da_set_worth actions (i : Int) (d.worth + 1)
        obtain ⟨a', g', h1, h2, h3, h4⟩ := mark_bad_loop_rule lastMove P hinc fuel
          (da_set_worth actions (i : Int) (d.worth + 1))
          (if i + 1 ≥ actions.length then 0 else i + 1) (give - 1)
          (by rw [hlen]; exact hn) (by rw [hlen]; exact hnext)
          (hinc actions i d give hP hd hne hpos)
          (by intro _; push_cast at hfuel ⊢; split <;> omega)
        refine ⟨a', g', ?_, h2, by rw [h3, hlen], h4⟩
        simp only [mark_bad_loop, hpos, if_true, hne, ne_eq, not_false_eq_true, hd]
        exact h1
      · have heq : (i : Int) = lastMove := not_not.mp hne
        rw [if_pos heq] at hfuel
        have hnext2 := next_index_ne i actions.length lastMove hn heq
        obtain ⟨a', g', h1, h2, h3, h4⟩ := mark_bad_loop_rule lastMove P hinc fuel
          actions (if i + 1 ≥ actions.length then 0 else i + 1) give hn hnext hP
          (by intro _; rw [if_neg hnext2]; push_cast at hfuel ⊢; omega)
        refine ⟨a', g', ?_, h2, h3, h4⟩
        simp only [mark_bad_loop, hpos, if_true, heq, ne_eq, not_true_eq_false, if_false]
        exact h1
    · exact ⟨actions, give, by simp [mark_bad_loop, hpos], hP, rfl, by omega⟩

/-! ## What the update loops do to each decision -/

theorem da_get_some (l : List decision) (i : Int) (d : decision) (h : da_get l i = some d) :
    ∃ m : Nat, i = (m : Int) ∧ l[m]? = some d ∧ m < l.length := by
  unfold da_get at h
  split at h
  · rename_i h0
    exact ⟨i.toNat, by omega, h, getElem?_lt_length _ _ _ h⟩
  · cases h

theorem lowered_refl (lastMove : Int) (l : List decision) : lowered lastMove l l :=
  ⟨rfl, fun _ e he => ⟨e, he, rfl, Int.le_refl _, by omega, fun _ => rfl⟩⟩

theorem lowered_step (lastMove : Int) (orig l : List decision) (i : Nat) (d : decision)
    (h : lowered lastMove orig l) (hd : l[i]? = some d) (hne : (i : Int) ≠ lastMove)
    (hpos : 0 < d.worth) : lowered lastMove orig (da_set_worth l (i : Int) (d.worth - 1)) := by
  refine ⟨by rw [length_da_set_worth]; exact h.1, ?_⟩
  intro k e he
  obtain ⟨e', h1, h2, h3, h4, h5⟩ := h.2 k e he
  by_cases hik : i = k
  · subst hik
    rw [hd] at h1
    cases h1
    refine ⟨{ d with worth := d.worth - 1 }, ?_, h2, ?_, ?_, fun hk => absurd hk hne⟩
    · rw [getElem?_da_set_worth, hd]; simp
    · show d.worth - 1 ≤ e.worth
      omega
    · show min e.worth 0 ≤ d.worth - 1
      omega
  · refine ⟨e', ?_, h2, h3, h4, h5⟩
    rw [getElem?_da_set_worth, h1]
    simp [hik]

theorem raised_refl (lastMove : Int) (l : List decision) : raised lastMove l l :=
  ⟨rfl, fun _ e he => ⟨e, he, rfl, Int.le_refl _, fun _ => rfl⟩⟩

theorem raised_step (lastMove : Int) (orig l : List decision) (i : Nat) (d : decision)
    (h : raised lastMove orig l) (hd : l[i]? = some d) (hne : (i : Int) ≠ lastMove) :
    raised lastMove orig (da_set_worth l (i : Int) (d.worth + 1)) := by
  refine ⟨by rw [length_da_set_worth]; exact h.1, ?_⟩
  intro k e he
  obtain ⟨e', h1, h2, h3, h5⟩ := h.2 k e he
  by_cases hik : i = k
  · subst hik
    rw [hd] at h1
    cases h1
    refine ⟨{ d with worth := d.worth + 1 }, ?_, h2, ?_, fun hk => absurd hk hne⟩
    · rw [getElem?_da_set_worth, hd]; simp
    · show e.worth ≤ d.worth + 1
      omega
  · refine ⟨e', ?_, h2, h3, h5⟩
    rw [getElem?_da_set_worth, h1]
    simp [hik]

/-- With a valid `lastMove` and fuel for `4 * da_top + 200` iterations `turn_node_mark_good`
returns; only the decision array changes, and the loop leaves the reinforced decision as the
first statements set it. -/
theorem mark_good_returns (fuel : Nat) (node : turn_node) (d : decision)
    (hget : da_get node.actions node.lastMove = some d)
    (hfuel : 4 * node.actions.length + 200 ≤ fuel) :
    ∃ a', turn_node_mark_good fuel node = Except.ok { node with actions := a' } ∧
      lowered node.lastMove
        (da_set_worth node.actions node.lastMove
          (if d.worth + (((node.actions.length : Int) - 1) + 100) > node.sum ∨
              d.worth + (((node.actions.length : Int) - 1) + 100) < 0 then node.sum
            else d.worth + (((node.actions.length : Int) - 1) + 100))) a' := by
  obtain ⟨m, hm, -, hmlt⟩ := da_get_some _ _ _ hget
  generalize hW : (if d.worth + (((node.actions.length : Int) - 1) + 100) > node.sum ∨
      d.worth + (((node.actions.length : Int) - 1) + 100) < 0 then node.sum
    else d.worth + (((node.actions.length : Int) - 1) + 100)) = W
  have hlen := length_da_set_worth node.actions node.lastMove W
  obtain ⟨a', c', t', h1, h2, -, -⟩ := mark_good_loop_rule node.lastMove
    (fun l _ _ => lowered node.lastMove (da_set_worth node.actions node.lastMove W) l)
    (fun l i e cnt take hP _ _ _ => hP)
    (fun l i e cnt take hP he hne hpos _ => lowered_step _ _ l i e hP he hne hpos)
    fuel (da_set_worth node.actions node.lastMove W) 0 1
    (((node.actions.length : Int) - 1) + 100)
    (by rw [hlen]; omega) (by omega) (lowered_refl _ _)
    (by rw [hlen]; intro _ _; split <;> omega)
  refine ⟨a', ?_, h2⟩
  simp only [turn_node_mark_good, hget, hW, h1]

/-- With at least two decisions, a valid `lastMove` and fuel for `2 * da_top + 100` iterations
`turn_node_mark_bad` returns; only the decision array changes, and the loop leaves the penalised
decision as the first statements set it. -/
theorem mark_bad_returns (fuel : Nat) (node : turn_node) (d : decision)
    (hn : 2 ≤ node.actions.length)
    (hget : da_get node.actions node.lastMove = some d)
    (hfuel : 2 * node.actions.length + 100 ≤ fuel) :
    ∃ a', turn_node_mark_bad fuel node = Except.ok { node with actions := a' } ∧
      raised node.lastMove
        (da_set_worth node.actions node.lastMove
          (if d.worth - (((node.actions.length : Int) - 1) + 50) < 0 then 0
            else d.worth - (((node.actions.length : Int) - 1) + 50))) a' := by
  generalize hW : (if d.worth - (((node.actions.length : Int) - 1) + 50) < 0 then 0
    else d.worth - (((node.actions.length : Int) - 1) + 50)) = W
  generalize hG : (if d.worth - (((node.actions.length : Int) - 1) + 50) < 0 then
      (((node.actions.length : Int) - 1) + 50) +
        (d.worth - (((node.actions.length : Int) - 1) + 50))
    else (((node.actions.length : Int) - 1) + 50)) = G
  have hGle : G ≤ ((node.actions.length : Int) - 1) + 50 := by
    rw [← hG]; split <;> omega
  have hlen := length_da_set_worth node.actions node.lastMove W
  obtain ⟨a', g', h1, h2, -, -⟩ := mark_bad_loop_rule node.lastMove
    (fun l _ => raised node.lastMove (da_set_worth node.actions node.lastMove W) l)
    (fun l i e give hP he hne _ => raised_step _ _ l i e hP he hne)
    fuel (da_set_worth node.actions node.lastMove W) 0 G
    (by rw [hlen]; exact hn) (by rw [hlen]; omega) (raised_refl _ _)
    (by intro _; split <;> omega)
  refine ⟨a', ?_, h2⟩
  have hgt : node.actions.length > 1 := by omega
  simp only [turn_node_mark_bad, hgt, if_true, hget, hW, hG, h1]

/-! ## Claims on the reinforced and the penalised decision -/

/-- Claim C14: on a node with a valid `lastMove` (so with at least one decision) whose reinforced
decision has worth `w ≥ 0`, `turn_node_mark_good` returns (given fuel for `4 * da_top + 200`
iterations) and the reinforced decision's worth is then `min (w + (n-1) + 100) sum`: it is
strictly larger than `w` whenever `w < sum`, and exactly `sum` once the addition exceeds `sum`. -/
theorem mark_good_reinforced (fuel : Nat) (node : turn_node) (d : decision)
    (hget : da_get node.actions node.lastMove = some d)
    (hw : 0 ≤ d.worth)
    (hfuel : 4 * node.actions.length + 200 ≤ fuel) :
    ∃ (node' : turn_node) (d' : decision), turn_node_mark_good fuel node = Except.ok node' ∧
      node'.lastMove = node.lastMove ∧
      da_get node'.actions node'.lastMove = some d' ∧ d'.pos = d.pos ∧
      d'.worth = min (d.worth + (((node.actions.length : Int) - 1) + 100)) node.sum ∧
      (d.worth < node.sum → d.worth < d'.worth) ∧
      (node.sum < d.worth + (((node.actions.length : Int) - 1) + 100) →
        d'.worth = node.sum) := by
  obtain ⟨a', hret, hlow⟩ := mark_good_returns fuel node d hget hfuel
  obtain ⟨m, hm, hd, hmlt⟩ := da_get_some _ _ _ hget
  have horig := getElem?_da_set_worth node.actions m m
    (if d.worth + (((node.actions.length : Int) - 1) + 100) > node.sum ∨
        d.worth + (((node.actions.length : Int) - 1) + 100) < 0 then node.sum
      else d.worth + (((node.actions.length : Int) - 1) + 100))
  rw [hd] at horig
  simp only [Option.map_some', if_true] at horig
  rw [hm] at hlow
  obtain ⟨e', h1, h2, -, -, h5⟩ := hlow.2 m _ horig
  have he := congrArg decision.worth (h5 rfl)
  dsimp only at he
  refine ⟨{ node with actions := a' }, e', hret, rfl, ?_, h2, ?_, ?_, ?_⟩
  · show da_get a' node.lastMove = _
    rw [hm, da_get_natCast]
    exact h1
  · rw [he]
    split <;> omega
  · intro hlt
    rw [he]
    split <;> omega
  · intro hlt
    rw [he]
    split <;> omega

/-- Witness for C14 on the root node after one penalty and three reinforcements (reinforced worth
432, `sum = 900`): the hypotheses hold and the reinforced worth becomes `min 540 900`. -/
theorem mark_good_reinforced_witness :
    (da_get drained_root.actions drained_root.lastMove = some (decision_new 0 432) ∧
      0 ≤ (decision_new 0 432).worth ∧ 4 * drained_root.actions.length + 200 ≤ 300) ∧
    ∃ (node' : turn_node) (d' : decision),
      turn_node_mark_good 300 drained_root = Except.ok node' ∧
      node'.lastMove = drained_root.lastMove ∧
      da_get node'.actions node'.lastMove = some d' ∧ d'.pos = (decision_new 0 432).pos ∧
      d'.worth = min ((decision_new 0 432).worth +
        (((drained_root.actions.length : Int) - 1) + 100)) drained_root.sum ∧
      ((decision_new 0 432).worth < drained_root.sum → (decision_new 0 432).worth < d'.worth) ∧
      (drained_root.sum < (decision_new 0 432).worth +
          (((drained_root.actions.length : Int) - 1) + 100) → d'.worth = drained_root.sum) :=
  ⟨⟨by decide, by decide, by decide⟩,
    mark_good_reinforced 300 drained_root (decision_new 0 432) (by decide) (by decide)
      (by decide)⟩

/-- Claim C15: on a node with at least 2 decisions and a valid `lastMove`, `turn_node_mark_bad`
returns (given fuel for `2 * da_top + 100` iterations) and the penalised decision's worth, `w`
before the call, is then `max (w - ((n-1) + 50)) 0`: strictly smaller than `w` whenever `w > 0`,
and exactly 0 once the subtraction goes below 0. This holds in particular for `w ≥ 0`. -/
theorem mark_bad_penalised (fuel : Nat) (node : turn_node) (d : decision)
    (hn : 2 ≤ node.actions.length)
    (hget : da_get node.actions node.lastMove = some d)
    (hfuel : 2 * node.actions.length + 100 ≤ fuel) :
    ∃ (node' : turn_node) (d' : decision), turn_node_mark_bad fuel node = Except.ok node' ∧
      node'.lastMove = node.lastMove ∧
      da_get node'.actions node'.lastMove = some d' ∧ d'.pos = d.pos ∧
      d'.worth = max (d.worth - (((node.actions.length : Int) - 1) + 50)) 0 ∧
      (0 < d.worth → d'.worth < d.worth) ∧
      (d.worth - (((node.actions.length : Int) - 1) + 50) < 0 → d'.worth = 0) := by
  obtain ⟨a', hret, hlow⟩ := mark_bad_returns fuel node d hn hget hfuel
  obtain ⟨m, hm, hd, hmlt⟩ := da_get_some _ _ _ hget
  have horig := getElem?_da_set_worth node.actions m m
    (if d.worth - (((node.actions.length : Int) - 1) + 50) < 0 then 0
      else d.worth - (((node.actions.length : Int) - 1) + 50))
  rw [hd] at horig
  simp only [Option.map_some', if_true] at horig
  rw [hm] at hlow
  obtain ⟨e', h1, h2, -, h5⟩ := hlow.2 m _ horig
  have he := congrArg decision.worth (h5 rfl)
  dsimp only at he
  refine ⟨{ node with actions := a' }, e', hret, rfl, ?_, h2, ?_, ?_, ?_⟩
  · show da_get a' node.lastMove = _
    rw [hm, da_get_natCast]
    exact h1
  · rw [he]
    split <;> omega
  · intro hlt
    rw [he]
    split <;> omega
  · intro hlt
    rw [he]
    split <;> omega

/-- Witness for C15 on a node with worths 228, 20, 52 whose penalised worth 20 is clamped: the
hypotheses hold and the penalised worth becomes `max (20 - 52) 0`. -/
theorem mark_bad_penalised_witness :
    (2 ≤ penalised_node.actions.length ∧
      da_get penalised_node.actions penalised_node.lastMove = some (decision_new 6 20) ∧
      2 * penalised_node.actions.length + 100 ≤ 200) ∧
    ∃ (node' : turn_node) (d' : decision),
      turn_node_mark_bad 200 penalised_node = Except.ok node' ∧
      node'.lastMove = penalised_node.lastMove ∧
      da_get node'.actions node'.lastMove = some d' ∧ d'.pos = (decision_new 6 20).pos ∧
      d'.worth = max ((decision_new 6 20).worth -
        (((penalised_node.actions.length : Int) - 1) + 50)) 0 ∧
      (0 < (decision_new 6 20).worth → d'.worth < (decision_new 6 20).worth) ∧
      ((decision_new 6 20).worth - (((penalised_node.actions.length : Int) - 1) + 50) < 0 →
        d'.worth = 0) :=
  ⟨⟨by decide, by decide, by decide⟩,
    mark_bad_penalised 200 penalised_node (decision_new 6 20) (by decide) (by decide)
      (by decide)⟩

/-- Claim C16: on a node with exactly one decision `turn_node_mark_bad` returns the node as it
was: the decision's worth, `sum` and `lastMove` (and the board) are unchanged, whatever the fuel
and whatever `lastMove` is. -/
theorem mark_bad_single (fuel : Nat) (node : turn_node) (h : node.actions.length = 1) :
    turn_node_mark_bad fuel node = Except.ok node := by
  have hgt : ¬ node.actions.length > 1 := by omega
  simp only [turn_node_mark_bad, hgt, if_false]

/-- Witness for C16 on the node of a board with one free cell. -/
theorem mark_bad_single_witness :
    single_node.actions.length = 1 ∧ turn_node_mark_bad 0 single_node = Except.ok single_node :=
  ⟨rfl, mark_bad_single 0 single_node rfl⟩

/-! ## The clamp of `turn_node_mark_good` and the cached sum -/

set_option maxRecDepth 1000000 in
/-- The node `clamped_node` is reached from a fresh node by calls of `turn_node_make_move`,
`turn_node_mark_good` and `turn_node_mark_bad`. -/
theorem clamped_node_reached :
    clamped_node_trace.toOption.map (fun n => (n.sum, n.lastMove, n.actions)) =
      some (clamped_node.sum, clamped_node.lastMove, clamped_node.actions) := by
  decide

/-- Claim C17: there is a node with all worths at least 0 and `sum` equal to the total of the
worths on which `turn_node_mark_good` triggers the clamp (`worth[lastMove] + take > sum`) and
after which the total of the worths differs from `sum`: on `clamped_node` (worths 227, 0, 73,
`sum = 300`) the result has worths 300, 0, 72. -/
theorem mark_good_clamp_breaks_sum :
    ∃ (node : turn_node) (d : decision),
      (∀ e ∈ node.actions, 0 ≤ e.worth) ∧
      node.sum = total_worth node.actions ∧
      da_get node.actions node.lastMove = some d ∧
      d.worth + (((node.actions.length : Int) - 1) + 100) > node.sum ∧
      ∃ node', turn_node_mark_good 100 node = Except.ok node' ∧
        node'.actions.map decision.worth = [300, 0, 72] ∧
        total_worth node'.actions ≠ node'.sum :=
  ⟨clamped_node, decision_new 4 227, by decide, by decide, by decide, by decide,
    { clamped_node with
      actions := [decision_new 4 300, decision_new 6 0, decision_new 8 72] },
    rfl, by decide, by decide⟩

/-! ## Non-negative worths -/

theorem mark_good_ok_inv (fuel : Nat) (node node' : turn_node)
    (h : turn_node_mark_good fuel node = Except.ok node') :
    ∃ a', node' = { node with actions := a' } := by
  unfold turn_node_mark_good at h
  split at h
  · cases h
  · simp only [] at h
    split at h
    · cases h
    · rename_i a' _
      exact ⟨a', ((Except.ok.injEq _ _).mp h).symm⟩

theorem mark_bad_ok_inv (fuel : Nat) (node node' : turn_node)
    (h : turn_node_mark_bad fuel node = Except.ok node') :
    ∃ a', node' = { node with actions := a' } := by
  unfold turn_node_mark_bad at h
  split at h
  · split at h
    · cases h
    · simp only [] at h
      split at h
      · cases h
      · rename_i a' _
        exact ⟨a', ((Except.ok.injEq _ _).mp h).symm⟩
  · exact ⟨node.actions, ((Except.ok.injEq _ _).mp h).symm⟩

theorem da_get_of_valid (l : List decision) (i : Int) (h0 : 0 ≤ i) (h1 : i < (l.length : Int)) :
    ∃ d, da_get l i = some d := by
  have hlt : i.toNat < l.length := by omega
  exact ⟨l[i.toNat], by simp [da_get, h0, List.getElem?_eq_getElem hlt]⟩

theorem nonneg_da_set_worth (l : List decision) (i : Nat) (w : Int)
    (h : ∀ e ∈ l, 0 ≤ e.worth) (hw : 0 ≤ w) :
    ∀ e ∈ da_set_worth l (i : Int) w, 0 ≤ e.worth := by
  intro e he
  obtain ⟨k, hk⟩ := List.mem_iff_getElem?.mp he
  rw [getElem?_da_set_worth] at hk
  cases hl : l[k]? with
  | none => rw [hl] at hk; cases hk
  | some a =>
    rw [hl] at hk
    simp only [Option.map_some', Option.some.injEq] at hk
    have ha := h a (List.getElem?_mem hl)
    rw [← hk]
    split
    · exact hw
    · exact ha

theorem nonneg_of_lowered (lastMove : Int) (orig l : List decision)
    (h : lowered lastMove orig l) (hnn : ∀ e ∈ orig, 0 ≤ e.worth) :
    ∀ e ∈ l, 0 ≤ e.worth := by
  intro e' he'
  obtain ⟨k, hk⟩ := List.mem_iff_getElem?.mp he'
  have hklt : k < orig.length := by rw [← h.1]; exact getElem?_lt_length _ _ _ hk
  obtain ⟨e'', h1, -, -, h4, -⟩ := h.2 k orig[k] (List.getElem?_eq_getElem hklt)
  rw [hk] at h1
  cases h1
  have := hnn orig[k] (List.getElem_mem _)
  omega

theorem nonneg_of_raised (lastMove : Int) (orig l : List decision)
    (h : raised lastMove orig l) (hnn : ∀ e ∈ orig, 0 ≤ e.worth) :
    ∀ e ∈ l, 0 ≤ e.worth := by
  intro e' he'
  obtain ⟨k, hk⟩ := List.mem_iff_getElem?.mp he'
  have hklt : k < orig.length := by rw [← h.1]; exact getElem?_lt_length _ _ _ hk
  obtain ⟨e'', h1, -, h3, -⟩ := h.2 k orig[k] (List.getElem?_eq_getElem hklt)
  rw [hk] at h1
  cases h1
  have := hnn orig[k] (List.getElem_mem _)
  omega

theorem turn_node_new_nonneg (board : gameboard) :
    ∀ d ∈ (turn_node_new board).actions, 0 ≤ d.worth := by
  intro d hd
  by_cases h : (turn_node_new_scan board).win > -1
  · obtain ⟨w, d0, -, hd0, -, hworth, hz⟩ := turn_node_new_forced_worths board h
    obtain ⟨k, hk⟩ := List.mem_iff_getElem?.mp hd
    by_cases hkw : k = w
    · subst hkw
      rw [hd0] at hk
      cases hk
      rw [hworth, turn_node_new_sum_length]
      omega
    · rw [hz k d hkw hk]
  · rw [turn_node_new_unforced board h, scan_actions, List.mem_map] at hd
    obtain ⟨i, -, rfl⟩ := hd
    show (0 : Int) ≤ 100
    decide

theorem mark_good_nonneg (fuel : Nat) (node : turn_node)
    (hlast : 0 ≤ node.lastMove ∧ node.lastMove < (node.actions.length : Int))
    (hnn : ∀ e ∈ node.actions, 0 ≤ e.worth) (hsum : 0 ≤ node.sum)
    (hfuel : 4 * node.actions.length + 200 ≤ fuel) :
    ∃ node', turn_node_mark_good fuel node = Except.ok node' ∧
      ∀ e ∈ node'.actions, 0 ≤ e.worth := by
  obtain ⟨d, hget⟩ := da_get_of_valid _ _ hlast.1 hlast.2
  obtain ⟨a', hret, hlow⟩ := mark_good_returns fuel node d hget hfuel
  obtain ⟨m, hm, hd, -⟩ := da_get_some _ _ _ hget
  have hdw := hnn d (List.getElem?_mem hd)
  refine ⟨_, hret, nonneg_of_lowered _ _ _ hlow ?_⟩
  rw [hm]
  apply nonneg_da_set_worth _ _ _ hnn
  split <;> omega

theorem mark_bad_nonneg (fuel : Nat) (node : turn_node)
    (hlast : 0 ≤ node.lastMove ∧ node.lastMove < (node.actions.length : Int))
    (hnn : ∀ e ∈ node.actions, 0 ≤ e.worth)
    (hfuel : 2 * node.actions.length + 100 ≤ fuel) :
    ∃ node', turn_node_mark_bad fuel node = Except.ok node' ∧
      ∀ e ∈ node'.actions, 0 ≤ e.worth := by
  by_cases hn : 2 ≤ node.actions.length
  · obtain ⟨d, hget⟩ := da_get_of_valid _ _ hlast.1 hlast.2
    obtain ⟨a', hret, hr⟩ := mark_bad_returns fuel node d hn hget hfuel
    obtain ⟨m, hm, hd, -⟩ := da_get_some _ _ _ hget
    refine ⟨_, hret, nonneg_of_raised _ _ _ hr ?_⟩
    rw [hm]
    apply nonneg_da_set_worth _ _ _ hnn
    split <;> omega
  · have hgt : ¬ node.actions.length > 1 := by omega
    exact ⟨node, by simp only [turn_node_mark_bad, hgt, if_false], hnn⟩

/-! ## The cached sum -/

theorem apply_op_sum (node node' : turn_node) (op : node_op)
    (h : apply_op node op = Except.ok node') : node'.sum = node.sum := by
  cases op with
  | make_move rnd =>
    simp only [apply_op] at h
    split at h
    · cases h
    · rename_i r hr
      have h1 := (Except.ok.injEq _ _).mp h
      obtain ⟨j, hj, -⟩ := make_move_ok_inv node rnd r.1 r.2 hr
      rw [← h1, hj]
  | mark_good fuel =>
    obtain ⟨a', ha⟩ := mark_good_ok_inv fuel node node' h
    rw [ha]
  | mark_bad fuel =>
    obtain ⟨a', ha⟩ := mark_bad_ok_inv fuel node node' h
    rw [ha]

theorem apply_ops_sum (ops : List node_op) :
    ∀ (node node' : turn_node), apply_ops node ops = Except.ok node' → node'.sum = node.sum := by
  induction ops with
  | nil =>
    intro node node' h
    rw [← (Except.ok.injEq _ _).mp h]
  | cons op ops ih =>
    intro node node' h
    simp only [apply_ops] at h
    split at h
    · cases h
    · rename_i n hn
      rw [ih n node' h, apply_op_sum node n op hn]

theorem turn_node_new_length_pos (board : gameboard) (h : ∃ k : Fin 9, board k = EMPTY) :
    0 < (turn_node_new board).actions.length := by
  obtain ⟨k, hk⟩ := h
  have hmem : k.val ∈ (turn_node_new board).actions.map decision.pos := by
    rw [turn_node_new_map_pos, List.mem_filter, List.mem_range]
    refine ⟨k.isLt, ?_⟩
    rw [cell_lt board k.val k.isLt]
    simpa using hk
  have := List.length_pos_of_mem hmem
  rwa [List.length_map] at this

/-- Claim C19: `turn_node_new` sets `sum` to 100 times the number of decisions; none of
`turn_node_make_move`, `turn_node_mark_good` and `turn_node_mark_bad` modifies `sum`; so a node
built from a board with at least one EMPTY cell has `sum > 0` after any sequence of these
operations. -/
theorem sum_never_zero :
    (∀ board : gameboard,
      (turn_node_new board).sum = 100 * ((turn_node_new board).actions.length : Int)) ∧
    (∀ (node : turn_node) (rnd : Nat) (node' : turn_node) (d : decision),
      turn_node_make_move node rnd = Except.ok (node', d) → node'.sum = node.sum) ∧
    (∀ (fuel : Nat) (node node' : turn_node),
      turn_node_mark_good fuel node = Except.ok node' → node'.sum = node.sum) ∧
    (∀ (fuel : Nat) (node node' : turn_node),
      turn_node_mark_bad fuel node = Except.ok node' → node'.sum = node.sum) ∧
    (∀ (board : gameboard) (ops : List node_op) (node : turn_node),
      (∃ k : Fin 9, board k = EMPTY) →
      apply_ops (turn_node_new board) ops = Except.ok node →
      0 < node.sum ∧ node.sum = (turn_node_new board).sum) := by
  refine ⟨turn_node_new_sum_length, ?_, ?_, ?_, ?_⟩
  · intro node rnd node' d h
    obtain ⟨j, hj, -⟩ := make_move_ok_inv node rnd node' d h
    rw [hj]
  · intro fuel node node' h
    obtain ⟨a', ha⟩ := mark_good_ok_inv fuel node node' h
    rw [ha]
  · intro fuel node node' h
    obtain ⟨a', ha⟩ := mark_bad_ok_inv fuel node node' h
    rw [ha]
  · intro board ops node hempty h
    have hs := apply_ops_sum ops _ _ h
    have hlen := turn_node_new_length_pos board hempty
    have hnew := turn_node_new_sum_length board
    exact ⟨by omega, hs⟩

set_option maxRecDepth 1000000 in
/-- Witness for C19: the empty board has an EMPTY cell, a run of four operations on its fresh node
returns, and `sum` is 900 after it. -/
theorem sum_never_zero_witness :
    (∃ k : Fin 9, EMPTY_BOARD k = EMPTY) ∧
    (apply_ops (turn_node_new EMPTY_BOARD)
      [node_op.make_move 150, node_op.mark_bad 200, node_op.make_move 0,
        node_op.mark_good 300]).toOption.map (fun n => n.sum) = some 900 ∧
    ∀ node : turn_node,
      apply_ops (turn_node_new EMPTY_BOARD)
        [node_op.make_move 150, node_op.mark_bad 200, node_op.make_move 0,
          node_op.mark_good 300] = Except.ok node →
      0 < node.sum ∧ node.sum = (turn_node_new EMPTY_BOARD).sum :=
  ⟨⟨0, rfl⟩, by decide,
    fun node h => sum_never_zero.2.2.2.2 EMPTY_BOARD _ node ⟨0, rfl⟩ h⟩

/-! ## Lemmas on `compar_board` and the map -/

theorem compar_board_scan_eq_zero (left right : gameboard) (l : List Nat) :
    compar_board_scan left right l = 0 ↔ ∀ i ∈ l, cell left i = cell right i := by
  induction l with
  | nil => simp [compar_board_scan]
  | cons i rest ih =>
    rcases lt_trichotomy (cell left i) (cell right i) with h | h | h
    · have hne : cell left i ≠ cell right i := ne_of_lt h
      simp [compar_board_scan, h, hne]
    · simp [compar_board_scan, h, ih]
    · have hne : cell left i ≠ cell right i := (ne_of_lt h).symm
      have hnlt : ¬ cell left i < cell right i := not_lt_of_gt h
      simp [compar_board_scan, h, hnlt, hne]

theorem compar_board_eq_zero (left right : gameboard) :
    compar_board left right = 0 ↔ left = right := by
  unfold compar_board
  rw [compar_board_scan_eq_zero]
  constructor
  · intro h
    funext k
    have := h k.val (List.mem_range.mpr k.isLt)
    rwa [cell_lt left k.val k.isLt, cell_lt right k.val k.isLt] at this
  · intro h i _
    rw [h]

/-! ## Claims on `get_move_reaction` -/

/-- Claim C20: on a board that has no node in the map, `get_move_reaction` returns
`turn_node_new board` and inserts it under exactly that board: the entries of the map are the old
ones followed by this node, a lookup of the same board finds the returned node, and the lookup of
every other board is as before. -/
theorem get_move_reaction_absent (reactions : treemap) (board : gameboard)
    (habsent : treemap_lookup reactions board = none) :
    (get_move_reaction reactions board).1 = turn_node_new board ∧
    (get_move_reaction reactions board).1.board = board ∧
    (get_move_reaction reactions board).2.entries =
      reactions.entries ++ [turn_node_new board] ∧
    treemap_lookup (get_move_reaction reactions board).2 board =
      some (get_move_reaction reactions board).1 ∧
    ∀ other : gameboard, other ≠ board →
      treemap_lookup (get_move_reaction reactions board).2 other =
        treemap_lookup reactions other := by
  have hkey : (turn_node_new board).board = board := rfl
  have hins : treemap_insert reactions (turn_node_new board) =
      { entries := reactions.entries ++ [turn_node_new board] } := by
    simp only [treemap_insert, hkey, habsent]
  have hrun : get_move_reaction reactions board =
      (turn_node_new board, { entries := reactions.entries ++ [turn_node_new board] }) := by
    simp only [get_move_reaction, habsent, hins]
  rw [hrun]
  refine ⟨rfl, rfl, rfl, ?_, ?_⟩
  · unfold treemap_lookup at habsent ⊢
    have hself : compar_board (turn_node_new board).board board = 0 :=
      (compar_board_eq_zero _ _).mpr hkey
    simp [List.find?_append, habsent, List.find?_cons, hself]
  · intro other hne
    unfold treemap_lookup
    have hother : ¬ compar_board (turn_node_new board).board other = 0 := by
      rw [compar_board_eq_zero, hkey]
      exact fun h => hne h.symm
    simp [List.find?_append, List.find?_cons, hother]

/-- Witness for C20: the map without entries has no node for the empty board, and the call leaves
the map with the fresh node of the empty board as its only entry. -/
theorem get_move_reaction_absent_witness :
    treemap_lookup treemap_new EMPTY_BOARD = none ∧
    (get_move_reaction treemap_new EMPTY_BOARD).1 = turn_node_new EMPTY_BOARD ∧
    (get_move_reaction treemap_new EMPTY_BOARD).2.entries = [turn_node_new EMPTY_BOARD] ∧
    treemap_lookup (get_move_reaction treemap_new EMPTY_BOARD).2 EMPTY_BOARD =
      some (get_move_reaction treemap_new EMPTY_BOARD).1 := by
  have h := get_move_reaction_absent treemap_new EMPTY_BOARD rfl
  exact ⟨rfl, h.1, h.2.2.1, h.2.2.2.1⟩

/-! ## `compar_board` as the lexicographic order -/

theorem compar_board_scan_prefix (a b : gameboard) (l₁ l₂ : List Nat)
    (h : ∀ i ∈ l₁, cell a i = cell b i) :
    compar_board_scan a b (l₁ ++ l₂) = compar_board_scan a b l₂ := by
  induction l₁ with
  | nil => rfl
  | cons i rest ih =>
    have hi : cell a i = cell b i := h i (List.mem_cons_self _ _)
    have hrest := ih (fun j hj => h j (List.mem_cons_of_mem _ hj))
    simp [compar_board_scan, hi, hrest]

theorem range_split (n k : Nat) (hk : k < n) :
    ∃ rest, List.range n = List.range k ++ k :: rest := by
  obtain ⟨m, hm⟩ : ∃ m, n = k + (m + 1) := ⟨n - k - 1, by omega⟩
  rw [hm, List.range_add, List.range_succ_eq_map]
  exact ⟨List.map (fun x => k + x) (List.map Nat.succ (List.range m)), by simp⟩

theorem compar_board_scan_neg (a b : gameboard) (l : List Nat) :
    compar_board_scan a b l = - compar_board_scan b a l := by
  induction l with
  | nil => simp [compar_board_scan]
  | cons i rest ih =>
    rcases lt_trichotomy (cell a i) (cell b i) with h | h | h
    · have h2 : ¬ cell b i < cell a i := not_lt_of_gt h
      simp [compar_board_scan, h, h2]
    · simp [compar_board_scan, h, ih]
    · have h2 : ¬ cell a i < cell b i := not_lt_of_gt h
      simp [compar_board_scan, h, h2]

theorem compar_board_first_difference (a b : gameboard) (k : Fin 9)
    (heq : ∀ j : Fin 9, j < k → a j = b j) :
    (a k < b k → compar_board a b = -1) ∧ (a k > b k → compar_board a b = 1) := by
  obtain ⟨rest, hsplit⟩ := range_split 9 k.val k.isLt
  have hpre : ∀ i ∈ List.range k.val, cell a i = cell b i := by
    intro i hi
    have hik : i < k.val := List.mem_range.mp hi
    have hi9 : i < 9 := Nat.lt_trans hik k.isLt
    rw [cell_lt a i hi9, cell_lt b i hi9]
    exact heq ⟨i, hi9⟩ hik
  have hscan : compar_board a b = compar_board_scan a b (k.val :: rest) := by
    unfold compar_board
    rw [hsplit, compar_board_scan_prefix a b _ _ hpre]
  have hka : cell a k.val = a k := cell_lt a k.val k.isLt
  have hkb : cell b k.val = b k := cell_lt b k.val k.isLt
  constructor
  · intro hlt
    rw [hscan]
    simp [compar_board_scan, hka, hkb, hlt]
  · intro hgt
    have hnlt : ¬ a k < b k := not_lt_of_gt hgt
    rw [hscan]
    simp [compar_board_scan, hka, hkb, hgt, hnlt]

/-- Claim C22: `compar_board a b` is 0 exactly when `a` and `b` agree on every cell; otherwise it
is -1 or 1 according to whether the cell of `a` is smaller or larger than the cell of `b` at the
first position where they differ; and `compar_board a b = - compar_board b a`. -/
theorem compar_board_lexicographic (a b : gameboard) :
    (compar_board a b = 0 ↔ ∀ k : Fin 9, a k = b k) ∧
    (∀ k : Fin 9, (∀ j : Fin 9, j < k → a j = b j) → a k < b k → compar_board a b = -1) ∧
    (∀ k : Fin 9, (∀ j : Fin 9, j < k → a j = b j) → a k > b k → compar_board a b = 1) ∧
    compar_board a b = - compar_board b a := by
  refine ⟨?_, ?_, ?_, compar_board_scan_neg a b _⟩
  · rw [compar_board_eq_zero]
    exact ⟨fun h k => by rw [h], fun h => funext h⟩
  · intro k heq hlt
    exact (compar_board_first_difference a b k heq).1 hlt
  · intro k heq hgt
    exact (compar_board_first_difference a b k heq).2 hgt

/-! ## `get_move_reaction` on a board that has a node -/

theorem treemap_lookup_some (reactions : treemap) (key : gameboard) (node : turn_node)
    (h : treemap_lookup reactions key = some node) :
    node ∈ reactions.entries ∧ node.board = key := by
  unfold treemap_lookup at h
  refine ⟨List.mem_of_find?_eq_some h, ?_⟩
  have := List.find?_some h
  exact (compar_board_eq_zero _ _).mp (by simpa using this)

theorem treemap_lookup_none (reactions : treemap) (key : gameboard)
    (h : treemap_lookup reactions key = none) : ∀ e ∈ reactions.entries, e.board ≠ key := by
  unfold treemap_lookup at h
  intro e he heq
  have := List.find?_eq_none.mp h e he
  exact this (by simpa using (compar_board_eq_zero _ _).mpr heq)

theorem get_move_reaction_of_some (reactions : treemap) (board : gameboard) (node : turn_node)
    (h : treemap_lookup reactions board = some node) :
    get_move_reaction reactions board = (node, reactions) := by
  simp only [get_move_reaction, h]

theorem get_move_reaction_of_none (reactions : treemap) (board : gameboard)
    (h : treemap_lookup reactions board = none) :
    get_move_reaction reactions board =
      (turn_node_new board, { entries := reactions.entries ++ [turn_node_new board] }) := by
  have hkey : (turn_node_new board).board = board := rfl
  simp only [get_move_reaction, h, treemap_insert, hkey]

theorem treemap_lookup_appended (reactions : treemap) (board : gameboard)
    (h : treemap_lookup reactions board = none) :
    treemap_lookup { entries := reactions.entries ++ [turn_node_new board] } board =
      some (turn_node_new board) := by
  unfold treemap_lookup at h ⊢
  have hself : compar_board (turn_node_new board).board board = 0 :=
    (compar_board_eq_zero _ _).mpr rfl
  simp [List.find?_append, h, List.find?_cons, hself]

theorem get_move_reaction_lookup (reactions : treemap) (board : gameboard) :
    treemap_lookup (get_move_reaction reactions board).2 board =
      some (get_move_reaction reactions board).1 := by
  cases h : treemap_lookup reactions board with
  | some node => rw [get_move_reaction_of_some reactions board node h]; exact h
  | none =>
    rw [get_move_reaction_of_none reactions board h]
    exact treemap_lookup_appended reactions board h

theorem get_move_reaction_twice (reactions : treemap) (board : gameboard) :
    get_move_reaction (get_move_reaction reactions board).2 board =
      get_move_reaction reactions board :=
  get_move_reaction_of_some _ board _ (get_move_reaction_lookup reactions board)

theorem get_move_reaction_distinct (reactions : treemap) (board : gameboard)
    (h : distinct_keys reactions) : distinct_keys (get_move_reaction reactions board).2 := by
  cases hl : treemap_lookup reactions board with
  | some node => rw [get_move_reaction_of_some reactions board node hl]; exact h
  | none =>
    rw [get_move_reaction_of_none reactions board hl]
    unfold distinct_keys at h ⊢
    rw [List.pairwise_append]
    refine ⟨h, List.pairwise_singleton _ _, ?_⟩
    intro a ha b hb
    rw [List.mem_singleton] at hb
    subst hb
    exact treemap_lookup_none reactions board hl a ha

/-- Claim C21: on a board that already has a node, `get_move_reaction` returns that node as it is
stored (worths and `lastMove` included) and leaves the map unchanged. Two consecutive calls with
the same board return the same node, the second leaving the map as the first left it; and a map
grown from the empty one by `get_move_reaction` never holds two nodes with the same board. -/
theorem get_move_reaction_present (reactions : treemap) (board : gameboard) (node : turn_node)
    (hpresent : treemap_lookup reactions board = some node) :
    get_move_reaction reactions board = (node, reactions) ∧
    (∀ (r : treemap) (b : gameboard),
      get_move_reaction (get_move_reaction r b).2 b = get_move_reaction r b) ∧
    distinct_keys treemap_new ∧
    (∀ (r : treemap) (b : gameboard),
      distinct_keys r → distinct_keys (get_move_reaction r b).2) :=
  ⟨get_move_reaction_of_some reactions board node hpresent, get_move_reaction_twice,
    List.Pairwise.nil, get_move_reaction_distinct⟩

/-- Witness for C21: in a map that holds a node of the empty board with learned worths and
`lastMove = 0`, the call for the empty board returns that node, whose worths are not those of a
freshly built node. -/
theorem get_move_reaction_present_witness :
    treemap_lookup learned_map EMPTY_BOARD = some drained_root ∧
    get_move_reaction learned_map EMPTY_BOARD = (drained_root, learned_map) ∧
    drained_root.actions ≠ (turn_node_new EMPTY_BOARD).actions :=
  ⟨rfl, (get_move_reaction_present learned_map EMPTY_BOARD drained_root rfl).1, by decide⟩

/-! ## The end-to-end penalty scenario -/

theorem root_actions :
    (turn_node_new EMPTY_BOARD).actions =
      [decision_new 0 100, decision_new 1 100, decision_new 2 100, decision_new 3 100,
        decision_new 4 100, decision_new 5 100, decision_new 6 100, decision_new 7 100,
        decision_new 8 100] := by
  decide

/-- Claim C26: the root node built from the empty board has 9 decisions of worth 100 and
`sum = 900`; if `turn_node_make_move` picks position 4 and `turn_node_mark_bad` is then applied to
the node, the centre decision's worth is 42, strictly less than 100, and the worths still add up
to 900. -/
theorem root_penalty_scenario (rnd : Nat) (node1 : turn_node) (d : decision)
    (hmove : turn_node_make_move (turn_node_new EMPTY_BOARD) rnd = Except.ok (node1, d))
    (hpos : d.pos = 4) :
    (turn_node_new EMPTY_BOARD).sum = 900 ∧
    (turn_node_new EMPTY_BOARD).actions.map decision.worth = List.replicate 9 100 ∧
    ∃ (node2 : turn_node) (d2 : decision),
      turn_node_mark_bad 200 node1 = Except.ok node2 ∧
      da_get node2.actions node2.lastMove = some d2 ∧ d2.pos = 4 ∧
      d2.worth = 42 ∧ d2.worth < 100 ∧
      total_worth node2.actions = 900 ∧ node2.sum = 900 := by
  obtain ⟨j, hj, hd⟩ := make_move_ok_inv _ rnd node1 d hmove
  have hj4 : j = 4 := by
    rw [root_actions] at hd
    have hlt : j < 9 := by
      have := getElem?_lt_length _ j d hd
      simpa using this
    interval_cases j <;> simp [decision_new] at hd <;> subst hd <;> simp at hpos
    rfl
  subst hj4
  subst hj
  refine ⟨by decide, by decide, ?_⟩
  refine ⟨{ turn_node_new EMPTY_BOARD with
      lastMove := 4,
      actions := [decision_new 0 108, decision_new 1 108, decision_new 2 107,
        decision_new 3 107, decision_new 4 42, decision_new 5 107, decision_new 6 107,
        decision_new 7 107, decision_new 8 107] }, decision_new 4 42, ?_, by decide, rfl,
    rfl, by decide, by decide, by decide⟩
  have h : (turn_node_mark_bad 200
      { turn_node_new EMPTY_BOARD with lastMove := ((4 : Nat) : Int) }).toOption.map
        (fun n => n.actions) =
      some [decision_new 0 108, decision_new 1 108, decision_new 2 107,
        decision_new 3 107, decision_new 4 42, decision_new 5 107, decision_new 6 107,
        decision_new 7 107, decision_new 8 107] := by
    decide
  cases hres : turn_node_mark_bad 200
      { turn_node_new EMPTY_BOARD with lastMove := ((4 : Nat) : Int) } with
  | error e => rw [hres] at h; cases h
  | ok n2 =>
    obtain ⟨a', ha⟩ := mark_bad_ok_inv _ _ _ hres
    rw [hres] at h
    simp only [Except.toOption, Option.map_some', Option.some.injEq] at h
    rw [ha] at h ⊢
    simp only [] at h
    rw [h]
    rfl

/-- Witness for C26: the draw 450 gives `r = 451`, which selects the decision for position 4. -/
theorem root_penalty_scenario_witness :
    (turn_node_make_move (turn_node_new EMPTY_BOARD) 450 =
        Except.ok ({ turn_node_new EMPTY_BOARD with lastMove := 4 }, decision_new 4 100) ∧
      (decision_new 4 100).pos = 4) ∧
    ∃ (node2 : turn_node) (d2 : decision),
      turn_node_mark_bad 200 { turn_node_new EMPTY_BOARD with lastMove := 4 } =
        Except.ok node2 ∧
      da_get node2.actions node2.lastMove = some d2 ∧ d2.pos = 4 ∧
      d2.worth = 42 ∧ d2.worth < 100 ∧
      total_worth node2.actions = 900 ∧ node2.sum = 900 :=
  ⟨⟨rfl, rfl⟩, (root_penalty_scenario 450 _ _ rfl rfl).2.2⟩

/-! ## The validation of the human move -/

/-- Claim C27 fails on the code: for the input column 5, row 0 on the empty board the session
accepts the move (it writes X into cell 5), although the column is not in `0 .. 2`; for column -1,
row 1 it writes X into cell 2; and for column -1, row 0 the test reads `board[-1]`. The code only
tests `x >= 9` and the cell at `x = column + 3*row`. -/
theorem human_move_accepts_out_of_range :
    human_move EMPTY_BOARD 5 0 = Except.ok (some (set_cell EMPTY_BOARD 5 X)) ∧
    ¬ ((0 : Int) ≤ 5 ∧ (5 : Int) ≤ 2) ∧
    human_move EMPTY_BOARD (-1) 1 = Except.ok (some (set_cell EMPTY_BOARD 2 X)) ∧
    human_move EMPTY_BOARD (-1) 0 = Except.error fault.out_of_bounds :=
  ⟨rfl, by decide, rfl, rfl⟩

/-! ## Where the redistribution of `turn_node_mark_good` stops -/

set_option maxRecDepth 1000000 in
/-- Claim C29 fails on the code: `drained_root` has 9 decisions, worths at least 0 and a valid
`lastMove = 0`; after `turn_node_mark_good` the other decisions, which held 468 in total, hold
419: they have lost 49, not `take = 108`, and seven of them are not 0. The loop stops because
`cnt`, which counts every visit of the zero-worth decision 1, reaches `da_top`. -/
theorem mark_good_stops_early :
    (2 ≤ drained_root.actions.length ∧
      (∀ d ∈ drained_root.actions, 0 ≤ d.worth) ∧
      (0 ≤ drained_root.lastMove ∧
        drained_root.lastMove < (drained_root.actions.length : Int))) ∧
    total_worth (drained_root.actions.drop 1) = 468 ∧
    (turn_node_mark_good 300 drained_root).toOption.map
        (fun n => (n.lastMove, (n.actions.drop 1).map decision.worth)) =
      some (0, [0, 59, 58, 58, 61, 61, 61, 61]) ∧
    (turn_node_mark_good 300 drained_root).toOption.map
        (fun n => total_worth (n.actions.drop 1)) = some 419 ∧
    (468 : Int) - 419 ≠ ((drained_root.actions.length : Int) - 1) + 100 :=
  ⟨⟨by decide, by decide, by decide⟩, by decide, by decide, by decide, by decide⟩

/-! ## The threshold of `turn_node_make_move` -/

theorem total_worth_take_mono (l : List decision) (h : ∀ d ∈ l, 0 ≤ d.worth) (j k : Nat)
    (hjk : j ≤ k) : total_worth (l.take j) ≤ total_worth (l.take k) := by
  have htake : l.take j = (l.take k).take j := by
    rw [List.take_take, Nat.min_eq_left hjk]
  rw [htake]
  exact total_worth_take_le (l.take k) (fun d hd => h d (List.mem_of_mem_take hd)) j

/-- Claim C30 fails as stated: on the fresh node of `X X O / O . X / . O .` (three decisions of
worth 100, `sum = 300`) the draw 100 gives `r = 101`; the least index `j` with
`1 + (w_0 + ... + w_j) ≥ r` is 0, since `1 + 100 ≥ 101`, but `turn_node_make_move` returns the
decision of index 1: its test is `r < 1 + (w_0 + ... + w_j)`, a strict comparison. -/
theorem make_move_threshold_not_meets :
    ((∀ d ∈ fresh_three.actions, 0 ≤ d.worth) ∧
      total_worth fresh_three.actions = fresh_three.sum ∧ 1 ≤ fresh_three.sum) ∧
    ((100 : Int) % fresh_three.sum + 1 = 101 ∧ (101 : Int) ≤ fresh_three.sum) ∧
    1 + total_worth (fresh_three.actions.take (0 + 1)) ≥ 101 ∧
    (turn_node_make_move fresh_three 100).toOption.map (fun p => (p.1.lastMove, p.2)) =
      some (1, decision_new 6 100) :=
  ⟨⟨by decide, by decide, by decide⟩, ⟨by decide, by decide⟩, by decide, by decide⟩

/-- Claim C30, amended: on a node with all worths at least 0 and total worth equal to `sum ≥ 1`,
for every draw, `r = (draw mod sum) + 1` lies in `1 .. sum` and `turn_node_make_move` returns the
first decision in sequence order whose cumulative worth total offset by 1 strictly exceeds `r`,
that is the least index `j` with `1 + (w_0 + ... + w_j) > r`; every `r` in `1 .. sum` arises from
some draw. -/
theorem make_move_threshold (node : turn_node) (rnd : Nat)
    (hworth : ∀ d ∈ node.actions, 0 ≤ d.worth)
    (htotal : total_worth node.actions = node.sum)
    (hsum : 1 ≤ node.sum) :
    (1 ≤ (rnd : Int) % node.sum + 1 ∧ (rnd : Int) % node.sum + 1 ≤ node.sum) ∧
    (∃ (j : Nat) (d : decision), node.actions[j]? = some d ∧
      turn_node_make_move node rnd = Except.ok ({ node with lastMove := (j : Int) }, d) ∧
      1 + total_worth (node.actions.take (j + 1)) > (rnd : Int) % node.sum + 1 ∧
      ∀ j' : Nat, j' < j →
        ¬ (1 + total_worth (node.actions.take (j' + 1)) > (rnd : Int) % node.sum + 1)) ∧
    (∀ r : Int, 1 ≤ r → r ≤ node.sum → (((r - 1).toNat : Nat) : Int) % node.sum + 1 = r) := by
  have hr := rand_mod_range rnd node.sum (by omega)
  rw [threshold_eq rnd node.sum hsum] at hr
  refine ⟨⟨hr.1, by omega⟩, ?_, ?_⟩
  · obtain ⟨m, d, hd, hmove, hiff⟩ := make_move_selects node rnd hworth htotal hsum
    have hm := (hiff m).mp rfl
    refine ⟨m, d, hd, hmove, by omega, ?_⟩
    intro j' hj'
    have := total_worth_take_mono node.actions hworth (j' + 1) m (by omega)
    omega
  · intro r h1 h2
    rw [Int.toNat_of_nonneg (by omega), Int.emod_eq_of_lt (by omega) (by omega)]
    omega

/-- Witness for the amended C30 on the fresh node of `X X O / O . X / . O .` and the draw 100:
the hypotheses hold and the decision returned is the one of index 1. -/
theorem make_move_threshold_witness :
    ((∀ d ∈ fresh_three.actions, 0 ≤ d.worth) ∧
      total_worth fresh_three.actions = fresh_three.sum ∧ 1 ≤ fresh_three.sum) ∧
    (1 ≤ ((100 : Nat) : Int) % fresh_three.sum + 1 ∧
      ((100 : Nat) : Int) % fresh_three.sum + 1 ≤ fresh_three.sum) ∧
    turn_node_make_move fresh_three 100 =
      Except.ok ({ fresh_three with lastMove := 1 }, decision_new 6 100) :=
  ⟨⟨by decide, by decide, by decide⟩,
    (make_move_threshold fresh_three 100 (by decide) (by decide) (by decide)).1, rfl⟩

/-! ## One frame of `self_play_recursive` -/

/-- What a returning call of `self_play_recursive` has done: it dereferenced the active node,
selected a move, wrote it on the board, and then either the game was over and it reinforced the
node, or it called itself with the roles swapped and reinforced or penalised the node according
to the marker returned. -/
theorem self_play_inv (rand : Nat → Nat) (depth : Nat) (board : gameboard)
    (active inactive : knowledge) (turn : Char) (tick : Nat) (r : play_result)
    (h : self_play_recursive rand (depth + 1) board active inactive turn tick = Except.ok r) :
    ∃ (n n' : turn_node) (d : decision),
      knowledge_deref active active.node = some n ∧
      turn_node_make_move n (rand tick) = Except.ok (n', d) ∧
      (((gameboard_get_state (set_cell board d.pos turn) turn = board_state.board_won ∨
            gameboard_get_state (set_cell board d.pos turn) turn =
              board_state.board_complete) ∧
          ∃ a2, mark_good_at (knowledge_store active active.node n') active.node =
              Except.ok a2 ∧
            r = { winner := turn, board := set_cell board d.pos turn, active := a2,
                  inactive := inactive, tick := tick + 1,
                  events := [play_event.moved turn active.node d.pos board,
                    play_event.marked turn active.node true] }) ∨
        (¬ (gameboard_get_state (set_cell board d.pos turn) turn = board_state.board_won ∨
            gameboard_get_state (set_cell board d.pos turn) turn =
              board_state.board_complete) ∧
          ∃ r', self_play_recursive rand depth (set_cell board d.pos turn)
              { inactive with
                node := node_ref.reaction (set_cell board d.pos turn),
                reactions :=
                  (get_move_reaction inactive.reactions (set_cell board d.pos turn)).2 }
              (knowledge_store active active.node n') (if turn = X then O else X)
              (tick + 1) = Except.ok r' ∧
            ((r'.winner = turn ∧
                ∃ a2, mark_good_at r'.inactive active.node = Except.ok a2 ∧
                  r = { winner := turn, board := r'.board, active := a2,
                        inactive := r'.active, tick := r'.tick,
                        events := play_event.moved turn active.node d.pos board ::
                          r'.events ++ [play_event.marked turn active.node true] }) ∨
              (r'.winner ≠ turn ∧
                ∃ a2, mark_bad_at r'.inactive active.node = Except.ok a2 ∧
                  r = { winner := if turn = O then X else O, board := r'.board, active := a2,
                        inactive := r'.active, tick := r'.tick,
                        events := play_event.moved turn active.node d.pos board ::
                          r'.events ++ [play_event.marked turn active.node false] })))) := by
  simp only [self_play_recursive] at h
  split at h
  · cases h
  · rename_i n hn
    split at h
    · cases h
    · rename_i n' d hmove
      refine ⟨n, n', d, hn, hmove, ?_⟩
      split at h
      · rename_i hstate
        left
        refine ⟨hstate, ?_⟩
        split at h
        · cases h
        · rename_i a2 ha2
          exact ⟨a2, ha2, ((Except.ok.injEq _ _).mp h).symm⟩
      · rename_i hstate
        right
        refine ⟨hstate, ?_⟩
        split at h
        · cases h
        · rename_i r' hr'
          refine ⟨r', hr', ?_⟩
          split at h
          · rename_i hw
            left
            refine ⟨hw, ?_⟩
            split at h
            · cases h
            · rename_i a2 ha2
              exact ⟨a2, ha2, ((Except.ok.injEq _ _).mp h).symm⟩
          · rename_i hw
            right
            refine ⟨hw, ?_⟩
            split at h
            · cases h
            · rename_i a2 ha2
              exact ⟨a2, ha2, ((Except.ok.injEq _ _).mp h).symm⟩

/-! ## The shape of a self-play game -/

theorem markers_ne : X ≠ O := by decide

theorem frames_events_cons (winner : Char) (f : frame) (fs : List frame) :
    frames_events winner (f :: fs) =
      play_event.moved f.turn f.ref f.pos f.before :: frames_events winner fs ++
        [play_event.marked f.turn f.ref (decide (f.turn = winner))] := by
  simp [frames_events]

/-- The shape of every game that returns: a non-empty sequence of frames with alternating
markers, each starting on the board the frame before it left; the marker returned is the marker
of the last frame; and the events are the moves of the frames in order followed by one update
per frame, from the last frame to the first, a reinforcement exactly for the frames of the marker
returned. -/
theorem self_play_frames (rand : Nat → Nat) :
    ∀ (depth : Nat) (board : gameboard) (active inactive : knowledge) (turn : Char)
      (tick : Nat) (r : play_result), (turn = X ∨ turn = O) →
      self_play_recursive rand depth board active inactive turn tick = Except.ok r →
      ∃ (frames : List frame) (last : frame),
        frames.getLast? = some last ∧
        frames.head?.map frame.ref = some active.node ∧
        frames_chain turn board frames ∧
        r.winner = last.turn ∧ (r.winner = X ∨ r.winner = O) ∧
        r.events = frames_events r.winner frames ∧
        r.board = set_cell last.before last.pos last.turn ∧
        r.tick = tick + frames.length ∧
        (gameboard_get_state r.board last.turn = board_state.board_won ∨
          gameboard_get_state r.board last.turn = board_state.board_complete)
  | 0, _, _, _, _, _, _, _, h => by simp [self_play_recursive] at h
  | depth + 1, board, active, inactive, turn, tick, r, hturn, h => by
    obtain ⟨n, n', d, -, -, hcase⟩ := self_play_inv rand depth board active inactive turn tick r h
    rcases hcase with ⟨hstate, a2, -, hr⟩ | ⟨-, r', hr', hcase2⟩
    · subst hr
      refine ⟨[⟨turn, active.node, d.pos, board⟩], ⟨turn, active.node, d.pos, board⟩,
        rfl, rfl, ⟨rfl, rfl, trivial⟩, rfl, hturn, ?_, rfl, rfl, hstate⟩
      simp [frames_events]
    · have hother : (if turn = X then O else X) = X ∨ (if turn = X then O else X) = O := by
        split
        · exact Or.inr rfl
        · exact Or.inl rfl
      obtain ⟨frames, last, hlast, -, hchain, hwin, hwinXO, hev, hboard, htick, hfinal⟩ :=
        self_play_frames rand depth _ _ _ _ _ r' hother hr'
      have hne : frames ≠ [] := by
        intro he
        rw [he] at hlast
        cases hlast
      have hlast2 : (⟨turn, active.node, d.pos, board⟩ :: frames).getLast? = some last := by
        cases frames with
        | nil => exact absurd rfl hne
        | cons g gs => rw [List.getLast?_cons_cons]; exact hlast
      rcases hcase2 with ⟨hw, a2, -, hr⟩ | ⟨hw, a2, -, hr⟩
      · subst hr
        refine ⟨⟨turn, active.node, d.pos, board⟩ :: frames, last, hlast2, rfl,
          ⟨rfl, rfl, hchain⟩, ?_, hturn, ?_, hboard, ?_, hfinal⟩
        · show turn = last.turn
          rw [← hwin, hw]
        · show _ :: _ = _
          rw [frames_events_cons, hev, hw]
          simp
        · show r'.tick = _
          rw [htick, List.length_cons]
          omega
      · have hwinner : (if turn = O then X else O) = r'.winner := by
          rcases hturn with ht | ht <;> rcases hwinXO with hx | hx
          · exact absurd (hx.trans ht.symm) hw
          · rw [ht, hx]; simp [markers_ne]
          · rw [ht, hx]; simp
          · exact absurd (hx.trans ht.symm) hw
        subst hr
        refine ⟨⟨turn, active.node, d.pos, board⟩ :: frames, last, hlast2, rfl,
          ⟨rfl, rfl, hchain⟩, ?_, ?_, ?_, hboard, ?_, hfinal⟩
        · show (if turn = O then X else O) = last.turn
          rw [hwinner, hwin]
        · show (if turn = O then X else O) = X ∨ (if turn = O then X else O) = O
          rw [hwinner]; exact hwinXO
        · show _ :: _ = frames_events (if turn = O then X else O) _
          rw [hwinner, frames_events_cons, hev]
          have hd : decide (turn = r'.winner) = false := by
            simp only [decide_eq_false_iff_not]
            exact fun e => hw e.symm
          simp [hd]
        · show r'.tick = _
          rw [htick, List.length_cons]
          omega


theorem node_wf_iff (n : turn_node) :
    node_wf n ↔ ∀ p ∈ n.actions.map decision.pos, p < 9 ∧ cell n.board p = EMPTY := by
  unfold node_wf
  constructor
  · intro h p hp
    obtain ⟨d, hd, rfl⟩ := List.mem_map.mp hp
    exact h d hd
  · intro h d hd
    exact h d.pos (List.mem_map_of_mem _ hd)

theorem node_wf_new (board : gameboard) : node_wf (turn_node_new board) := by
  rw [node_wf_iff, turn_node_new_map_pos]
  intro p hp
  rw [List.mem_filter, List.mem_range] at hp
  exact ⟨hp.1, by simpa using hp.2⟩

theorem node_wf_fromnone : node_wf turn_node_new_fromnone := by
  intro d hd
  cases hd

theorem knowledge_wf_new (player : Char) : knowledge_wf (knowledge_new player) := by
  refine ⟨?_, fun e he => by cases he⟩
  unfold knowledge_new
  simp only []
  split
  · exact node_wf_new _
  · exact node_wf_fromnone

theorem deref_wf (k : knowledge) (ref : node_ref) (n : turn_node) (hk : knowledge_wf k)
    (h : knowledge_deref k ref = some n) : node_wf n := by
  cases ref with
  | first =>
    simp only [knowledge_deref, Option.some.injEq] at h
    rw [← h]; exact hk.1
  | reaction key =>
    exact hk.2 n (treemap_lookup_some _ _ _ h).1

theorem mem_store_entry (key : gameboard) (n : turn_node) (l : List turn_node) :
    ∀ e ∈ store_entry key n l, e = n ∨ e ∈ l := by
  induction l with
  | nil => intro e he; cases he
  | cons a rest ih =>
    intro e he
    simp only [store_entry] at he
    split at he
    · rcases List.mem_cons.mp he with h | h
      · exact Or.inl h
      · exact Or.inr (List.mem_cons_of_mem _ h)
    · rcases List.mem_cons.mp he with h | h
      · exact Or.inr (h ▸ List.mem_cons_self _ _)
      · rcases ih e h with h2 | h2
        · exact Or.inl h2
        · exact Or.inr (List.mem_cons_of_mem _ h2)

theorem store_wf (k : knowledge) (ref : node_ref) (n : turn_node) (hk : knowledge_wf k)
    (hn : node_wf n) : knowledge_wf (knowledge_store k ref n) := by
  cases ref with
  | first => exact ⟨hn, hk.2⟩
  | reaction key =>
    refine ⟨hk.1, ?_⟩
    intro e he
    rcases mem_store_entry key n _ e he with h | h
    · rw [h]; exact hn
    · exact hk.2 e h

theorem make_move_wf (n n' : turn_node) (rnd : Nat) (d : decision)
    (h : turn_node_make_move n rnd = Except.ok (n', d)) (hn : node_wf n) :
    node_wf n' ∧ d ∈ n.actions := by
  obtain ⟨j, hj, hd⟩ := make_move_ok_inv n rnd n' d h
  subst hj
  exact ⟨hn, List.getElem?_mem hd⟩

theorem lowered_map_pos (lastMove : Int) (orig l : List decision)
    (h : lowered lastMove orig l) : l.map decision.pos = orig.map decision.pos := by
  apply List.ext_getElem?
  intro k
  rw [List.getElem?_map, List.getElem?_map]
  cases ho : orig[k]? with
  | none =>
    have hk : orig.length ≤ k := List.getElem?_eq_none_iff.mp ho
    rw [List.getElem?_eq_none (by rw [h.1]; exact hk)]
  | some e =>
    obtain ⟨e', h1, h2, -⟩ := h.2 k e ho
    rw [h1]
    simp [h2]

theorem raised_map_pos (lastMove : Int) (orig l : List decision)
    (h : raised lastMove orig l) : l.map decision.pos = orig.map decision.pos := by
  apply List.ext_getElem?
  intro k
  rw [List.getElem?_map, List.getElem?_map]
  cases ho : orig[k]? with
  | none =>
    have hk : orig.length ≤ k := List.getElem?_eq_none_iff.mp ho
    rw [List.getElem?_eq_none (by rw [h.1]; exact hk)]
  | some e =>
    obtain ⟨e', h1, h2, -⟩ := h.2 k e ho
    rw [h1]
    simp [h2]

theorem mark_good_map_pos (fuel : Nat) (n n' : turn_node)
    (h : turn_node_mark_good fuel n = Except.ok n')
    (hfuel : 4 * n.actions.length + 200 ≤ fuel) :
    n'.board = n.board ∧ n'.actions.map decision.pos = n.actions.map decision.pos := by
  cases hget : da_get n.actions n.lastMove with
  | none => simp [turn_node_mark_good, hget] at h
  | some d =>
    obtain ⟨a', hret, hlow⟩ := mark_good_returns fuel n d hget hfuel
    rw [hret] at h
    have := (Except.ok.injEq _ _).mp h
    subst this
    exact ⟨rfl, by
      show a'.map decision.pos = _
      rw [lowered_map_pos _ _ _ hlow, map_pos_da_set_worth]⟩

theorem mark_bad_map_pos (fuel : Nat) (n n' : turn_node)
    (h : turn_node_mark_bad fuel n = Except.ok n')
    (hfuel : 2 * n.actions.length + 100 ≤ fuel) :
    n'.board = n.board ∧ n'.actions.map decision.pos = n.actions.map decision.pos := by
  by_cases hn : 2 ≤ n.actions.length
  · cases hget : da_get n.actions n.lastMove with
    | none =>
      have hgt : n.actions.length > 1 := by omega
      simp [turn_node_mark_bad, hget, hgt] at h
    | some d =>
      obtain ⟨a', hret, hr⟩ := mark_bad_returns fuel n d hn hget hfuel
      rw [hret] at h
      have := (Except.ok.injEq _ _).mp h
      subst this
      exact ⟨rfl, by
        show a'.map decision.pos = _
        rw [raised_map_pos _ _ _ hr, map_pos_da_set_worth]⟩
  · have hgt : ¬ n.actions.length > 1 := by omega
    simp only [turn_node_mark_bad, hgt, if_false] at h
    have := (Except.ok.injEq _ _).mp h
    subst this
    exact ⟨rfl, rfl⟩

theorem node_wf_of_map_pos (n n' : turn_node) (hb : n'.board = n.board)
    (hp : n'.actions.map decision.pos = n.actions.map decision.pos) (hn : node_wf n) :
    node_wf n' := by
  rw [node_wf_iff] at hn ⊢
  rw [hb, hp]
  exact hn

theorem mark_good_at_wf (k k' : knowledge) (ref : node_ref) (hk : knowledge_wf k)
    (h : mark_good_at k ref = Except.ok k') : knowledge_wf k' := by
  unfold mark_good_at at h
  split at h
  · cases h
  · rename_i n hn
    split at h
    · cases h
    · rename_i n' hn'
      have := (Except.ok.injEq _ _).mp h
      subst this
      obtain ⟨hb, hp⟩ := mark_good_map_pos _ n n' hn' (Nat.le_refl _)
      exact store_wf k ref n' hk (node_wf_of_map_pos n n' hb hp (deref_wf k ref n hk hn))

theorem mark_bad_at_wf (k k' : knowledge) (ref : node_ref) (hk : knowledge_wf k)
    (h : mark_bad_at k ref = Except.ok k') : knowledge_wf k' := by
  unfold mark_bad_at at h
  split at h
  · cases h
  · rename_i n hn
    split at h
    · cases h
    · rename_i n' hn'
      have := (Except.ok.injEq _ _).mp h
      subst this
      obtain ⟨hb, hp⟩ := mark_bad_map_pos _ n n' hn' (Nat.le_refl _)
      exact store_wf k ref n' hk (node_wf_of_map_pos n n' hb hp (deref_wf k ref n hk hn))

theorem get_move_reaction_wf (reactions : treemap) (board : gameboard)
    (h : ∀ e ∈ reactions.entries, node_wf e) :
    ∀ e ∈ (get_move_reaction reactions board).2.entries, node_wf e := by
  cases hl : treemap_lookup reactions board with
  | some node => rw [get_move_reaction_of_some reactions board node hl]; exact h
  | none =>
    rw [get_move_reaction_of_none reactions board hl]
    intro e he
    rcases List.mem_append.mp he with h1 | h1
    · exact h e h1
    · rw [List.mem_singleton] at h1
      rw [h1]; exact node_wf_new board

theorem cell_empty_board (p : Nat) : cell EMPTY_BOARD p = EMPTY := by
  unfold cell
  split <;> rfl

/-- Every move of a returning call of `self_play_recursive` goes to a cell in `0 .. 8` that is
EMPTY at that moment, and the nodes stay well-formed, provided they were so before the call and
the decisions of the active node are for cells that are EMPTY on the board of the call. -/
theorem self_play_safe (rand : Nat → Nat) :
    ∀ (depth : Nat) (board : gameboard) (active inactive : knowledge) (turn : Char)
      (tick : Nat) (r : play_result),
      knowledge_wf active → knowledge_wf inactive →
      (∀ n, knowledge_deref active active.node = some n →
        ∀ d ∈ n.actions, cell board d.pos = EMPTY) →
      self_play_recursive rand depth board active inactive turn tick = Except.ok r →
      knowledge_wf r.active ∧ knowledge_wf r.inactive ∧ ∀ e ∈ r.events, event_safe e
  | 0, _, _, _, _, _, _, _, _, _, h => by simp [self_play_recursive] at h
  | depth + 1, board, active, inactive, turn, tick, r, ha, hi, hpre, h => by
    obtain ⟨n, n', d, hn, hmove, hcase⟩ :=
      self_play_inv rand depth board active inactive turn tick r h
    have hnwf := deref_wf active active.node n ha hn
    obtain ⟨hn'wf, hdmem⟩ := make_move_wf n n' (rand tick) d hmove hnwf
    have hmovesafe : event_safe (play_event.moved turn active.node d.pos board) :=
      ⟨(hnwf d hdmem).1, hpre n hn d hdmem⟩
    have ha1 := store_wf active active.node n' ha hn'wf
    rcases hcase with ⟨-, a2, ha2, hr⟩ | ⟨-, r', hr', hcase2⟩
    · subst hr
      refine ⟨mark_good_at_wf _ _ _ ha1 ha2, hi, ?_⟩
      intro e he
      simp only [List.mem_cons, List.mem_singleton, List.not_mem_nil, or_false] at he
      rcases he with he | he
      · rw [he]; exact hmovesafe
      · rw [he]; trivial
    · have hi1 : knowledge_wf
          { inactive with
            node := node_ref.reaction (set_cell board d.pos turn),
            reactions :=
              (get_move_reaction inactive.reactions (set_cell board d.pos turn)).2 } :=
        ⟨hi.1, get_move_reaction_wf _ _ hi.2⟩
      have hpre1 : ∀ m, knowledge_deref
          { inactive with
            node := node_ref.reaction (set_cell board d.pos turn),
            reactions :=
              (get_move_reaction inactive.reactions (set_cell board d.pos turn)).2 }
          (node_ref.reaction (set_cell board d.pos turn)) = some m →
          ∀ e ∈ m.actions, cell (set_cell board d.pos turn) e.pos = EMPTY := by
        intro m hm e he
        have hmem := treemap_lookup_some _ _ _ hm
        have hmwf := hi1.2 m hmem.1
        rw [← hmem.2]
        exact (hmwf e he).2
      obtain ⟨hra, hri, hev⟩ := self_play_safe rand depth _ _ _ _ _ r' hi1 ha1 hpre1 hr'
      rcases hcase2 with ⟨-, a2, ha2, hr⟩ | ⟨-, a2, ha2, hr⟩
      · subst hr
        refine ⟨mark_good_at_wf _ _ _ hri ha2, hra, ?_⟩
        intro e he
        simp only [List.mem_cons, List.mem_append, List.mem_singleton, List.not_mem_nil,
          or_false] at he
        rcases he with (he | he) | he
        · rw [he]; exact hmovesafe
        · exact hev e he
        · rw [he]; trivial
      · subst hr
        refine ⟨mark_bad_at_wf _ _ _ hri ha2, hra, ?_⟩
        intro e he
        simp only [List.mem_cons, List.mem_append, List.mem_singleton, List.not_mem_nil,
          or_false] at he
        rcases he with (he | he) | he
        · rw [he]; exact hmovesafe
        · exact hev e he
        · rw [he]; trivial

/-- A game of the training loop: it starts on the empty board with X to move, its frames follow
each other, and every frame moves to a cell in `0 .. 8` that is EMPTY on the board before the
move. -/
theorem game_from_empty_safe (rand : Nat → Nat) (depth : Nat) (them us : knowledge)
    (tick : Nat) (r : play_result) (ht : knowledge_wf them) (hu : knowledge_wf us)
    (h : self_play_recursive rand depth EMPTY_BOARD them us X tick = Except.ok r) :
    knowledge_wf r.active ∧ knowledge_wf r.inactive ∧
    ∃ (frames : List frame) (winner : Char),
      frames_chain X EMPTY_BOARD frames ∧ r.events = frames_events winner frames ∧
      ∀ f ∈ frames, f.pos < 9 ∧ cell f.before f.pos = EMPTY := by
  obtain ⟨h1, h2, h3⟩ := self_play_safe rand depth EMPTY_BOARD them us X tick r ht hu
    (fun _ _ d _ => cell_empty_board d.pos) h
  obtain ⟨frames, last, -, -, hchain, -, -, hev, -⟩ :=
    self_play_frames rand depth EMPTY_BOARD them us X tick r (Or.inl rfl) h
  refine ⟨h1, h2, frames, r.winner, hchain, hev, ?_⟩
  intro f hf
  have hmem : play_event.moved f.turn f.ref f.pos f.before ∈ r.events := by
    rw [hev]
    unfold frames_events
    exact List.mem_append_left _
      (List.mem_map_of_mem (fun f => play_event.moved f.turn f.ref f.pos f.before) hf)
  exact h3 _ hmem

/-- The property of a game proved for every game of the training loop. -/
theorem training_loop_safe (rand : Nat → Nat) (depth : Nat) :
    ∀ (games : Nat) (s s' : training_state),
      knowledge_wf s.us → knowledge_wf s.them →
      (∀ g ∈ s.games, ∃ (frames : List frame) (winner : Char),
        frames_chain X EMPTY_BOARD frames ∧ g = frames_events winner frames ∧
        ∀ f ∈ frames, f.pos < 9 ∧ cell f.before f.pos = EMPTY) →
      training_loop rand depth games s = Except.ok s' →
      s'.games.length = s.games.length + games ∧
      ∀ g ∈ s'.games, ∃ (frames : List frame) (winner : Char),
        frames_chain X EMPTY_BOARD frames ∧ g = frames_events winner frames ∧
        ∀ f ∈ frames, f.pos < 9 ∧ cell f.before f.pos = EMPTY
  | 0, s, s', _, _, hg, h => by
    simp only [training_loop] at h
    have := (Except.ok.injEq _ _).mp h
    subst this
    exact ⟨rfl, hg⟩
  | games + 1, s, s', hu, ht, hg, h => by
    simp only [training_loop] at h
    split at h
    · cases h
    · rename_i r hr
      obtain ⟨h1, h2, hgame⟩ := game_from_empty_safe rand depth s.them s.us s.tick r ht hu hr
      have := training_loop_safe rand depth games _ s' h2 h1 (by
        intro g hgm
        rcases List.mem_append.mp hgm with hgm | hgm
        · exact hg g hgm
        · rw [List.mem_singleton] at hgm
          rw [hgm]; exact hgame) h
      refine ⟨?_, this.2⟩
      rw [this.1, List.length_append, List.length_singleton]
      omega

/-! ## Two training games evaluated -/

set_option maxRecDepth 10000000 in
/-- With every draw equal to 0 the first two training games return; the first opens from the root
node with the move to cell 0, the second opens from the node stored under `X O X / O X . / O . .`
with the move to cell 8. -/
theorem two_games_openings_eq :
    two_games_openings =
      some [some { turn := X, key := none, pos := some 0, good := none },
        some { turn := X, key := some ['X', 'O', 'X', 'O', 'X', '.', 'O', '.', '.'],
               pos := some 8, good := none }] := by
  decide!

theorem two_games_return : ∃ s, aquire_knowledge (fun _ => 0) 9 2 = Except.ok s := by
  have h := two_games_openings_eq
  unfold two_games_openings at h
  cases hs : aquire_knowledge (fun _ => 0) 9 2 with
  | error e => rw [hs] at h; cases h
  | ok s => exact ⟨s, rfl⟩

/-- Claim C24 fails on the code: in the training loop with every draw equal to 0, the first game
opens from the root node (the move to cell 0), but the second game opens from the node stored
under `X O X / O X . / O . .`, the node X moved from last in the first game, with the move to cell
8. `self_play_recursive` starts with `node = active->node`, and `aquire_knowledge` never sets the
pointer of the first-moving tree back to its root node between games. -/
theorem training_second_opening_from_stale_node :
    (aquire_knowledge (fun _ => 0) 9 2).toOption.map
        (fun s => s.games.map (fun g => g.head?.map event_summary)) =
      some [some { turn := X, key := none, pos := some 0, good := none },
        some { turn := X, key := some ['X', 'O', 'X', 'O', 'X', '.', 'O', '.', '.'],
               pos := some 8, good := none }] :=
  two_games_openings_eq

/-- Claim C25: in every run of the training loop that returns, whatever the random draws, the
number of games and the depth allowed, each game starts on the empty board with X to move, each
of its moves writes the mover's marker into a cell in `0 .. 8` that is EMPTY on the board at that
moment, and the next move starts on that board with only this cell changed. -/
theorem training_moves_on_empty_cells (rand : Nat → Nat) (depth games : Nat)
    (s : training_state) (h : aquire_knowledge rand depth games = Except.ok s) :
    s.games.length = games ∧
    ∀ g ∈ s.games, ∃ (frames : List frame) (winner : Char),
      frames_chain X EMPTY_BOARD frames ∧ g = frames_events winner frames ∧
      ∀ f ∈ frames, f.pos < 9 ∧ cell f.before f.pos = EMPTY := by
  have := training_loop_safe rand depth games _ s (knowledge_wf_new O) (knowledge_wf_new X)
    (fun g hg => by cases hg) h
  exact ⟨by simpa using this.1, this.2⟩

/-- Witness for C25: the training loop of two games with every draw equal to 0 returns, so the
theorem applies to it. -/
theorem training_moves_on_empty_cells_witness :
    ∃ s, aquire_knowledge (fun _ => 0) 9 2 = Except.ok s ∧
      s.games.length = 2 ∧
      ∀ g ∈ s.games, ∃ (frames : List frame) (winner : Char),
        frames_chain X EMPTY_BOARD frames ∧ g = frames_events winner frames ∧
        ∀ f ∈ frames, f.pos < 9 ∧ cell f.before f.pos = EMPTY := by
  obtain ⟨s, hs⟩ := two_games_return
  exact ⟨s, hs, training_moves_on_empty_cells (fun _ => 0) 9 2 s hs⟩

/-! ## The value of `win` after the first loop of `turn_node_new` -/

theorem getElem?_step_actions (board : gameboard) (st : new_scan) (i w : Nat) (d : decision)
    (h : st.actions[w]? = some d) : (turn_node_new_step board st i).actions[w]? = some d := by
  rw [step_actions]
  split
  · rw [List.getElem?_append_left (getElem?_lt_length _ w d h)]; exact h
  · exact h

/-- The value of `win` after the first loop of `turn_node_new` has examined the cells `0 .. k-1`:
the index of the decision for the highest cell that wins for O, if there is one; otherwise the
index of the decision for the lowest cell that wins for X, if there is one; otherwise -1. -/
theorem scan_prefix_win (board : gameboard) (k : Nat) :
    ((∃ i, i < k ∧ gameboard_would_move board O i = move_result.move_win) →
      ∃ (w : Nat) (d : decision),
        ((List.range k).foldl (turn_node_new_step board)
          { sum := 0, actions := [], win := -1 }).win = (w : Int) ∧
        ((List.range k).foldl (turn_node_new_step board)
          { sum := 0, actions := [], win := -1 }).actions[w]? = some d ∧
        d.pos < k ∧ gameboard_would_move board O d.pos = move_result.move_win ∧
        ∀ i, i < k → gameboard_would_move board O i = move_result.move_win → i ≤ d.pos) ∧
    ((¬ ∃ i, i < k ∧ gameboard_would_move board O i = move_result.move_win) →
      (∃ i, i < k ∧ gameboard_would_move board X i = move_result.move_win) →
      ∃ (w : Nat) (d : decision),
        ((List.range k).foldl (turn_node_new_step board)
          { sum := 0, actions := [], win := -1 }).win = (w : Int) ∧
        ((List.range k).foldl (turn_node_new_step board)
          { sum := 0, actions := [], win := -1 }).actions[w]? = some d ∧
        d.pos < k ∧ gameboard_would_move board X d.pos = move_result.move_win ∧
        ∀ i, i < k → gameboard_would_move board X i = move_result.move_win → d.pos ≤ i) ∧
    ((¬ ∃ i, i < k ∧ gameboard_would_move board O i = move_result.move_win) →
      (¬ ∃ i, i < k ∧ gameboard_would_move board X i = move_result.move_win) →
      ((List.range k).foldl (turn_node_new_step board)
        { sum := 0, actions := [], win := -1 }).win = -1) := by
  induction k with
  | zero =>
    refine ⟨?_, ?_, ?_⟩
    · rintro ⟨i, hi, -⟩; omega
    · rintro - ⟨i, hi, -⟩; omega
    · intro _ _; rfl
  | succ k ih =>
    rw [List.range_succ, List.foldl_append]
    simp only [List.foldl_cons, List.foldl_nil]
    generalize hst : (List.range k).foldl (turn_node_new_step board)
      { sum := 0, actions := [], win := -1 } = st at ih
    obtain ⟨ih1, ih2, ih3⟩ := ih
    by_cases hO : gameboard_would_move board O k = move_result.move_win
    · have he := would_move_win_empty board O k hO
      have hwin : (turn_node_new_step board st k).win = (st.actions.length : Int) := by
        rw [step_win, if_pos hO]
      have hact : (turn_node_new_step board st k).actions[st.actions.length]? =
          some (decision_new k 100) := by
        rw [step_actions, if_pos he]; simp
      refine ⟨?_, ?_, ?_⟩
      · intro _
        refine ⟨st.actions.length, decision_new k 100, hwin, hact, Nat.lt_succ_self k, hO, ?_⟩
        intro i hi _
        exact Nat.lt_succ_iff.mp hi
      · intro hno
        exact absurd ⟨k, Nat.lt_succ_self k, hO⟩ hno
      · intro hno
        exact absurd ⟨k, Nat.lt_succ_self k, hO⟩ hno
    · by_cases hprevO : ∃ i, i < k ∧ gameboard_would_move board O i = move_result.move_win
      · obtain ⟨w, d, hw, hd, hlt, hdO, hmax⟩ := ih1 hprevO
        have hwin : (turn_node_new_step board st k).win = (w : Int) := by
          rw [step_win, if_neg hO, if_neg (by rw [hw]; omega), hw]
        have hex : ∃ i, i < k + 1 ∧ gameboard_would_move board O i = move_result.move_win := by
          obtain ⟨i, hi, hiO⟩ := hprevO
          exact ⟨i, by omega, hiO⟩
        refine ⟨?_, ?_, ?_⟩
        · intro _
          refine ⟨w, d, hwin, getElem?_step_actions board st k w d hd, by omega, hdO, ?_⟩
          intro i hi hiO
          rcases Nat.lt_succ_iff_lt_or_eq.mp hi with h | h
          · exact hmax i h hiO
          · rw [h] at hiO; exact absurd hiO hO
        · intro hno; exact absurd hex hno
        · intro hno; exact absurd hex hno
      · have hnoO : ¬ ∃ i, i < k + 1 ∧ gameboard_would_move board O i = move_result.move_win := by
          rintro ⟨i, hi, hiO⟩
          rcases Nat.lt_succ_iff_lt_or_eq.mp hi with h | h
          · exact hprevO ⟨i, h, hiO⟩
          · rw [h] at hiO; exact hO hiO
        refine ⟨fun h => absurd h hnoO, ?_, ?_⟩
        · intro _ hexX
          by_cases hprevX : ∃ i, i < k ∧ gameboard_would_move board X i = move_result.move_win
          · obtain ⟨w, d, hw, hd, hlt, hdX, hmin⟩ := ih2 hprevO hprevX
            have hwin : (turn_node_new_step board st k).win = (w : Int) := by
              rw [step_win, if_neg hO, if_neg (by rw [hw]; omega), hw]
            refine ⟨w, d, hwin, getElem?_step_actions board st k w d hd, by omega, hdX, ?_⟩
            intro i hi hiX
            rcases Nat.lt_succ_iff_lt_or_eq.mp hi with h | h
            · exact hmin i h hiX
            · omega
          · have hw := ih3 hprevO hprevX
            have hX : gameboard_would_move board X k = move_result.move_win := by
              obtain ⟨i, hi, hiX⟩ := hexX
              rcases Nat.lt_succ_iff_lt_or_eq.mp hi with h | h
              · exact absurd ⟨i, h, hiX⟩ hprevX
              · rw [h] at hiX; exact hiX
            have he := would_move_win_empty board X k hX
            have hwin : (turn_node_new_step board st k).win = (st.actions.length : Int) := by
              rw [step_win, if_neg hO, if_pos ⟨hw, hX⟩]
            have hact : (turn_node_new_step board st k).actions[st.actions.length]? =
                some (decision_new k 100) := by
              rw [step_actions, if_pos he]; simp
            refine ⟨st.actions.length, decision_new k 100, hwin, hact, Nat.lt_succ_self k, hX, ?_⟩
            intro i hi hiX
            rcases Nat.lt_succ_iff_lt_or_eq.mp hi with h | h
            · exact absurd ⟨i, h, hiX⟩ hprevX
            · exact Nat.le_of_eq h.symm
        · intro _ hnoX
          have hprevX : ¬ ∃ i, i < k ∧ gameboard_would_move board X i = move_result.move_win := by
            rintro ⟨i, hi, hiX⟩
            exact hnoX ⟨i, by omega, hiX⟩
          have hX : ¬ gameboard_would_move board X k = move_result.move_win :=
            fun h => hnoX ⟨k, Nat.lt_succ_self k, h⟩
          have hw := ih3 hprevO hprevX
          rw [step_win, if_neg hO, if_neg (fun h => hX h.2)]
          exact hw

/-! ## The forced move of `turn_node_new` -/

theorem turn_node_new_forced_at (board : gameboard) (w : Nat) (d : decision)
    (hw : (turn_node_new_scan board).win = (w : Int))
    (hd : (turn_node_new_scan board).actions[w]? = some d) :
    forced_decision board d.pos := by
  obtain ⟨w', d', hw', hd', -, hz⟩ := turn_node_new_forced_worths board (by rw [hw]; omega)
  have hww : w' = w := by rw [hw] at hw'; exact (Int.ofNat_inj.mp hw').symm
  subst hww
  obtain ⟨w2, d2, hw2, hd2, -, hact⟩ := turn_node_new_forced board (by rw [hw]; omega)
  have hww : w2 = w' := by rw [hw] at hw2; exact (Int.ofNat_inj.mp hw2).symm
  subst hww
  refine ⟨w2, { d with worth := (turn_node_new_scan board).sum }, hw, ?_, rfl, rfl, hz.2⟩
  rw [hact, List.getElem?_modify, getElem?_zero_others, hd]
  simp

/-- Claim C31: the forced move of `turn_node_new`, for every board. If some cell is an immediate
win for O, the forced decision (the one `win` points to, which gets the whole `sum` while the
others get 0) is the decision for the highest such cell, whether or not a cell wins for X; if no
cell wins for O and some cell is an immediate win for X, it is the decision for the lowest such
cell; if no cell wins for either, `win` stays -1 and every decision keeps the worth 100. -/
theorem forced_move_rule (board : gameboard) :
    (∀ c, c < 9 → gameboard_would_move board O c = move_result.move_win →
      (∀ i, i < 9 → gameboard_would_move board O i = move_result.move_win → i ≤ c) →
      forced_decision board c) ∧
    (∀ c, c < 9 → (∀ i, i < 9 → gameboard_would_move board O i ≠ move_result.move_win) →
      gameboard_would_move board X c = move_result.move_win →
      (∀ i, i < 9 → gameboard_would_move board X i = move_result.move_win → c ≤ i) →
      forced_decision board c) ∧
    ((∀ i, i < 9 → gameboard_would_move board O i ≠ move_result.move_win ∧
        gameboard_would_move board X i ≠ move_result.move_win) →
      (turn_node_new_scan board).win = -1 ∧
      ∀ d ∈ (turn_node_new board).actions, d.worth = 100) := by
  obtain ⟨h1, h2, h3⟩ := scan_prefix_win board 9
  refine ⟨?_, ?_, ?_⟩
  · intro c hc hO hmax
    obtain ⟨w, d, hw, hd, hlt, hdO, hdmax⟩ := h1 ⟨c, hc, hO⟩
    have hpos : d.pos = c := Nat.le_antisymm (hmax d.pos hlt hdO) (hdmax c hc hO)
    rw [← hpos]
    exact turn_node_new_forced_at board w d hw hd
  · intro c hc hnoO hX hmin
    have hno : ¬ ∃ i, i < 9 ∧ gameboard_would_move board O i = move_result.move_win := by
      rintro ⟨i, hi, hiO⟩
      exact hnoO i hi hiO
    obtain ⟨w, d, hw, hd, hlt, hdX, hdmin⟩ := h2 hno ⟨c, hc, hX⟩
    have hpos : d.pos = c := Nat.le_antisymm (hdmin c hc hX) (hmin d.pos hlt hdX)
    rw [← hpos]
    exact turn_node_new_forced_at board w d hw hd
  · intro hnone
    have hnoO : ¬ ∃ i, i < 9 ∧ gameboard_would_move board O i = move_result.move_win := by
      rintro ⟨i, hi, hiO⟩
      exact (hnone i hi).1 hiO
    have hnoX : ¬ ∃ i, i < 9 ∧ gameboard_would_move board X i = move_result.move_win := by
      rintro ⟨i, hi, hiX⟩
      exact (hnone i hi).2 hiX
    have hw : (turn_node_new_scan board).win = -1 := h3 hnoO hnoX
    refine ⟨hw, ?_⟩
    intro d hd
    rw [turn_node_new_unforced board (by rw [hw]; omega), scan_actions, List.mem_map] at hd
    obtain ⟨i, -, rfl⟩ := hd
    rfl

/-- Witness for C31 on `fork_board` (`X O X / O O . / . . X`): the cells 5 and 7 win for O and
cell 5 wins for X; the forced decision is the one for cell 7. -/
theorem forced_move_rule_witness :
    gameboard_would_move fork_board O 7 = move_result.move_win ∧
    gameboard_would_move fork_board O 5 = move_result.move_win ∧
    gameboard_would_move fork_board X 5 = move_result.move_win ∧
    forced_decision fork_board 7 :=
  ⟨by decide, by decide, by decide,
    (forced_move_rule fork_board).1 7 (by decide) (by decide) (by
      intro i hi h
      by_contra hgt
      have h8 : i = 8 := by omega
      subst h8
      revert h
      decide)⟩

/-! ## More fuel does not change the result of a loop -/

theorem mark_good_loop_mono (lastMove : Int) :
    ∀ (fuel : Nat) (actions : List decision) (i : Nat) (cnt take : Int) (a' : List decision),
      mark_good_loop lastMove fuel actions i cnt take = Except.ok a' →
      ∀ k : Nat, mark_good_loop lastMove (fuel + k) actions i cnt take = Except.ok a'
  | 0, actions, i, cnt, take, a', h, k => by
    by_cases hcond : cnt < (actions.length : Int) ∧ take > 0
    · simp [mark_good_loop, hcond] at h
    · cases k with
      | zero => exact h
      | succ k =>
        simp only [mark_good_loop, hcond, if_false] at h
        rw [Nat.zero_add]
        simp only [mark_good_loop, hcond, if_false]
        exact h
  | fuel + 1, actions, i, cnt, take, a', h, k => by
    have hk : fuel + 1 + k = (fuel + k) + 1 := by omega
    rw [hk]
    by_cases hcond : cnt < (actions.length : Int) ∧ take > 0
    · simp only [mark_good_loop, hcond, and_self, if_true] at h ⊢
      split at h
      · rename_i hne
        rw [if_pos hne]
        split at h
        · cases h
        · rename_i d hd
          split at h
          · rename_i hw
            rw [if_pos hw]
            exact mark_good_loop_mono lastMove fuel _ _ _ _ a' h k
          · rename_i hw
            rw [if_neg hw]
            exact mark_good_loop_mono lastMove fuel _ _ _ _ a' h k
      · rename_i hne
        rw [if_neg hne]
        exact mark_good_loop_mono lastMove fuel _ _ _ _ a' h k
    · simp only [mark_good_loop, hcond, if_false] at h ⊢
      exact h

theorem mark_bad_loop_mono (lastMove : Int) :
    ∀ (fuel : Nat) (actions : List decision) (i : Nat) (give : Int) (a' : List decision),
      mark_bad_loop lastMove fuel actions i give = Except.ok a' →
      ∀ k : Nat, mark_bad_loop lastMove (fuel + k) actions i give = Except.ok a'
  | 0, actions, i, give, a', h, k => by
    by_cases hcond : give > 0
    · simp [mark_bad_loop, hcond] at h
    · cases k with
      | zero => exact h
      | succ k =>
        simp only [mark_bad_loop, hcond, if_false] at h
        rw [Nat.zero_add]
        simp only [mark_bad_loop, hcond, if_false]
        exact h
  | fuel + 1, actions, i, give, a', h, k => by
    have hk : fuel + 1 + k = (fuel + k) + 1 := by omega
    rw [hk]
    by_cases hcond : give > 0
    · simp only [mark_bad_loop, hcond, if_true] at h ⊢
      split at h
      · rename_i hne
        rw [if_pos hne]
        split at h
        · cases h
        · rename_i d hd
          exact mark_bad_loop_mono lastMove fuel _ _ _ a' h k
      · rename_i hne
        rw [if_neg hne]
        exact mark_bad_loop_mono lastMove fuel _ _ _ a' h k
    · simp only [mark_bad_loop, hcond, if_false] at h ⊢
      exact h

theorem mark_good_mono (fuel k : Nat) (node node' : turn_node)
    (h : turn_node_mark_good fuel node = Except.ok node') :
    turn_node_mark_good (fuel + k) node = Except.ok node' := by
  unfold turn_node_mark_good at h ⊢
  split at h
  · cases h
  · simp only [] at h ⊢
    split at h
    · cases h
    · rename_i a' ha'
      rw [mark_good_loop_mono _ _ _ _ _ _ a' ha' k]
      exact h

theorem mark_bad_mono (fuel k : Nat) (node node' : turn_node)
    (h : turn_node_mark_bad fuel node = Except.ok node') :
    turn_node_mark_bad (fuel + k) node = Except.ok node' := by
  unfold turn_node_mark_bad at h ⊢
  split at h
  · rename_i hgt
    rw [if_pos hgt]
    split at h
    · cases h
    · simp only [] at h ⊢
      split at h
      · cases h
      · rename_i a' ha'
        rw [mark_bad_loop_mono _ _ _ _ _ a' ha' k]
        exact h
  · rename_i hgt
    rw [if_neg hgt]
    exact h

/-! ## The total of the worths and the cached sum -/

theorem total_ge_of_others_nonneg :
    ∀ (l : List decision) (m : Nat) (e : decision), l[m]? = some e →
      (∀ (k : Nat) (e' : decision), k ≠ m → l[k]? = some e' → 0 ≤ e'.worth) →
      e.worth ≤ total_worth l
  | [], m, e, h, _ => by simp at h
  | a :: l, 0, e, h, ho => by
    simp at h
    subst h
    rw [total_worth_cons]
    have := total_worth_nonneg l (fun d hd => by
      obtain ⟨k, hk⟩ := List.mem_iff_getElem?.mp hd
      exact ho (k + 1) d (by omega) (by simpa using hk))
    omega
  | a :: l, m + 1, e, h, ho => by
    rw [total_worth_cons]
    have ha : 0 ≤ a.worth := ho 0 a (by omega) (by simp)
    have := total_ge_of_others_nonneg l m e (by simpa using h) (fun k e' hk he' =>
      ho (k + 1) e' (by omega) (by simpa using he'))
    omega

/-- On a node with worths at least 0, a valid `lastMove` and total worth at least `sum`,
`turn_node_mark_good` returns a node whose total worth is at least `sum`. -/
theorem mark_good_total_ge (fuel : Nat) (node : turn_node)
    (hlast : 0 ≤ node.lastMove ∧ node.lastMove < (node.actions.length : Int))
    (hnn : ∀ e ∈ node.actions, 0 ≤ e.worth)
    (htotal : node.sum ≤ total_worth node.actions)
    (hfuel : 4 * node.actions.length + 200 ≤ fuel) :
    ∃ node', turn_node_mark_good fuel node = Except.ok node' ∧
      node'.sum ≤ total_worth node'.actions := by
  obtain ⟨d, hget⟩ := da_get_of_valid _ _ hlast.1 hlast.2
  obtain ⟨m, hm, hd, hmlt⟩ := da_get_some _ _ _ hget
  have hdw : 0 ≤ d.worth := hnn d (List.getElem?_mem hd)
  by_cases hclamp : d.worth + (((node.actions.length : Int) - 1) + 100) > node.sum ∨
      d.worth + (((node.actions.length : Int) - 1) + 100) < 0
  · obtain ⟨a', hret, hlow⟩ := mark_good_returns fuel node d hget hfuel
    rw [if_pos hclamp, hm] at hlow
    refine ⟨_, hret, ?_⟩
    show node.sum ≤ total_worth a'
    have horig := getElem?_da_set_worth node.actions m m node.sum
    rw [hd] at horig
    simp only [Option.map_some', if_true] at horig
    obtain ⟨e', h1, -, -, -, h5⟩ := hlow.2 m _ horig
    have he := congrArg decision.worth (h5 rfl)
    dsimp only at he
    rw [← he]
    apply total_ge_of_others_nonneg a' m e' h1
    intro k e2 hk he2
    have hklt : k < node.actions.length := by
      have := getElem?_lt_length _ _ _ he2
      rw [hlow.1, length_da_set_worth] at this
      exact this
    have hko := getElem?_da_set_worth node.actions m k node.sum
    rw [List.getElem?_eq_getElem hklt] at hko
    simp only [Option.map_some', if_neg (Ne.symm hk)] at hko
    obtain ⟨e3, h31, -, -, h34, -⟩ := hlow.2 k _ hko
    rw [he2] at h31
    cases h31
    have := hnn node.actions[k] (List.getElem_mem _)
    omega
  · have hW : (if d.worth + (((node.actions.length : Int) - 1) + 100) > node.sum ∨
        d.worth + (((node.actions.length : Int) - 1) + 100) < 0 then node.sum
      else d.worth + (((node.actions.length : Int) - 1) + 100)) =
        d.worth + (((node.actions.length : Int) - 1) + 100) := if_neg hclamp
    have hlen := length_da_set_worth node.actions node.lastMove
      (d.worth + (((node.actions.length : Int) - 1) + 100))
    have htot0 : total_worth (da_set_worth node.actions node.lastMove
        (d.worth + (((node.actions.length : Int) - 1) + 100))) =
        total_worth node.actions + (((node.actions.length : Int) - 1) + 100) := by
      rw [hm, total_worth_da_set_worth node.actions m d _ hd]
      ring
    obtain ⟨a', c', t', h1, h2, -, -⟩ := mark_good_loop_rule node.lastMove
      (fun l _ take => total_worth node.actions ≤ total_worth l - take ∧ 0 ≤ take)
      (fun l i e cnt take hP _ _ _ => hP)
      (fun l i e cnt take hP he hne hpos htake => by
        show _ ≤ total_worth (da_set_worth l (i : Int) (e.worth - 1)) - (take - 1) ∧ _
        rw [total_worth_da_set_worth l i e _ he]
        have h1 : total_worth node.actions ≤ total_worth l - take := hP.1
        exact ⟨by omega, by omega⟩)
      fuel (da_set_worth node.actions node.lastMove
        (d.worth + (((node.actions.length : Int) - 1) + 100))) 0 1
      (((node.actions.length : Int) - 1) + 100)
      (by rw [hlen]; omega) (by omega) (by
        show _ ≤ total_worth (da_set_worth node.actions node.lastMove _) - _ ∧ _
        rw [htot0]; exact ⟨by omega, by omega⟩)
      (by rw [hlen]; intro _ _; split <;> omega)
    refine ⟨{ node with actions := a' }, ?_, ?_⟩
    · simp only [turn_node_mark_good, hget, hW, h1]
    · show node.sum ≤ total_worth a'
      have h3 : total_worth node.actions ≤ total_worth a' - t' := h2.1
      have h4 : 0 ≤ t' := h2.2
      omega

/-- On a node with at least two decisions, worths at least 0 and a valid `lastMove`,
`turn_node_mark_bad` returns a node with the same total worth. -/
theorem mark_bad_total (fuel : Nat) (node : turn_node)
    (hn : 2 ≤ node.actions.length)
    (hworth : ∀ d ∈ node.actions, 0 ≤ d.worth)
    (hlast : 0 ≤ node.lastMove ∧ node.lastMove < (node.actions.length : Int))
    (hfuel : 2 * node.actions.length + 100 ≤ fuel) :
    ∃ node', turn_node_mark_bad fuel node = Except.ok node' ∧
      total_worth node'.actions = total_worth node.actions := by
  obtain ⟨m, hm⟩ : ∃ m : Nat, node.lastMove = (m : Int) := ⟨node.lastMove.toNat, by omega⟩
  have hmlt : m < node.actions.length := by omega
  obtain ⟨d, hd⟩ : ∃ d, node.actions[m]? = some d :=
    ⟨node.actions[m], List.getElem?_eq_getElem hmlt⟩
  have hdpos : 0 ≤ d.worth := hworth d (List.getElem?_mem hd)
  have hget : da_get node.actions node.lastMove = some d := by rw [hm, da_get_natCast, hd]
  have hgt : node.actions.length > 1 := by omega
  by_cases hneg : d.worth - (((node.actions.length : Int) - 1) + 50) < 0
  · obtain ⟨a', h1, h2, -⟩ := mark_bad_loop_total node.lastMove hlast.1 fuel
      (da_set_worth node.actions node.lastMove 0) 0
      ((((node.actions.length : Int) - 1) + 50) +
        (d.worth - (((node.actions.length : Int) - 1) + 50)))
      (by rw [length_da_set_worth]; exact hn) (by rw [length_da_set_worth]; exact hlast.2)
      (by rw [length_da_set_worth]; omega) (by omega)
      (by split <;> omega)
    refine ⟨{ node with actions := a' }, ?_, ?_⟩
    · simp only [turn_node_mark_bad, hgt, if_true, hget, hneg, h1]
    · show total_worth a' = _
      rw [h2, hm, total_worth_da_set_worth node.actions m d 0 hd]
      ring
  · obtain ⟨a', h1, h2, -⟩ := mark_bad_loop_total node.lastMove hlast.1 fuel
      (da_set_worth node.actions node.lastMove
        (d.worth - (((node.actions.length : Int) - 1) + 50))) 0
      (((node.actions.length : Int) - 1) + 50)
      (by rw [length_da_set_worth]; exact hn) (by rw [length_da_set_worth]; exact hlast.2)
      (by rw [length_da_set_worth]; omega) (by omega)
      (by split <;> omega)
    refine ⟨{ node with actions := a' }, ?_, ?_⟩
    · simp only [turn_node_mark_bad, hgt, if_true, hget, hneg, if_false, h1]
    · show total_worth a' = _
      rw [h2, hm, total_worth_da_set_worth node.actions m d _ hd]
      ring

theorem mark_bad_total_ge (fuel : Nat) (node : turn_node)
    (hlast : 0 ≤ node.lastMove ∧ node.lastMove < (node.actions.length : Int))
    (hnn : ∀ e ∈ node.actions, 0 ≤ e.worth)
    (htotal : node.sum ≤ total_worth node.actions)
    (hfuel : 2 * node.actions.length + 100 ≤ fuel) :
    ∃ node', turn_node_mark_bad fuel node = Except.ok node' ∧
      node'.sum ≤ total_worth node'.actions := by
  by_cases hn : 2 ≤ node.actions.length
  · obtain ⟨node', h1, h2⟩ := mark_bad_total fuel node hn hnn hlast hfuel
    obtain ⟨a', ha⟩ := mark_bad_ok_inv fuel node node' h1
    refine ⟨node', h1, ?_⟩
    rw [h2, ha]
    exact htotal
  · have hgt : ¬ node.actions.length > 1 := by omega
    exact ⟨node, by simp only [turn_node_mark_bad, hgt, if_false], htotal⟩

/-- The invariant carried along a sequence of operations: worths at least 0, `sum` at least 0 and
total worth at least `sum`. -/
theorem apply_op_total_ge (node node' : turn_node) (op : node_op)
    (h : apply_op node op = Except.ok node')
    (hnn : ∀ e ∈ node.actions, 0 ≤ e.worth) (hsum : 0 ≤ node.sum)
    (htotal : node.sum ≤ total_worth node.actions) :
    (∀ e ∈ node'.actions, 0 ≤ e.worth) ∧ 0 ≤ node'.sum ∧
      node'.sum ≤ total_worth node'.actions := by
  cases op with
  | make_move rnd =>
    simp only [apply_op] at h
    split at h
    · cases h
    · rename_i r hr
      have h1 := (Except.ok.injEq _ _).mp h
      obtain ⟨j, hj, -⟩ := make_move_ok_inv node rnd r.1 r.2 hr
      rw [← h1, hj]
      exact ⟨hnn, hsum, htotal⟩
  | mark_good fuel =>
    simp only [apply_op] at h
    cases hget : da_get node.actions node.lastMove with
    | none => simp [turn_node_mark_good, hget] at h
    | some d =>
      obtain ⟨m, hm, -, hmlt⟩ := da_get_some _ _ _ hget
      have hlast : 0 ≤ node.lastMove ∧ node.lastMove < (node.actions.length : Int) := by
        rw [hm]; omega
      have hbig := mark_good_mono fuel (4 * node.actions.length + 200) node node' h
      obtain ⟨n1, h1, h1t⟩ := mark_good_total_ge _ node hlast hnn htotal
        (Nat.le_add_left _ fuel)
      obtain ⟨n2, h2, h2n⟩ := mark_good_nonneg _ node hlast hnn hsum (Nat.le_add_left _ fuel)
      rw [hbig] at h1 h2
      have e1 := (Except.ok.injEq _ _).mp h1
      have e2 := (Except.ok.injEq _ _).mp h2
      subst e1
      subst e2
      obtain ⟨a', ha⟩ := mark_good_ok_inv _ _ _ hbig
      refine ⟨h2n, ?_, h1t⟩
      rw [ha]; exact hsum
  | mark_bad fuel =>
    simp only [apply_op] at h
    by_cases hn : 2 ≤ node.actions.length
    · cases hget : da_get node.actions node.lastMove with
      | none =>
        have hgt : node.actions.length > 1 := by omega
        simp [turn_node_mark_bad, hget, hgt] at h
      | some d =>
        obtain ⟨m, hm, -, hmlt⟩ := da_get_some _ _ _ hget
        have hlast : 0 ≤ node.lastMove ∧ node.lastMove < (node.actions.length : Int) := by
          rw [hm]; omega
        have hbig := mark_bad_mono fuel (2 * node.actions.length + 100) node node' h
        obtain ⟨n1, h1, h1t⟩ := mark_bad_total_ge _ node hlast hnn htotal
          (Nat.le_add_left _ fuel)
        obtain ⟨n2, h2, h2n⟩ := mark_bad_nonneg _ node hlast hnn (Nat.le_add_left _ fuel)
        rw [hbig] at h1 h2
        have e1 := (Except.ok.injEq _ _).mp h1
        have e2 := (Except.ok.injEq _ _).mp h2
        subst e1
        subst e2
        obtain ⟨a', ha⟩ := mark_bad_ok_inv _ _ _ hbig
        refine ⟨h2n, ?_, h1t⟩
        rw [ha]; exact hsum
    · have hgt : ¬ node.actions.length > 1 := by omega
      simp only [turn_node_mark_bad, hgt, if_false] at h
      have := (Except.ok.injEq _ _).mp h
      subst this
      exact ⟨hnn, hsum, htotal⟩

theorem apply_ops_total_ge (ops : List node_op) :
    ∀ (node node' : turn_node), apply_ops node ops = Except.ok node' →
      (∀ e ∈ node.actions, 0 ≤ e.worth) → 0 ≤ node.sum →
      node.sum ≤ total_worth node.actions →
      (∀ e ∈ node'.actions, 0 ≤ e.worth) ∧ 0 ≤ node'.sum ∧
        node'.sum ≤ total_worth node'.actions := by
  induction ops with
  | nil =>
    intro node node' h hnn hsum htotal
    rw [← (Except.ok.injEq _ _).mp h]
    exact ⟨hnn, hsum, htotal⟩
  | cons op ops ih =>
    intro node node' h hnn hsum htotal
    simp only [apply_ops] at h
    split at h
    · cases h
    · rename_i n hn
      obtain ⟨h1, h2, h3⟩ := apply_op_total_ge node n op hn hnn hsum htotal
      exact ih n node' h h1 h2 h3

theorem turn_node_new_total (board : gameboard) :
    total_worth (turn_node_new board).actions = (turn_node_new board).sum := by
  by_cases h : (turn_node_new_scan board).win > -1
  · obtain ⟨w, d, -, hd, -, hact⟩ := turn_node_new_forced board h
    have hlt := getElem?_lt_length _ w d hd
    have := total_worth_forced (turn_node_new_scan board).sum
      (turn_node_new_scan board).actions 0 w (Nat.zero_le _) (by omega)
    rw [Nat.sub_zero] at this
    rw [hact, this, turn_node_new_sum_eq]
  · rw [turn_node_new_unforced board h, turn_node_new_sum_eq, scan_sum, scan_actions,
      total_worth_fresh, List.length_map]

/-- Claim C33: the total of the worths never falls below the cached `sum`. `turn_node_new`
establishes total worth = `sum`; on a node with all worths at least 0, a valid `lastMove` and
total worth at least `sum`, `turn_node_mark_good` and `turn_node_mark_bad` return (given fuel for
`4 * da_top + 200`, respectively `2 * da_top + 100` iterations) a node whose total worth is still
at least `sum`; hence every node reached from `turn_node_new` by a sequence of
`turn_node_make_move`, `turn_node_mark_good` and `turn_node_mark_bad` has total worth at least
`sum`. Worths and `sum` are mathematical integers, so no overflow occurs. -/
theorem total_never_below_sum :
    (∀ board : gameboard,
      total_worth (turn_node_new board).actions = (turn_node_new board).sum) ∧
    (∀ (fuel : Nat) (node : turn_node),
      (∀ e ∈ node.actions, 0 ≤ e.worth) →
      (0 ≤ node.lastMove ∧ node.lastMove < (node.actions.length : Int)) →
      node.sum ≤ total_worth node.actions →
      4 * node.actions.length + 200 ≤ fuel →
      ∃ node', turn_node_mark_good fuel node = Except.ok node' ∧
        node'.sum ≤ total_worth node'.actions) ∧
    (∀ (fuel : Nat) (node : turn_node),
      (∀ e ∈ node.actions, 0 ≤ e.worth) →
      (0 ≤ node.lastMove ∧ node.lastMove < (node.actions.length : Int)) →
      node.sum ≤ total_worth node.actions →
      2 * node.actions.length + 100 ≤ fuel →
      ∃ node', turn_node_mark_bad fuel node = Except.ok node' ∧
        node'.sum ≤ total_worth node'.actions) ∧
    (∀ (board : gameboard) (ops : List node_op) (node : turn_node),
      apply_ops (turn_node_new board) ops = Except.ok node →
      node.sum ≤ total_worth node.actions) := by
  refine ⟨turn_node_new_total, ?_, ?_, ?_⟩
  · intro fuel node hnn hlast htotal hfuel
    exact mark_good_total_ge fuel node hlast hnn htotal hfuel
  · intro fuel node hnn hlast htotal hfuel
    exact mark_bad_total_ge fuel node hlast hnn htotal hfuel
  · intro board ops node h
    have hsum : 0 ≤ (turn_node_new board).sum := by
      rw [turn_node_new_sum_length]; omega
    exact (apply_ops_total_ge ops _ node h (turn_node_new_nonneg board) hsum
      (le_of_eq (turn_node_new_total board).symm)).2.2

set_option maxRecDepth 1000000 in
/-- Witness for C33 on `drained_root` (worths at least 0, `lastMove = 0`, total worth 900 =
`sum`): `turn_node_mark_good` returns a node whose total worth, 959, is at least `sum`. -/
theorem total_never_below_sum_witness :
    ((∀ e ∈ drained_root.actions, 0 ≤ e.worth) ∧
      (0 ≤ drained_root.lastMove ∧
        drained_root.lastMove < (drained_root.actions.length : Int)) ∧
      drained_root.sum ≤ total_worth drained_root.actions ∧
      4 * drained_root.actions.length + 200 ≤ 300) ∧
    (∃ node', turn_node_mark_good 300 drained_root = Except.ok node' ∧
      node'.sum ≤ total_worth node'.actions) ∧
    (turn_node_mark_good 300 drained_root).toOption.map
      (fun n => (n.sum, total_worth n.actions)) = some (900, 959) :=
  ⟨⟨by decide, by decide, by decide, by decide⟩,
    total_never_below_sum.2.1 300 drained_root (by decide) (by decide) (by decide) (by decide),
    by decide⟩

/-! ## Non-negative worths on the nodes the program builds -/

/-- Claim C18: non-negative worths are an invariant of the turn node. Every decision's worth is at
least 0 after `turn_node_new`. `turn_node_make_move` (when it returns) and `turn_node_mark_bad`
(valid `lastMove`, fuel for `2 * da_top + 100` iterations) map every node whose worths are all at
least 0 to a node whose worths are all at least 0. `turn_node_mark_good` (valid `lastMove`, fuel
for `4 * da_top + 200` iterations) does so on every node the program can hold: a node built by
`turn_node_new` or `turn_node_new_fromnone` and then passed through any sequence of calls of
`turn_node_make_move`, `turn_node_mark_good` and `turn_node_mark_bad` (no other code writes a
node). Hence the worths of every such node are all at least 0. -/
theorem nonneg_worths_invariant :
    (∀ (board : gameboard), ∀ d ∈ (turn_node_new board).actions, 0 ≤ d.worth) ∧
    (∀ (node : turn_node) (rnd : Nat) (node' : turn_node) (d : decision),
      turn_node_make_move node rnd = Except.ok (node', d) →
      (∀ e ∈ node.actions, 0 ≤ e.worth) → ∀ e ∈ node'.actions, 0 ≤ e.worth) ∧
    (∀ (start : turn_node) (ops : List node_op) (fuel : Nat) (node : turn_node),
      (start = turn_node_new_fromnone ∨ ∃ board, start = turn_node_new board) →
      apply_ops start ops = Except.ok node →
      (0 ≤ node.lastMove ∧ node.lastMove < (node.actions.length : Int)) →
      (∀ e ∈ node.actions, 0 ≤ e.worth) →
      4 * node.actions.length + 200 ≤ fuel →
      ∃ node', turn_node_mark_good fuel node = Except.ok node' ∧
        ∀ e ∈ node'.actions, 0 ≤ e.worth) ∧
    (∀ (fuel : Nat) (node : turn_node),
      (0 ≤ node.lastMove ∧ node.lastMove < (node.actions.length : Int)) →
      (∀ e ∈ node.actions, 0 ≤ e.worth) →
      2 * node.actions.length + 100 ≤ fuel →
      ∃ node', turn_node_mark_bad fuel node = Except.ok node' ∧
        ∀ e ∈ node'.actions, 0 ≤ e.worth) ∧
    (∀ (start : turn_node) (ops : List node_op) (node : turn_node),
      (start = turn_node_new_fromnone ∨ ∃ board, start = turn_node_new board) →
      apply_ops start ops = Except.ok node →
      ∀ e ∈ node.actions, 0 ≤ e.worth) := by
  have hstart : ∀ start : turn_node,
      (start = turn_node_new_fromnone ∨ ∃ board, start = turn_node_new board) →
      (∀ e ∈ start.actions, 0 ≤ e.worth) ∧ 0 ≤ start.sum ∧
        start.sum ≤ total_worth start.actions := by
    intro start hs
    rcases hs with rfl | ⟨board, rfl⟩
    · exact ⟨fun e he => absurd he (List.not_mem_nil e), Int.le_refl _, Int.le_refl _⟩
    · refine ⟨turn_node_new_nonneg board, ?_, le_of_eq (turn_node_new_total board).symm⟩
      rw [turn_node_new_sum_length]
      omega
  refine ⟨turn_node_new_nonneg, ?_, ?_, mark_bad_nonneg, ?_⟩
  · intro node rnd node' d h hnn
    obtain ⟨j, hj, -⟩ := make_move_ok_inv node rnd node' d h
    subst hj
    exact hnn
  · intro start ops fuel node hs hops hlast hnn hfuel
    obtain ⟨h1, h2, h3⟩ := hstart start hs
    have hsum := (apply_ops_total_ge ops start node hops h1 h2 h3).2.1
    exact mark_good_nonneg fuel node hlast hnn hsum hfuel
  · intro start ops node hs hops
    obtain ⟨h1, h2, h3⟩ := hstart start hs
    exact (apply_ops_total_ge ops start node hops h1 h2 h3).1

/-- Witness for C18: the root node of the first-moving tree, after `turn_node_make_move` has
selected its decision 0, is a node the program holds; `turn_node_mark_good` returns on it, and the
worths of the node it returns are all at least 0. -/
theorem nonneg_worths_invariant_witness :
    apply_ops (turn_node_new EMPTY_BOARD) [node_op.make_move 0] =
      Except.ok { turn_node_new EMPTY_BOARD with lastMove := 0 } ∧
    ∃ node', turn_node_mark_good 300 { turn_node_new EMPTY_BOARD with lastMove := 0 } =
        Except.ok node' ∧
      ∀ e ∈ node'.actions, 0 ≤ e.worth :=
  ⟨rfl, nonneg_worths_invariant.2.2.1 (turn_node_new EMPTY_BOARD) [node_op.make_move 0] 300
    { turn_node_new EMPTY_BOARD with lastMove := 0 } (Or.inr ⟨EMPTY_BOARD, rfl⟩) rfl
    (by decide) (by decide) (by decide)⟩

/-! ## `turn_node_make_move` stays inside the decision array -/

/-- On a node with worths at least 0 and `1 ≤ sum ≤` total worth, the scan of
`turn_node_make_move` stops inside the array, at a decision of worth at least 1. -/
theorem make_move_safe (node : turn_node) (rnd : Nat)
    (hworth : ∀ d ∈ node.actions, 0 ≤ d.worth)
    (hsum : 1 ≤ node.sum) (htotal : node.sum ≤ total_worth node.actions) :
    ∃ (j : Nat) (d : decision), j < node.actions.length ∧
      make_move_scan (Int.tmod (rnd : Int) node.sum + 1) node.actions 1 0 = Except.ok j ∧
      node.actions[j]? = some d ∧
      turn_node_make_move node rnd = Except.ok ({ node with lastMove := (j : Int) }, d) ∧
      1 ≤ d.worth := by
  obtain ⟨hr1, hr2⟩ := rand_mod_range rnd node.sum (by omega)
  obtain ⟨m, hm, hscan⟩ := make_move_scan_returns (Int.tmod (rnd : Int) node.sum + 1)
    node.actions 1 0 hr1 (by omega)
  have hiff := make_move_scan_iff (Int.tmod (rnd : Int) node.sum + 1) node.actions 1 0 m
    hworth hr1
  have hb := hiff.mp hscan
  rw [Nat.zero_add] at hscan
  have hd : node.actions[m]? = some node.actions[m] := List.getElem?_eq_getElem hm
  have hsucc := total_worth_take_succ node.actions m _ hd
  refine ⟨m, node.actions[m], hm, hscan, hd,
    make_move_of_scan node rnd m _ (by omega) hscan hd, by omega⟩

/-- Claim C34: on a node with all worths at least 0 and total worth at least `sum ≥ 1` (so with at
least one decision), for every value of the random source, the scan of `turn_node_make_move`
stops at an index `j` below the number of decisions, the call returns the decision at `j`, and
that decision has worth at least 1. -/
theorem make_move_in_bounds (node : turn_node) (rnd : Nat)
    (hworth : ∀ d ∈ node.actions, 0 ≤ d.worth)
    (hsum : 1 ≤ node.sum) (htotal : node.sum ≤ total_worth node.actions) :
    1 ≤ node.actions.length ∧
    ∃ (j : Nat) (d : decision), j < node.actions.length ∧
      make_move_scan (Int.tmod (rnd : Int) node.sum + 1) node.actions 1 0 = Except.ok j ∧
      node.actions[j]? = some d ∧
      turn_node_make_move node rnd = Except.ok ({ node with lastMove := (j : Int) }, d) ∧
      1 ≤ d.worth := by
  obtain ⟨j, d, hj, h⟩ := make_move_safe node rnd hworth hsum htotal
  exact ⟨by omega, j, d, hj, h⟩

set_option maxRecDepth 1000000 in
/-- Witness for C34 on `reinforced_root`, whose worths add up to 959, more than `sum = 900`: the
draw 899 gives `r = 900`, and the scan stops at index 8, a decision of worth 61. -/
theorem make_move_in_bounds_witness :
    ((∀ d ∈ reinforced_root.actions, 0 ≤ d.worth) ∧ 1 ≤ reinforced_root.sum ∧
      reinforced_root.sum ≤ total_worth reinforced_root.actions) ∧
    (turn_node_make_move reinforced_root 899).toOption.map (fun p => (p.1.lastMove, p.2)) =
      some (8, decision_new 8 61) ∧
    ∃ (j : Nat) (d : decision), j < reinforced_root.actions.length ∧
      turn_node_make_move reinforced_root 899 =
        Except.ok ({ reinforced_root with lastMove := (j : Int) }, d) ∧
      1 ≤ d.worth := by
  refine ⟨⟨by decide, by decide, by decide⟩, by decide, ?_⟩
  obtain ⟨-, j, d, hj, -, -, h1, h2⟩ :=
    make_move_in_bounds reinforced_root 899 (by decide) (by decide) (by decide)
  exact ⟨j, d, hj, h1, h2⟩

/-! ## Termination of the update loops -/

/-- Claim C35: on a node with a valid `lastMove` (so with at least one decision) the loop of
`turn_node_mark_good` ends within `4 * da_top + 200` iterations, and with at least two decisions
the loop of `turn_node_mark_bad` ends within `2 * da_top + 100` iterations: with that much fuel
or more the calls return, always the same node. Each pass over the array makes progress on
`cnt` or `take`, respectively on `give`, which is what bounds the number of iterations. -/
theorem update_loops_terminate (node : turn_node)
    (hlast : 0 ≤ node.lastMove ∧ node.lastMove < (node.actions.length : Int)) :
    1 ≤ node.actions.length ∧
    (∃ node', ∀ fuel, 4 * node.actions.length + 200 ≤ fuel →
      turn_node_mark_good fuel node = Except.ok node') ∧
    (2 ≤ node.actions.length →
      ∃ node', ∀ fuel, 2 * node.actions.length + 100 ≤ fuel →
        turn_node_mark_bad fuel node = Except.ok node') := by
  obtain ⟨d, hget⟩ := da_get_of_valid _ _ hlast.1 hlast.2
  refine ⟨by omega, ?_, ?_⟩
  · obtain ⟨a', hret, -⟩ := mark_good_returns (4 * node.actions.length + 200) node d hget
      (Nat.le_refl _)
    refine ⟨{ node with actions := a' }, fun fuel hfuel => ?_⟩
    obtain ⟨k, hk⟩ : ∃ k, fuel = 4 * node.actions.length + 200 + k :=
      ⟨fuel - (4 * node.actions.length + 200), by omega⟩
    rw [hk]
    exact mark_good_mono _ k node _ hret
  · intro hn
    obtain ⟨a', hret, -⟩ := mark_bad_returns (2 * node.actions.length + 100) node d hn hget
      (Nat.le_refl _)
    refine ⟨{ node with actions := a' }, fun fuel hfuel => ?_⟩
    obtain ⟨k, hk⟩ : ∃ k, fuel = 2 * node.actions.length + 100 + k :=
      ⟨fuel - (2 * node.actions.length + 100), by omega⟩
    rw [hk]
    exact mark_bad_mono _ k node _ hret

/-- Witness for C35 on `penalised_node` (three decisions, `lastMove = 1`). -/
theorem update_loops_terminate_witness :
    (0 ≤ penalised_node.lastMove ∧
      penalised_node.lastMove < (penalised_node.actions.length : Int)) ∧
    2 ≤ penalised_node.actions.length ∧
    (∃ node', ∀ fuel, 4 * penalised_node.actions.length + 200 ≤ fuel →
      turn_node_mark_good fuel penalised_node = Except.ok node') ∧
    (∃ node', ∀ fuel, 2 * penalised_node.actions.length + 100 ≤ fuel →
      turn_node_mark_bad fuel penalised_node = Except.ok node') :=
  ⟨by decide, by decide, (update_loops_terminate penalised_node (by decide)).2.1,
    (update_loops_terminate penalised_node (by decide)).2.2 (by decide)⟩

/-! ## The round-robin distribution of `turn_node_mark_bad` -/

/-- The loop of `turn_node_mark_bad` on an array of `m + 1` decisions with `lastMove = L`. Write
`rank j` for the number of decisions other than `L` before index `j`. If the loop stands at
index `i`, has handed out `q * m + r` units so far (`q` to each other decision and one more to
those of rank below `r`, the decision at `i` being the one of rank `r`), and has `g` units left,
then it ends having handed out `q * m + r + g` units in the same pattern. -/
theorem mark_bad_loop_round_robin (L m : Nat) (orig : List decision)
    (hL : L < m + 1) (hm : 1 ≤ m) :
    ∀ (fuel : Nat) (actions : List decision) (i g q r : Nat),
      actions.length = m + 1 → i < m + 1 →
      (((if i ≤ L then i else i - 1) = r ∧ r < m) ∨ (i = L ∧ i = m ∧ r = 0)) →
      (∀ j, j < m + 1 → ∃ e e', orig[j]? = some e ∧ actions[j]? = some e' ∧ e'.pos = e.pos ∧
        e'.worth = e.worth + (if j = L then 0
          else (q : Int) + (if (if j ≤ L then j else j - 1) < r then 1 else 0))) →
      2 * g + (if i = L then 1 else 0) ≤ fuel →
      ∃ (a' : List decision) (q' r' : Nat),
        mark_bad_loop (L : Int) fuel actions i (g : Int) = Except.ok a' ∧
        a'.length = m + 1 ∧ r' < m ∧ q' * m + r' = q * m + r + g ∧
        ∀ j, j < m + 1 → ∃ e e', orig[j]? = some e ∧ a'[j]? = some e' ∧ e'.pos = e.pos ∧
          e'.worth = e.worth + (if j = L then 0
            else (q' : Int) + (if (if j ≤ L then j else j - 1) < r' then 1 else 0))
  | 0, actions, i, g, q, r, hal, _, hcur, hent, hf => by
    have hg : g = 0 := by omega
    subst hg
    have hr : r < m := by rcases hcur with h | h <;> omega
    exact ⟨actions, q, r, by simp [mark_bad_loop], hal, hr, by omega, hent⟩
  | fuel + 1, actions, i, g, q, r, hal, hi, hcur, hent, hf => by
    have hr : r < m := by rcases hcur with h | h <;> omega
    cases g with
    | zero => exact ⟨actions, q, r, by simp [mark_bad_loop], hal, hr, by omega, hent⟩
    | succ g =>
      have hpos : ((g + 1 : Nat) : Int) > 0 := by push_cast; omega
      have hcast : ((g + 1 : Nat) : Int) - 1 = (g : Int) := by push_cast; ring
      by_cases hiL : i = L
      · -- the loop steps over the penalised decision
        have heq : (i : Int) = (L : Int) := by rw [hiL]
        have hfuel : 2 * (g + 1) ≤ fuel := by rw [if_pos hiL] at hf; omega
        by_cases hwrap : i + 1 ≥ actions.length
        · have hnL : ¬ (0 = L) := by omega
          obtain ⟨a', q', r', h1, h2, h3, h4, h5⟩ := mark_bad_loop_round_robin L m orig hL hm
            fuel actions 0 (g + 1) q r hal (by omega)
            (by
              left
              rcases hcur with h | h
              · rw [if_pos (by omega)] at h; omega
              · rw [if_pos (by omega)]; omega)
            hent (by rw [if_neg hnL]; omega)
          refine ⟨a', q', r', ?_, h2, h3, h4, h5⟩
          simp only [mark_bad_loop, hpos, if_true, heq, ne_eq, not_true_eq_false, if_false,
            if_pos hwrap]
          exact h1
        · have hnL : ¬ (i + 1 = L) := by omega
          obtain ⟨a', q', r', h1, h2, h3, h4, h5⟩ := mark_bad_loop_round_robin L m orig hL hm
            fuel actions (i + 1) (g + 1) q r hal (by omega)
            (by
              left
              rw [if_neg (by omega)]
              rcases hcur with h | h
              · rw [if_pos (by omega)] at h; omega
              · omega)
            hent (by rw [if_neg hnL]; omega)
          refine ⟨a', q', r', ?_, h2, h3, h4, h5⟩
          simp only [mark_bad_loop, hpos, if_true, heq, ne_eq, not_true_eq_false, if_false,
            if_neg hwrap]
          exact h1
      · -- the loop gives one unit to the decision at `i`, which has rank `r`
        have hne : (i : Int) ≠ (L : Int) := fun h => hiL (Int.ofNat_inj.mp h)
        have hrank : (if i ≤ L then i else i - 1) = r := by
          rcases hcur with h | h
          · exact h.1
          · exact absurd h.1 hiL
        have hfuel : 2 * g + 1 ≤ fuel := by rw [if_neg hiL] at hf; omega
        obtain ⟨d, hd⟩ : ∃ d, actions[i]? = some d :=
          ⟨actions[i], List.getElem?_eq_getElem (by omega)⟩
        have hlen2 := length_da_set_worth actions (i : Int) (d.worth + 1)
        -- the pattern after this unit
        have hstep : ∀ (q2 r2 : Nat), ((r + 1 < m ∧ q2 = q ∧ r2 = r + 1) ∨
            (r + 1 = m ∧ q2 = q + 1 ∧ r2 = 0)) →
            ∀ j, j < m + 1 → ∃ e e', orig[j]? = some e ∧
              (da_set_worth actions (i : Int) (d.worth + 1))[j]? = some e' ∧ e'.pos = e.pos ∧
              e'.worth = e.worth + (if j = L then 0
                else (q2 : Int) + (if (if j ≤ L then j else j - 1) < r2 then 1 else 0)) := by
          intro q2 r2 hq j hj
          obtain ⟨e, e', he, he', hp, hw⟩ := hent j hj
          by_cases hij : i = j
          · subst hij
            rw [hd] at he'
            cases he'
            refine ⟨e, { d with worth := d.worth + 1 }, he, ?_, hp, ?_⟩
            · rw [getElem?_da_set_worth, hd]; simp
            · show d.worth + 1 = _
              rw [hw, if_neg hiL, if_neg hiL, hrank]
              rcases hq with ⟨h1, h2, h3⟩ | ⟨h1, h2, h3⟩
              · subst h2; subst h3
                rw [if_neg (by omega), if_pos (by omega)]
                ring
              · subst h2; subst h3
                rw [if_neg (by omega), if_neg (by omega)]
                push_cast
                ring
          · refine ⟨e, e', he, ?_, hp, ?_⟩
            · rw [getElem?_da_set_worth, he']; simp [hij]
            · rw [hw]
              by_cases hjL : j = L
              · rw [if_pos hjL, if_pos hjL]
              · rw [if_neg hjL, if_neg hjL]
                have hrj : (if j ≤ L then j else j - 1) ≠ r := by
                  rw [← hrank]
                  split_ifs <;> omega
                have hrjm : (if j ≤ L then j else j - 1) < m := by
                  split_ifs <;> omega
                rcases hq with ⟨h1, h2, h3⟩ | ⟨h1, h2, h3⟩
                · subst h2; subst h3
                  by_cases hlt : (if j ≤ L then j else j - 1) < r
                  · rw [if_pos hlt, if_pos (by omega)]
                  · rw [if_neg hlt, if_neg (by omega)]
                · subst h2; subst h3
                  rw [if_pos (by omega), if_neg (by omega)]
                  push_cast
                  ring
        by_cases hwrap : i + 1 ≥ actions.length
        · -- `i` is the last index, of rank `m - 1`: a round is complete
          have hrm : r + 1 = m := by
            rw [← hrank, if_neg (by omega)]; omega
          obtain ⟨a', q', r', h1, h2, h3, h4, h5⟩ := mark_bad_loop_round_robin L m orig hL hm
            fuel (da_set_worth actions (i : Int) (d.worth + 1)) 0 g (q + 1) 0
            (by rw [hlen2]; exact hal) (by omega)
            (by left; rw [if_pos (by omega)]; omega)
            (hstep (q + 1) 0 (Or.inr ⟨hrm, rfl, rfl⟩))
            (by split_ifs <;> omega)
          refine ⟨a', q', r', ?_, h2, h3, ?_, h5⟩
          · simp only [mark_bad_loop, hpos, if_true, hne, ne_eq, not_false_eq_true, hd,
              if_pos hwrap, hcast]
            exact h1
          · rw [h4, Nat.add_mul, Nat.one_mul]; omega
        · by_cases hrm : r + 1 < m
          · obtain ⟨a', q', r', h1, h2, h3, h4, h5⟩ := mark_bad_loop_round_robin L m orig hL hm
              fuel (da_set_worth actions (i : Int) (d.worth + 1)) (i + 1) g q (r + 1)
              (by rw [hlen2]; exact hal) (by omega)
              (by
                left
                refine ⟨?_, hrm⟩
                rw [← hrank]
                split_ifs <;> omega)
              (hstep q (r + 1) (Or.inl ⟨hrm, rfl, rfl⟩))
              (by split_ifs <;> omega)
            refine ⟨a', q', r', ?_, h2, h3, ?_, h5⟩
            · simp only [mark_bad_loop, hpos, if_true, hne, ne_eq, not_false_eq_true, hd,
                if_neg hwrap, hcast]
              exact h1
            · rw [h4]; omega
          · -- the next index is the penalised decision, which is the last one
            have hrm2 : r + 1 = m := by omega
            have hnext : i + 1 = L ∧ i + 1 = m := by
              rw [← hrank] at hrm2
              split_ifs at hrm2 <;> omega
            obtain ⟨a', q', r', h1, h2, h3, h4, h5⟩ := mark_bad_loop_round_robin L m orig hL hm
              fuel (da_set_worth actions (i : Int) (d.worth + 1)) (i + 1) g (q + 1) 0
              (by rw [hlen2]; exact hal) (by omega)
              (Or.inr ⟨hnext.1, hnext.2, rfl⟩)
              (hstep (q + 1) 0 (Or.inr ⟨hrm2, rfl, rfl⟩))
              (by rw [if_pos hnext.1]; omega)
            refine ⟨a', q', r', ?_, h2, h3, ?_, h5⟩
            · simp only [mark_bad_loop, hpos, if_true, hne, ne_eq, not_false_eq_true, hd,
                if_neg hwrap, hcast]
              exact h1
            · rw [h4, Nat.add_mul, Nat.one_mul]; omega

/-- Claim C32: `turn_node_mark_bad` hands out what it took round-robin from index 0. On a node
with `n ≥ 2` decisions, a valid `lastMove` and penalised worth `w ≥ 0`, the call returns (given
fuel for `2 * da_top + 100` iterations); with `g = min w ((n-1) + 50)`, the `k`-th decision other
than `lastMove` in index order (`k = 0 .. n-2`, at index `k` when `k < lastMove` and `k + 1`
otherwise) keeps its position and gains exactly `g / (n-1)`, plus 1 when `k < g % (n-1)`. So no
other worth decreases, and every gain is `g / (n-1)` or one more. -/
theorem mark_bad_round_robin (fuel : Nat) (node : turn_node) (d : decision)
    (hn : 2 ≤ node.actions.length)
    (hget : da_get node.actions node.lastMove = some d)
    (hw : 0 ≤ d.worth)
    (hfuel : 2 * node.actions.length + 100 ≤ fuel) :
    ∃ node', turn_node_mark_bad fuel node = Except.ok node' ∧
      ∀ k : Nat, k < node.actions.length - 1 →
        ∃ e e',
          node.actions[if (k : Int) < node.lastMove then k else k + 1]? = some e ∧
          node'.actions[if (k : Int) < node.lastMove then k else k + 1]? = some e' ∧
          e'.pos = e.pos ∧
          e'.worth = e.worth +
            min d.worth (((node.actions.length : Int) - 1) + 50) /
              ((node.actions.length : Int) - 1) +
            (if (k : Int) < min d.worth (((node.actions.length : Int) - 1) + 50) %
              ((node.actions.length : Int) - 1) then 1 else 0) ∧
          e.worth ≤ e'.worth ∧
          e'.worth ≤ e.worth +
            min d.worth (((node.actions.length : Int) - 1) + 50) /
              ((node.actions.length : Int) - 1) + 1 := by
  obtain ⟨L, hL, hd, hLlt⟩ := da_get_some _ _ _ hget
  obtain ⟨m, hm⟩ : ∃ m : Nat, node.actions.length = m + 1 :=
    ⟨node.actions.length - 1, by omega⟩
  have hm1 : 1 ≤ m := by omega
  have hmI : ((node.actions.length : Int) - 1) = (m : Int) := by rw [hm]; push_cast; ring
  generalize hW : (if d.worth - (((node.actions.length : Int) - 1) + 50) < 0 then 0
    else d.worth - (((node.actions.length : Int) - 1) + 50)) = W
  have hGi : (if d.worth - (((node.actions.length : Int) - 1) + 50) < 0 then
        (((node.actions.length : Int) - 1) + 50) +
          (d.worth - (((node.actions.length : Int) - 1) + 50))
      else (((node.actions.length : Int) - 1) + 50)) =
      min d.worth (((node.actions.length : Int) - 1) + 50) := by
    split <;> omega
  obtain ⟨G, hG⟩ : ∃ G : Nat,
      min d.worth (((node.actions.length : Int) - 1) + 50) = (G : Int) :=
    ⟨(min d.worth (((node.actions.length : Int) - 1) + 50)).toNat, by omega⟩
  have hGle : G ≤ m + 50 := by omega
  have hlen0 := length_da_set_worth node.actions node.lastMove W
  obtain ⟨a', q', r', h1, h2, h3, h4, h5⟩ := mark_bad_loop_round_robin L m
    (da_set_worth node.actions node.lastMove W) (by omega) hm1 fuel
    (da_set_worth node.actions node.lastMove W) 0 G 0 0
    (by rw [hlen0]; exact hm) (by omega)
    (Or.inl ⟨by simp, by omega⟩)
    (by
      intro j hj
      have hjlt : j < (da_set_worth node.actions node.lastMove W).length := by
        rw [hlen0]; omega
      refine ⟨_, _, List.getElem?_eq_getElem hjlt, List.getElem?_eq_getElem hjlt, rfl, ?_⟩
      simp)
    (by split_ifs <;> omega)
  have hgt : node.actions.length > 1 := by omega
  rw [← hL, ← hG] at h1
  refine ⟨{ node with actions := a' }, ?_, ?_⟩
  · simp only [turn_node_mark_bad, hgt, if_true, hget, hW, hGi, h1]
  · intro k hk
    have hq : G / m = q' ∧ G % m = r' :=
      (Nat.div_mod_unique (by omega)).mpr ⟨by rw [Nat.mul_comm]; omega, h3⟩
    have hidx : (if (k : Int) < node.lastMove then k else k + 1) =
        (if k < L then k else k + 1) := by
      rw [hL]
      by_cases hkL : k < L
      · rw [if_pos hkL, if_pos (by omega)]
      · rw [if_neg hkL, if_neg (by omega)]
    rw [hidx, hG, hmI]
    have hj : (if k < L then k else k + 1) < m + 1 := by split_ifs <;> omega
    have hjL : (if k < L then k else k + 1) ≠ L := by split_ifs <;> omega
    obtain ⟨e, e', he, he', hp, hw'⟩ := h5 _ hj
    rw [if_neg hjL] at hw'
    have hrank : (if (if k < L then k else k + 1) ≤ L then (if k < L then k else k + 1)
        else (if k < L then k else k + 1) - 1) = k := by
      split_ifs <;> omega
    rw [hrank] at hw'
    have he0 : node.actions[if k < L then k else k + 1]? = some e := by
      rw [hL, getElem?_da_set_worth] at he
      cases ho : node.actions[if k < L then k else k + 1]? with
      | none => rw [ho] at he; cases he
      | some o =>
        rw [ho] at he
        simp only [Option.map_some', if_neg (Ne.symm hjL), Option.some.injEq] at he
        rw [he]
    have hqI : (G : Int) / (m : Int) = (q' : Int) := by
      rw [← hq.1]; norm_cast
    have hrI : (G : Int) % (m : Int) = (r' : Int) := by
      rw [← hq.2]; norm_cast
    rw [hqI, hrI]
    have hcond : ((k : Int) < (r' : Int)) ↔ k < r' := by omega
    refine ⟨e, e', he0, he', hp, ?_, ?_, ?_⟩
    · rw [hw']
      by_cases hkr : k < r'
      · rw [if_pos hkr, if_pos (hcond.mpr hkr)]; ring
      · rw [if_neg hkr, if_neg (fun h => hkr (hcond.mp h))]; ring
    · rw [hw']
      split_ifs <;> omega
    · rw [hw']
      split_ifs <;> omega

/-- Witness for C32 on `penalised_node` (worths 228, 20, 52, `lastMove = 1`): the penalised worth
20 is below `(n-1) + 50 = 52`, so `g = 20`, and the two other decisions gain 10 each: the worths
become 238, 0, 62. -/
theorem mark_bad_round_robin_witness :
    (2 ≤ penalised_node.actions.length ∧
      da_get penalised_node.actions penalised_node.lastMove = some (decision_new 6 20) ∧
      0 ≤ (decision_new 6 20).worth ∧ 2 * penalised_node.actions.length + 100 ≤ 200) ∧
    (turn_node_mark_bad 200 penalised_node).toOption.map
      (fun n => n.actions.map decision.worth) = some [238, 0, 62] ∧
    ∃ node', turn_node_mark_bad 200 penalised_node = Except.ok node' ∧
      ∀ k : Nat, k < penalised_node.actions.length - 1 →
        ∃ e e',
          penalised_node.actions[if (k : Int) < penalised_node.lastMove then k else k + 1]? =
            some e ∧
          node'.actions[if (k : Int) < penalised_node.lastMove then k else k + 1]? = some e' ∧
          e'.pos = e.pos ∧
          e'.worth = e.worth +
            min (decision_new 6 20).worth (((penalised_node.actions.length : Int) - 1) + 50) /
              ((penalised_node.actions.length : Int) - 1) +
            (if (k : Int) <
                min (decision_new 6 20).worth
                  (((penalised_node.actions.length : Int) - 1) + 50) %
                  ((penalised_node.actions.length : Int) - 1) then 1 else 0) ∧
          e.worth ≤ e'.worth ∧
          e'.worth ≤ e.worth +
            min (decision_new 6 20).worth (((penalised_node.actions.length : Int) - 1) + 50) /
              ((penalised_node.actions.length : Int) - 1) + 1 :=
  ⟨⟨by decide, by decide, by decide, by decide⟩, by decide,
    mark_bad_round_robin 200 penalised_node (decision_new 6 20)
      (by decide) (by decide) (by decide) (by decide)⟩

/-! ## Pointers to nodes across the updates of a game -/

theorem knowledge_ext_refl (k : knowledge) : knowledge_ext k k :=
  fun _ n h hl => ⟨n, h, hl, fun hv => hv⟩

theorem knowledge_ext_trans (k1 k2 k3 : knowledge) (h12 : knowledge_ext k1 k2)
    (h23 : knowledge_ext k2 k3) : knowledge_ext k1 k3 := by
  intro ref n h hl
  obtain ⟨n2, h2, hl2, hv2⟩ := h12 ref n h hl
  obtain ⟨n3, h3, hl3, hv3⟩ := h23 ref n2 h2 hl2
  exact ⟨n3, h3, hl3, fun hv => hv3 (hv2 hv)⟩

theorem lookup_store_same (key : gameboard) (n' : turn_node) (hb : n'.board = key) :
    ∀ (l : List turn_node) (n : turn_node), treemap_lookup { entries := l } key = some n →
      treemap_lookup { entries := store_entry key n' l } key = some n'
  | [], n, h => by simp [treemap_lookup] at h
  | e :: rest, n, h => by
    have hself : compar_board n'.board key = 0 := (compar_board_eq_zero _ _).mpr hb
    by_cases he : compar_board e.board key = 0
    · simp [treemap_lookup, store_entry, he, hself]
    · have hrest : treemap_lookup { entries := rest } key = some n := by
        simpa [treemap_lookup, List.find?_cons, he] using h
      have ih := lookup_store_same key n' hb rest n hrest
      simp only [treemap_lookup] at ih ⊢
      simp only [store_entry, he, if_false, List.find?_cons, decide_False]
      exact ih

theorem lookup_store_other (key key2 : gameboard) (n' : turn_node) (hb : n'.board = key)
    (hne : key2 ≠ key) :
    ∀ (l : List turn_node),
      treemap_lookup { entries := store_entry key n' l } key2 =
        treemap_lookup { entries := l } key2
  | [] => rfl
  | e :: rest => by
    have hn' : ¬ compar_board n'.board key2 = 0 := by
      rw [compar_board_eq_zero, hb]; exact fun h => hne h.symm
    by_cases he : compar_board e.board key = 0
    · have he2 : ¬ compar_board e.board key2 = 0 := by
        rw [compar_board_eq_zero] at he ⊢
        rw [he]; exact fun h => hne h.symm
      simp [treemap_lookup, store_entry, he, he2, hn', List.find?_cons]
    · have ih := lookup_store_other key key2 n' hb hne rest
      simp only [treemap_lookup] at ih ⊢
      simp only [store_entry, he, if_false, List.find?_cons]
      rw [ih]

theorem deref_store (k : knowledge) (ref : node_ref) (n n' : turn_node)
    (h : knowledge_deref k ref = some n) (hb : n'.board = n.board) :
    knowledge_deref (knowledge_store k ref n') ref = some n' := by
  cases ref with
  | first => rfl
  | reaction key =>
    have hkey := (treemap_lookup_some _ _ _ h).2
    exact lookup_store_same key n' (hb.trans hkey) _ n h

theorem ext_store (k : knowledge) (ref : node_ref) (n n' : turn_node)
    (h : knowledge_deref k ref = some n) (hb : n'.board = n.board) (hl : node_live n')
    (hv : valid_last n → valid_last n') : knowledge_ext k (knowledge_store k ref n') := by
  intro ref2 n2 h2 hl2
  cases ref with
  | first =>
    cases ref2 with
    | first =>
      have : n2 = n := by
        simp only [knowledge_deref, Option.some.injEq] at h h2
        rw [← h, ← h2]
      subst this
      exact ⟨n', rfl, hl, hv⟩
    | reaction key2 => exact ⟨n2, h2, hl2, fun x => x⟩
  | reaction key =>
    cases ref2 with
    | first => exact ⟨n2, h2, hl2, fun x => x⟩
    | reaction key2 =>
      have hkey := (treemap_lookup_some _ _ _ h).2
      by_cases hk : key2 = key
      · subst hk
        have : n2 = n := by
          simp only [knowledge_deref] at h h2
          rw [h] at h2
          exact (Option.some.inj h2).symm
        subst this
        exact ⟨n', lookup_store_same key2 n' (hb.trans hkey) _ n2 h, hl, hv⟩
      · refine ⟨n2, ?_, hl2, fun x => x⟩
        show treemap_lookup { entries := store_entry key n' k.reactions.entries } key2 = some n2
        rw [lookup_store_other key key2 n' (hb.trans hkey) hk]
        exact h2

theorem live_store (k : knowledge) (ref : node_ref) (n' : turn_node) (hk : knowledge_live k)
    (hl : node_live n') : knowledge_live (knowledge_store k ref n') := by
  cases ref with
  | first => exact hk
  | reaction key =>
    intro e he
    rcases mem_store_entry key n' _ e he with h | h
    · rw [h]; exact hl
    · exact hk e h

theorem store_node (k : knowledge) (ref : node_ref) (n' : turn_node) :
    (knowledge_store k ref n').node = k.node := by
  cases ref <;> rfl

theorem deref_live (k : knowledge) (key : gameboard) (n : turn_node) (hk : knowledge_live k)
    (h : knowledge_deref k (node_ref.reaction key) = some n) : node_live n ∧ n.board = key := by
  have := treemap_lookup_some _ _ _ h
  exact ⟨hk n this.1, this.2⟩

/-! ## Live nodes stay live -/

theorem length_of_map_pos (a b : List decision)
    (h : a.map decision.pos = b.map decision.pos) : a.length = b.length := by
  have := congrArg List.length h
  simpa using this

theorem mark_good_live (n : turn_node) (hl : node_live n) (hv : valid_last n) :
    ∃ n', turn_node_mark_good (4 * n.actions.length + 200) n = Except.ok n' ∧
      n'.board = n.board ∧ node_live n' ∧ valid_last n' := by
  obtain ⟨hwf, hne, hnn, hsum, htot⟩ := hl
  obtain ⟨n1, h1, h1t⟩ := mark_good_total_ge _ n hv hnn htot (Nat.le_refl _)
  obtain ⟨n2, h2, h2n⟩ := mark_good_nonneg _ n hv hnn (by omega) (Nat.le_refl _)
  rw [h1] at h2
  have e2 := (Except.ok.injEq _ _).mp h2
  subst e2
  obtain ⟨hb, hp⟩ := mark_good_map_pos _ n n1 h1 (Nat.le_refl _)
  obtain ⟨a', ha⟩ := mark_good_ok_inv _ _ _ h1
  have hlen := length_of_map_pos _ _ hp
  have hs : n1.sum = n.sum := by rw [ha]
  have hlm : n1.lastMove = n.lastMove := by rw [ha]
  refine ⟨n1, h1, hb, ⟨node_wf_of_map_pos n n1 hb hp hwf, ?_, h2n, by rw [hs]; exact hsum,
    h1t⟩, ?_⟩
  · intro he
    rw [he] at hlen
    exact hne (List.length_eq_zero.mp hlen.symm)
  · unfold valid_last at hv ⊢
    rw [hlm, hlen]
    exact hv

theorem mark_bad_live (n : turn_node) (hl : node_live n) (hv : valid_last n) :
    ∃ n', turn_node_mark_bad (2 * n.actions.length + 100) n = Except.ok n' ∧
      n'.board = n.board ∧ node_live n' ∧ valid_last n' := by
  obtain ⟨hwf, hne, hnn, hsum, htot⟩ := hl
  obtain ⟨n1, h1, h1t⟩ := mark_bad_total_ge _ n hv hnn htot (Nat.le_refl _)
  obtain ⟨n2, h2, h2n⟩ := mark_bad_nonneg _ n hv hnn (Nat.le_refl _)
  rw [h1] at h2
  have e2 := (Except.ok.injEq _ _).mp h2
  subst e2
  obtain ⟨hb, hp⟩ := mark_bad_map_pos _ n n1 h1 (Nat.le_refl _)
  obtain ⟨a', ha⟩ := mark_bad_ok_inv _ _ _ h1
  have hlen := length_of_map_pos _ _ hp
  have hs : n1.sum = n.sum := by rw [ha]
  have hlm : n1.lastMove = n.lastMove := by rw [ha]
  refine ⟨n1, h1, hb, ⟨node_wf_of_map_pos n n1 hb hp hwf, ?_, h2n, by rw [hs]; exact hsum,
    h1t⟩, ?_⟩
  · intro he
    rw [he] at hlen
    exact hne (List.length_eq_zero.mp hlen.symm)
  · unfold valid_last at hv ⊢
    rw [hlm, hlen]
    exact hv

/-- On a live node `turn_node_make_move` returns, for every draw: the node keeps everything but
`lastMove`, which becomes a valid index, and the decision returned is one of the node. -/
theorem make_move_live (n : turn_node) (rnd : Nat) (hl : node_live n) :
    ∃ (j : Nat) (d : decision),
      turn_node_make_move n rnd = Except.ok ({ n with lastMove := (j : Int) }, d) ∧
      d ∈ n.actions ∧ node_live { n with lastMove := (j : Int) } ∧
      valid_last { n with lastMove := (j : Int) } := by
  obtain ⟨hwf, hne, hnn, hsum, htot⟩ := hl
  obtain ⟨j, d, hj, -, hd, hmove, -⟩ := make_move_safe n rnd hnn hsum htot
  refine ⟨j, d, hmove, List.getElem?_mem hd, ⟨hwf, hne, hnn, hsum, htot⟩, ?_⟩
  unfold valid_last
  show 0 ≤ (j : Int) ∧ (j : Int) < (n.actions.length : Int)
  omega

theorem node_live_new (board : gameboard) (h : ∃ k : Fin 9, board k = EMPTY) :
    node_live (turn_node_new board) := by
  have hlen := turn_node_new_length_pos board h
  have hsum := turn_node_new_sum_length board
  refine ⟨node_wf_new board, ?_, turn_node_new_nonneg board, by omega,
    le_of_eq (turn_node_new_total board).symm⟩
  intro he
  rw [he] at hlen
  exact Nat.lt_irrefl 0 hlen

/-! ## The updates of a node through a pointer -/

theorem mark_good_at_ok (k : knowledge) (ref : node_ref) (n : turn_node)
    (h : knowledge_deref k ref = some n) (hl : node_live n) (hv : valid_last n) :
    ∃ k', mark_good_at k ref = Except.ok k' ∧ k'.node = k.node ∧ knowledge_ext k k' ∧
      (knowledge_live k → knowledge_live k') := by
  obtain ⟨n', h1, hb, hl', hv'⟩ := mark_good_live n hl hv
  refine ⟨knowledge_store k ref n', ?_, store_node k ref n',
    ext_store k ref n n' h hb hl' (fun _ => hv'), fun hk => live_store k ref n' hk hl'⟩
  simp only [mark_good_at, h, h1]

theorem mark_bad_at_ok (k : knowledge) (ref : node_ref) (n : turn_node)
    (h : knowledge_deref k ref = some n) (hl : node_live n) (hv : valid_last n) :
    ∃ k', mark_bad_at k ref = Except.ok k' ∧ k'.node = k.node ∧ knowledge_ext k k' ∧
      (knowledge_live k → knowledge_live k') := by
  obtain ⟨n', h1, hb, hl', hv'⟩ := mark_bad_live n hl hv
  refine ⟨knowledge_store k ref n', ?_, store_node k ref n',
    ext_store k ref n n' h hb hl' (fun _ => hv'), fun hk => live_store k ref n' hk hl'⟩
  simp only [mark_bad_at, h, h1]

/-! ## The node of the inactive tree for the new board -/

theorem lookup_get_move_reaction (reactions : treemap) (board key : gameboard)
    (n : turn_node) (h : treemap_lookup reactions key = some n) :
    treemap_lookup (get_move_reaction reactions board).2 key = some n := by
  cases hl : treemap_lookup reactions board with
  | some node => rw [get_move_reaction_of_some reactions board node hl]; exact h
  | none =>
    rw [get_move_reaction_of_none reactions board hl]
    unfold treemap_lookup at h ⊢
    rw [List.find?_append, h]
    rfl

theorem live_get_move_reaction (reactions : treemap) (board : gameboard)
    (hempty : ∃ k : Fin 9, board k = EMPTY)
    (h : ∀ e ∈ reactions.entries, node_live e) :
    ∀ e ∈ (get_move_reaction reactions board).2.entries, node_live e := by
  cases hl : treemap_lookup reactions board with
  | some node => rw [get_move_reaction_of_some reactions board node hl]; exact h
  | none =>
    rw [get_move_reaction_of_none reactions board hl]
    intro e he
    rcases List.mem_append.mp he with h1 | h1
    · exact h e h1
    · rw [List.mem_singleton] at h1
      rw [h1]; exact node_live_new board hempty

/-- The inactive knowledge record after `inactive->node = get_move_reaction(inactive, board)`
on a board with an EMPTY cell. -/
theorem reaction_step (inactive : knowledge) (board : gameboard)
    (hempty : ∃ k : Fin 9, board k = EMPTY) (hk : knowledge_live inactive) :
    knowledge_live { inactive with
        node := node_ref.reaction board,
        reactions := (get_move_reaction inactive.reactions board).2 } ∧
    knowledge_ext inactive { inactive with
        node := node_ref.reaction board,
        reactions := (get_move_reaction inactive.reactions board).2 } ∧
    ∃ m, knowledge_deref { inactive with
        node := node_ref.reaction board,
        reactions := (get_move_reaction inactive.reactions board).2 }
        (node_ref.reaction board) = some m ∧ node_live m ∧ m.board = board := by
  have hlive := live_get_move_reaction inactive.reactions board hempty hk
  refine ⟨hlive, ?_, ?_⟩
  · intro ref n h hl
    cases ref with
    | first => exact ⟨n, h, hl, fun x => x⟩
    | reaction key =>
      exact ⟨n, lookup_get_move_reaction inactive.reactions board key n h, hl, fun x => x⟩
  · have hlook := get_move_reaction_lookup inactive.reactions board
    have hm := treemap_lookup_some _ _ _ hlook
    exact ⟨_, hlook, hlive _ hm.1, hm.2⟩

/-! ## The number of EMPTY cells -/

theorem incomplete_has_empty (board : gameboard) (p : Char)
    (h : ¬ (gameboard_get_state board p = board_state.board_won ∨
      gameboard_get_state board p = board_state.board_complete)) :
    ∃ k : Fin 9, board k = EMPTY := by
  by_contra hno
  have hall : ∀ k : Fin 9, board k ≠ EMPTY := fun k hk => hno ⟨k, hk⟩
  have hc := (scan_complete_range board).mpr hall
  apply h
  unfold gameboard_get_state
  simp only [hc]
  split_ifs <;> simp

theorem full_board_over (board : gameboard) (p : Char)
    (h : ∀ k : Fin 9, board k ≠ EMPTY) :
    gameboard_get_state board p = board_state.board_won ∨
      gameboard_get_state board p = board_state.board_complete := by
  by_contra hno
  obtain ⟨k, hk⟩ := incomplete_has_empty board p hno
  exact h k hk

theorem card_empty_set_cell (board : gameboard) (pos : Nat) (p : Char) (hpos : pos < 9)
    (he : cell board pos = EMPTY) (hp : p ≠ EMPTY) :
    (Finset.univ.filter (fun k : Fin 9 => set_cell board pos p k = EMPTY)).card + 1 =
      (Finset.univ.filter (fun k : Fin 9 => board k = EMPTY)).card := by
  have hmem : (⟨pos, hpos⟩ : Fin 9) ∈ Finset.univ.filter (fun k : Fin 9 => board k = EMPTY) := by
    rw [Finset.mem_filter]
    refine ⟨Finset.mem_univ _, ?_⟩
    rw [← cell_lt board pos hpos]; exact he
  have hset : Finset.univ.filter (fun k : Fin 9 => set_cell board pos p k = EMPTY) =
      (Finset.univ.filter (fun k : Fin 9 => board k = EMPTY)).erase ⟨pos, hpos⟩ := by
    ext k
    rw [Finset.mem_filter, Finset.mem_erase, Finset.mem_filter]
    unfold set_cell
    by_cases hk : k.val = pos
    · have hk2 : k = ⟨pos, hpos⟩ := Fin.ext hk
      simp [hk, hk2, hp]
    · have hk2 : k ≠ ⟨pos, hpos⟩ := fun e => hk (congrArg Fin.val e)
      simp [hk, hk2]
  rw [hset, Finset.card_erase_of_mem hmem]
  have := Finset.card_pos.mpr ⟨_, hmem⟩
  omega

/-! ## The three ways a frame of `self_play_recursive` returns -/

theorem self_play_over (rand : Nat → Nat) (depth : Nat) (board : gameboard)
    (active inactive : knowledge) (turn : Char) (tick : Nat) (n n' : turn_node) (d : decision)
    (a2 : knowledge)
    (hn : knowledge_deref active active.node = some n)
    (hmove : turn_node_make_move n (rand tick) = Except.ok (n', d))
    (hstate : gameboard_get_state (set_cell board d.pos turn) turn = board_state.board_won ∨
      gameboard_get_state (set_cell board d.pos turn) turn = board_state.board_complete)
    (hmark : mark_good_at (knowledge_store active active.node n') active.node = Except.ok a2) :
    self_play_recursive rand (depth + 1) board active inactive turn tick =
      Except.ok { winner := turn, board := set_cell board d.pos turn, active := a2,
                  inactive := inactive, tick := tick + 1,
                  events := [play_event.moved turn active.node d.pos board,
                    play_event.marked turn active.node true] } := by
  simp only [self_play_recursive, hn, hmove, hstate, if_true, hmark]

theorem self_play_good (rand : Nat → Nat) (depth : Nat) (board : gameboard)
    (active inactive : knowledge) (turn : Char) (tick : Nat) (n n' : turn_node) (d : decision)
    (r' : play_result) (a2 : knowledge)
    (hn : knowledge_deref active active.node = some n)
    (hmove : turn_node_make_move n (rand tick) = Except.ok (n', d))
    (hstate : ¬ (gameboard_get_state (set_cell board d.pos turn) turn = board_state.board_won ∨
      gameboard_get_state (set_cell board d.pos turn) turn = board_state.board_complete))
    (hrec : self_play_recursive rand depth (set_cell board d.pos turn)
      { inactive with
        node := node_ref.reaction (set_cell board d.pos turn),
        reactions := (get_move_reaction inactive.reactions (set_cell board d.pos turn)).2 }
      (knowledge_store active active.node n') (if turn = X then O else X) (tick + 1) =
        Except.ok r')
    (hw : r'.winner = turn)
    (hmark : mark_good_at r'.inactive active.node = Except.ok a2) :
    self_play_recursive rand (depth + 1) board active inactive turn tick =
      Except.ok { winner := turn, board := r'.board, active := a2, inactive := r'.active,
                  tick := r'.tick,
                  events := play_event.moved turn active.node d.pos board ::
                    r'.events ++ [play_event.marked turn active.node true] } := by
  simp only [self_play_recursive, hn, hmove, hstate, if_false, hrec, hw, if_true, hmark]

theorem self_play_bad (rand : Nat → Nat) (depth : Nat) (board : gameboard)
    (active inactive : knowledge) (turn : Char) (tick : Nat) (n n' : turn_node) (d : decision)
    (r' : play_result) (a2 : knowledge)
    (hn : knowledge_deref active active.node = some n)
    (hmove : turn_node_make_move n (rand tick) = Except.ok (n', d))
    (hstate : ¬ (gameboard_get_state (set_cell board d.pos turn) turn = board_state.board_won ∨
      gameboard_get_state (set_cell board d.pos turn) turn = board_state.board_complete))
    (hrec : self_play_recursive rand depth (set_cell board d.pos turn)
      { inactive with
        node := node_ref.reaction (set_cell board d.pos turn),
        reactions := (get_move_reaction inactive.reactions (set_cell board d.pos turn)).2 }
      (knowledge_store active active.node n') (if turn = X then O else X) (tick + 1) =
        Except.ok r')
    (hw : ¬ r'.winner = turn)
    (hmark : mark_bad_at r'.inactive active.node = Except.ok a2) :
    self_play_recursive rand (depth + 1) board active inactive turn tick =
      Except.ok { winner := if turn = O then X else O, board := r'.board, active := a2,
                  inactive := r'.active, tick := r'.tick,
                  events := play_event.moved turn active.node d.pos board ::
                    r'.events ++ [play_event.marked turn active.node false] } := by
  simp only [self_play_recursive, hn, hmove, hstate, if_false, hrec, hw, hmark]

theorem pointer_live_ext (k k' : knowledge) (hnode : k'.node = k.node)
    (hext : knowledge_ext k k') (hp : pointer_live k) : pointer_live k' := by
  obtain ⟨n, hn, hl⟩ := hp
  obtain ⟨n', hn', hl', -⟩ := hext k.node n hn hl
  exact ⟨n', by rw [hnode]; exact hn', hl'⟩

theorem markers_not_empty (turn : Char) (h : turn = X ∨ turn = O) : turn ≠ EMPTY := by
  rcases h with h | h <;> rw [h] <;> decide

/-- A call of `self_play_recursive` returns when the nodes of both trees are live, the active
node is live with decisions for EMPTY cells of the board, and the depth allowed is at least the
number of EMPTY cells. The nodes are live afterwards, and so are the pointers. -/
theorem self_play_returns (rand : Nat → Nat) :
    ∀ (depth : Nat) (board : gameboard) (active inactive : knowledge) (turn : Char)
      (tick : Nat),
      (turn = X ∨ turn = O) → knowledge_live active → knowledge_live inactive →
      (∃ n, knowledge_deref active active.node = some n ∧ node_live n ∧
        ∀ d ∈ n.actions, cell board d.pos = EMPTY) →
      (Finset.univ.filter (fun k : Fin 9 => board k = EMPTY)).card ≤ depth →
      ∃ r, self_play_recursive rand depth board active inactive turn tick = Except.ok r ∧
        knowledge_live r.active ∧ knowledge_live r.inactive ∧
        knowledge_ext active r.active ∧ knowledge_ext inactive r.inactive ∧
        pointer_live r.active ∧ (pointer_live inactive → pointer_live r.inactive)
  | 0, board, active, inactive, turn, tick, _, _, _, hnode, hdepth => by
    obtain ⟨n, -, hl, hcells⟩ := hnode
    obtain ⟨d, hd⟩ := List.exists_mem_of_ne_nil _ hl.2.1
    have hpos := (hl.1 d hd).1
    have hmem : (⟨d.pos, hpos⟩ : Fin 9) ∈
        Finset.univ.filter (fun k : Fin 9 => board k = EMPTY) := by
      rw [Finset.mem_filter]
      refine ⟨Finset.mem_univ _, ?_⟩
      rw [← cell_lt board d.pos hpos]; exact hcells d hd
    have := Finset.card_pos.mpr ⟨_, hmem⟩
    omega
  | depth + 1, board, active, inactive, turn, tick, hturn, hka, hki, hnode, hdepth => by
    obtain ⟨n, hn, hl, hcells⟩ := hnode
    obtain ⟨j, d, hmove, hdmem, hl', hv'⟩ := make_move_live n (rand tick) hl
    have hpos := (hl.1 d hdmem).1
    have hcard := card_empty_set_cell board d.pos turn hpos (hcells d hdmem)
      (markers_not_empty turn hturn)
    have hderef1 := deref_store active active.node n { n with lastMove := (j : Int) } hn rfl
    have hext1 := ext_store active active.node n { n with lastMove := (j : Int) } hn rfl hl'
      (fun _ => hv')
    have hlive1 := live_store active active.node { n with lastMove := (j : Int) } hka hl'
    have hnode1 := store_node active active.node { n with lastMove := (j : Int) }
    by_cases hstate :
        gameboard_get_state (set_cell board d.pos turn) turn = board_state.board_won ∨
        gameboard_get_state (set_cell board d.pos turn) turn = board_state.board_complete
    · obtain ⟨a2, hmark, hnode2, hext2, hlive2⟩ :=
        mark_good_at_ok _ active.node _ hderef1 hl' hv'
      refine ⟨_, self_play_over rand depth board active inactive turn tick n _ d a2 hn hmove
        hstate hmark, hlive2 hlive1, hki, knowledge_ext_trans _ _ _ hext1 hext2,
        knowledge_ext_refl _, ?_, fun h => h⟩
      exact pointer_live_ext _ a2 hnode2 hext2 ⟨_, by rw [hnode1]; exact hderef1, hl'⟩
    · have hempty := incomplete_has_empty _ _ hstate
      obtain ⟨hlive_i, hext_i, m, hm, hml, hmb⟩ :=
        reaction_step inactive (set_cell board d.pos turn) hempty hki
      have hother : (if turn = X then O else X) = X ∨ (if turn = X then O else X) = O := by
        split
        · exact Or.inr rfl
        · exact Or.inl rfl
      obtain ⟨r', hr', hlra, hlri, hexta, hexti, hptra, hptri⟩ :=
        self_play_returns rand depth (set_cell board d.pos turn)
          { inactive with
            node := node_ref.reaction (set_cell board d.pos turn),
            reactions := (get_move_reaction inactive.reactions (set_cell board d.pos turn)).2 }
          (knowledge_store active active.node { n with lastMove := (j : Int) })
          (if turn = X then O else X) (tick + 1) hother hlive_i hlive1
          ⟨m, hm, hml, fun e he => by rw [← hmb]; exact (hml.1 e he).2⟩
          (by omega)
      obtain ⟨n3, hd3, hl3, hv3⟩ := hexti active.node _ hderef1 hl'
      have hptr1 : pointer_live
          (knowledge_store active active.node { n with lastMove := (j : Int) }) :=
        ⟨_, by rw [hnode1]; exact hderef1, hl'⟩
      have hptr2 := hptri hptr1
      by_cases hw : r'.winner = turn
      · obtain ⟨a2, hmark, hnode2, hext2, hlive2⟩ :=
          mark_good_at_ok r'.inactive active.node n3 hd3 hl3 (hv3 hv')
        refine ⟨_, self_play_good rand depth board active inactive turn tick n _ d r' a2 hn
          hmove hstate hr' hw hmark, hlive2 hlri, hlra,
          knowledge_ext_trans _ _ _ (knowledge_ext_trans _ _ _ hext1 hexti) hext2,
          knowledge_ext_trans _ _ _ hext_i hexta, ?_, fun _ => hptra⟩
        exact pointer_live_ext _ a2 hnode2 hext2 hptr2
      · obtain ⟨a2, hmark, hnode2, hext2, hlive2⟩ :=
          mark_bad_at_ok r'.inactive active.node n3 hd3 hl3 (hv3 hv')
        refine ⟨_, self_play_bad rand depth board active inactive turn tick n _ d r' a2 hn
          hmove hstate hr' hw hmark, hlive2 hlri, hlra,
          knowledge_ext_trans _ _ _ (knowledge_ext_trans _ _ _ hext1 hexti) hext2,
          knowledge_ext_trans _ _ _ hext_i hexta, ?_, fun _ => hptra⟩
        exact pointer_live_ext _ a2 hnode2 hext2 hptr2

/-! ## The depth of a game -/

/-- A call of `self_play_recursive` that returns within some depth returns the same result when
more depth is allowed. -/
theorem self_play_mono (rand : Nat → Nat) :
    ∀ (depth : Nat) (board : gameboard) (active inactive : knowledge) (turn : Char)
      (tick : Nat) (r : play_result),
      self_play_recursive rand depth board active inactive turn tick = Except.ok r →
      ∀ k : Nat, self_play_recursive rand (depth + k) board active inactive turn tick =
        Except.ok r
  | 0, _, _, _, _, _, _, h, _ => by simp [self_play_recursive] at h
  | depth + 1, board, active, inactive, turn, tick, r, h, k => by
    obtain ⟨n, n', d, hn, hmove, hcase⟩ :=
      self_play_inv rand depth board active inactive turn tick r h
    have hk : depth + 1 + k = (depth + k) + 1 := by omega
    rw [hk]
    rcases hcase with ⟨hstate, a2, ha2, hr⟩ | ⟨hstate, r', hr', hcase2⟩
    · rw [hr]
      exact self_play_over rand (depth + k) board active inactive turn tick n n' d a2 hn hmove
        hstate ha2
    · have hrec := self_play_mono rand depth _ _ _ _ _ r' hr' k
      rcases hcase2 with ⟨hw, a2, ha2, hr⟩ | ⟨hw, a2, ha2, hr⟩
      · rw [hr]
        exact self_play_good rand (depth + k) board active inactive turn tick n n' d r' a2 hn
          hmove hstate hrec hw ha2
      · rw [hr]
        exact self_play_bad rand (depth + k) board active inactive turn tick n n' d r' a2 hn
          hmove hstate hrec hw ha2

/-- A call that returns within depth `depth` has made at most `depth` draws: one per frame. -/
theorem self_play_ticks (rand : Nat → Nat) :
    ∀ (depth : Nat) (board : gameboard) (active inactive : knowledge) (turn : Char)
      (tick : Nat) (r : play_result),
      self_play_recursive rand depth board active inactive turn tick = Except.ok r →
      r.tick ≤ tick + depth
  | 0, _, _, _, _, _, _, h => by simp [self_play_recursive] at h
  | depth + 1, board, active, inactive, turn, tick, r, h => by
    obtain ⟨n, n', d, -, -, hcase⟩ :=
      self_play_inv rand depth board active inactive turn tick r h
    rcases hcase with ⟨-, a2, -, hr⟩ | ⟨-, r', hr', hcase2⟩
    · rw [hr]
      show tick + 1 ≤ tick + (depth + 1)
      omega
    · have ih := self_play_ticks rand depth _ _ _ _ _ r' hr'
      rcases hcase2 with ⟨-, a2, -, hr⟩ | ⟨-, a2, -, hr⟩
      · rw [hr]
        show r'.tick ≤ tick + (depth + 1)
        omega
      · rw [hr]
        show r'.tick ≤ tick + (depth + 1)
        omega

theorem card_empty_le (board : gameboard) :
    (Finset.univ.filter (fun k : Fin 9 => board k = EMPTY)).card ≤ 9 := by
  have := Finset.card_filter_le (Finset.univ : Finset (Fin 9)) (fun k => board k = EMPTY)
  simpa using this

/-- A game started on the empty board returns within 9 nested calls when the nodes of both trees
are live and the pointer of the first-moving tree refers to a live node. -/
theorem game_returns (rand : Nat → Nat) (them us : knowledge) (tick : Nat)
    (ht : knowledge_live them) (hu : knowledge_live us) (hp : pointer_live them) :
    ∃ r, self_play_recursive rand 9 EMPTY_BOARD them us X tick = Except.ok r ∧
      knowledge_live r.active ∧ knowledge_live r.inactive ∧ pointer_live r.active := by
  obtain ⟨n, hn, hl⟩ := hp
  obtain ⟨r, hr, h1, h2, -, -, h5, -⟩ := self_play_returns rand 9 EMPTY_BOARD them us X tick
    (Or.inl rfl) ht hu ⟨n, hn, hl, fun d _ => cell_empty_board d.pos⟩ (card_empty_le _)
  exact ⟨r, hr, h1, h2, h5⟩

theorem knowledge_live_new (player : Char) : knowledge_live (knowledge_new player) := by
  intro e he
  cases he

theorem pointer_live_new : pointer_live (knowledge_new X) := by
  refine ⟨turn_node_new EMPTY_BOARD, ?_, node_live_new EMPTY_BOARD ⟨0, rfl⟩⟩
  simp [knowledge_new, knowledge_deref]

/-- The state of the training loop keeps the nodes of both trees well-formed and live, and the
pointer of the first-moving tree on a live node. -/
theorem training_loop_live (rand : Nat → Nat) (depth : Nat) :
    ∀ (games : Nat) (s s' : training_state),
      knowledge_wf s.us → knowledge_wf s.them →
      knowledge_live s.us → knowledge_live s.them → pointer_live s.them →
      training_loop rand depth games s = Except.ok s' →
      knowledge_wf s'.us ∧ knowledge_wf s'.them ∧
        knowledge_live s'.us ∧ knowledge_live s'.them ∧ pointer_live s'.them
  | 0, s, s', hwu, hwt, hu, ht, hp, h => by
    simp only [training_loop] at h
    have := (Except.ok.injEq _ _).mp h
    subst this
    exact ⟨hwu, hwt, hu, ht, hp⟩
  | games + 1, s, s', hwu, hwt, hu, ht, hp, h => by
    simp only [training_loop] at h
    split at h
    · cases h
    · rename_i r hr
      obtain ⟨hw1, hw2, -⟩ := game_from_empty_safe rand depth s.them s.us s.tick r hwt hwu hr
      have hbig := self_play_mono rand depth _ _ _ _ _ r hr 9
      obtain ⟨n, hn, hl⟩ := hp
      obtain ⟨r2, hr2, h1, h2, -, -, h5, -⟩ := self_play_returns rand (depth + 9) EMPTY_BOARD
        s.them s.us X s.tick (Or.inl rfl) ht hu
        ⟨n, hn, hl, fun d _ => cell_empty_board d.pos⟩
        (Nat.le_trans (card_empty_le _) (Nat.le_add_left _ _))
      rw [hbig] at hr2
      have e := (Except.ok.injEq _ _).mp hr2
      subst e
      exact training_loop_live rand depth games _ s' hw2 hw1 h2 h1 h5 h

/-- Claim C36: a self-play game ends within 9 plies. In every state of the two trees that the
training loop reaches (after any number of games, with any random draws), for every sequence of
random draws, `self_play_recursive` started on the empty board with X to move returns within 9
nested calls: it makes at most 9 moves, one per call, each into a cell in `0 .. 8` that is EMPTY
at that moment, every call starting on the board the call before it left. -/
theorem self_play_within_nine (rand : Nat → Nat) (depth games : Nat) (s : training_state)
    (h : aquire_knowledge rand depth games = Except.ok s) (draws : Nat → Nat) (tick : Nat) :
    ∃ r, self_play_recursive draws 9 EMPTY_BOARD s.them s.us X tick = Except.ok r ∧
      ∃ frames : List frame, 1 ≤ frames.length ∧ frames.length ≤ 9 ∧
        r.tick = tick + frames.length ∧
        frames_chain X EMPTY_BOARD frames ∧ r.events = frames_events r.winner frames ∧
        ∀ f ∈ frames, f.pos < 9 ∧ cell f.before f.pos = EMPTY := by
  obtain ⟨hwu, hwt, hu, ht, hp⟩ := training_loop_live rand depth games _ s
    (knowledge_wf_new O) (knowledge_wf_new X) (knowledge_live_new O) (knowledge_live_new X)
    pointer_live_new h
  obtain ⟨r, hr, -⟩ := game_returns draws s.them s.us tick ht hu hp
  refine ⟨r, hr, ?_⟩
  obtain ⟨h1, h2, h3⟩ := self_play_safe draws 9 EMPTY_BOARD s.them s.us X tick r hwt hwu
    (fun _ _ d _ => cell_empty_board d.pos) hr
  obtain ⟨frames, last, hlast, -, hchain, -, -, hev, -, htick, -⟩ :=
    self_play_frames draws 9 EMPTY_BOARD s.them s.us X tick r (Or.inl rfl) hr
  have hticks := self_play_ticks draws 9 _ _ _ _ _ r hr
  refine ⟨frames, ?_, by omega, htick, hchain, hev, ?_⟩
  · cases frames with
    | nil => cases hlast
    | cons f fs => simp
  · intro f hf
    have hmem : play_event.moved f.turn f.ref f.pos f.before ∈ r.events := by
      rw [hev]
      unfold frames_events
      exact List.mem_append_left _
        (List.mem_map_of_mem (fun f => play_event.moved f.turn f.ref f.pos f.before) hf)
    exact h3 _ hmem

/-- Witness for C36: the training loop of two games with every draw equal to 0 returns; in the
state it reaches, the third game returns within 9 nested calls. -/
theorem self_play_within_nine_witness :
    ∃ s, aquire_knowledge (fun _ => 0) 9 2 = Except.ok s ∧
      ∃ r, self_play_recursive (fun _ => 0) 9 EMPTY_BOARD s.them s.us X s.tick = Except.ok r ∧
        ∃ frames : List frame, 1 ≤ frames.length ∧ frames.length ≤ 9 ∧
          r.tick = s.tick + frames.length ∧
          frames_chain X EMPTY_BOARD frames ∧ r.events = frames_events r.winner frames ∧
          ∀ f ∈ frames, f.pos < 9 ∧ cell f.before f.pos = EMPTY := by
  obtain ⟨s, hs⟩ := two_games_return
  exact ⟨s, hs, self_play_within_nine (fun _ => 0) 9 2 s hs (fun _ => 0) s.tick⟩

end TicTacToe

namespace CInt

/-! ## Lemmas on the arithmetic of `int` -/

theorem wrap_of_fits (x : Int) (h : fits x) : wrap x = x := by
  obtain ⟨h1, h2⟩ := h
  unfold INT_MIN at h1
  unfold INT_MAX at h2
  unfold wrap
  omega

theorem add_of_fits (a b : Int) (h : fits (a + b)) : add a b = a + b :=
  wrap_of_fits _ h

theorem sub_of_fits (a b : Int) (h : fits (a - b)) : sub a b = a - b :=
  wrap_of_fits _ h

end CInt

namespace Knapsack1

/-! ## Lemmas on sacks -/

theorem cost_cons (a : k_item) (l : List k_item) :
    items_cost (a :: l) = a.cost + items_cost l := by
  simp [items_cost]

theorem value_cons (a : k_item) (l : List k_item) :
    items_value (a :: l) = a.value + items_value l := by
  simp [items_value]

theorem cost_append (l₁ l₂ : List k_item) :
    items_cost (l₁ ++ l₂) = items_cost l₁ + items_cost l₂ := by
  simp [items_cost]

theorem value_append (l₁ l₂ : List k_item) :
    items_value (l₁ ++ l₂) = items_value l₁ + items_value l₂ := by
  simp [items_value]

/-- The sums of `k_sack_sum_up` are the totals of the items when the totals of every initial
part of the item array of the sack are values of type `int`. -/
theorem sum_up_initial (l : List k_item) :
    (∀ p : List k_item, p <+: l → CInt.fits (items_cost p) ∧ CInt.fits (items_value p)) →
      k_sack_sum_up { items := l } = (items_cost l, items_value l) := by
  induction l using List.reverseRecOn with
  | nil => intro _; rfl
  | append_singleton l a ih =>
    intro h
    have ih' := ih (fun p hp => h p (hp.trans (List.prefix_append l [a])))
    have hfit := h (l ++ [a]) (List.prefix_refl _)
    unfold k_sack_sum_up at ih' ⊢
    simp only [List.foldl_append, List.foldl_cons, List.foldl_nil] at ih' ⊢
    rw [ih']
    rw [cost_append, value_append] at hfit ⊢
    have hc : items_cost [a] = a.cost := by simp [items_cost]
    have hv : items_value [a] = a.value := by simp [items_value]
    rw [hc, hv] at hfit ⊢
    show (CInt.add (items_cost l) a.cost, CInt.add (items_value l) a.value) = _
    rw [CInt.add_of_fits _ _ hfit.1, CInt.add_of_fits _ _ hfit.2]

theorem sum_up_sublist (items sub : List k_item) (hno : no_overflow items)
    (hs : sub.Sublist items) :
    k_sack_sum_up { items := sub } = (items_cost sub, items_value sub) :=
  sum_up_initial sub (fun p hp => hno p (List.mem_sublists.mpr (hp.sublist.trans hs)))

/-! ## The leaf of the search: `k_solution_check_sack` -/

theorem check_sack_records (sol : k_solution) (sack : k_sack)
    (hc : (k_sack_sum_up sack).1 ≤ sol.limit)
    (hv : ∀ b, sol.bestSack = some b → (k_sack_sum_up sack).2 > sol.bestValue) :
    k_solution_check_sack sol sack =
      (true, { sol with bestCost := (k_sack_sum_up sack).1,
                        bestValue := (k_sack_sum_up sack).2, bestSack := some sack }) := by
  unfold k_solution_check_sack
  cases hs : sol.bestSack with
  | none => simp [hc]
  | some best =>
    have := hv best hs
    simp [hc, this]

theorem check_sack_keeps (sol : k_solution) (sack : k_sack)
    (h : ¬ (k_sack_sum_up sack).1 ≤ sol.limit ∨
      ∃ b, sol.bestSack = some b ∧ ¬ (k_sack_sum_up sack).2 > sol.bestValue) :
    k_solution_check_sack sol sack = (false, sol) := by
  unfold k_solution_check_sack
  rcases h with hc | ⟨b, hb, hv⟩
  · simp [hc]
  · simp [hb, hv]

theorem check_cases (sol : k_solution) (sack : k_sack) (hok : solution_ok sol) :
    (k_solution_check_sack sol sack).2.limit = sol.limit ∧
    solution_ok (k_solution_check_sack sol sack).2 ∧
    (((k_solution_check_sack sol sack).2.bestSack = some sack ∧
        (k_sack_sum_up sack).1 ≤ sol.limit ∧
        ∀ b, sol.bestSack = some b → (k_sack_sum_up b).2 < (k_sack_sum_up sack).2) ∨
      ((k_solution_check_sack sol sack).2.bestSack = sol.bestSack ∧
        ((k_sack_sum_up sack).1 ≤ sol.limit →
          ∃ b, sol.bestSack = some b ∧ (k_sack_sum_up sack).2 ≤ (k_sack_sum_up b).2))) := by
  by_cases hc : (k_sack_sum_up sack).1 ≤ sol.limit
  · by_cases hv : ∀ b, sol.bestSack = some b → (k_sack_sum_up sack).2 > sol.bestValue
    · rw [check_sack_records sol sack hc hv]
      refine ⟨rfl, ?_, Or.inl ⟨rfl, hc, ?_⟩⟩
      · intro b hb
        have hb' : some sack = some b := hb
        cases hb'
        exact ⟨rfl, rfl⟩
      · intro b hb
        rw [← (hok b hb).2]
        exact hv b hb
    · have hex : ∃ b, sol.bestSack = some b ∧ ¬ (k_sack_sum_up sack).2 > sol.bestValue := by
        by_contra hno
        apply hv
        intro b hb
        by_contra hle
        exact hno ⟨b, hb, hle⟩
      rw [check_sack_keeps sol sack (Or.inr hex)]
      obtain ⟨b, hb, hle⟩ := hex
      refine ⟨rfl, hok, Or.inr ⟨rfl, fun _ => ⟨b, hb, ?_⟩⟩⟩
      rw [← (hok b hb).2]
      omega
  · rw [check_sack_keeps sol sack (Or.inl hc)]
    exact ⟨rfl, hok, Or.inr ⟨rfl, fun h => absurd h hc⟩⟩

/-! ## The search -/

theorem candidates_limit :
    ∀ (items : List k_item) (sack : k_sack) (sol : k_solution), solution_ok sol →
      (knapsack_candidates_recursive items sack sol).limit = sol.limit ∧
        solution_ok (knapsack_candidates_recursive items sack sol)
  | [], sack, sol, hok => by
    have h := check_cases sol sack hok
    exact ⟨h.1, h.2.1⟩
  | item :: rest, sack, sol, hok => by
    simp only [knapsack_candidates_recursive]
    obtain ⟨h1, hok1⟩ := candidates_limit rest sack sol hok
    obtain ⟨h2, hok2⟩ := candidates_limit rest (k_sack_add_item (k_sack_copy sack) item) _ hok1
    exact ⟨h2.trans h1, hok2⟩

theorem candidates_keeps_or_records :
    ∀ (items : List k_item) (sack : k_sack) (sol : k_solution), solution_ok sol →
      (knapsack_candidates_recursive items sack sol).bestSack = sol.bestSack ∨
      ∃ sub : List k_item, sub.Sublist items ∧
        (knapsack_candidates_recursive items sack sol).bestSack =
          some { items := sack.items ++ sub } ∧
        (k_sack_sum_up { items := sack.items ++ sub }).1 ≤ sol.limit
  | [], sack, sol, hok => by
    rcases (check_cases sol sack hok).2.2 with h | h
    · refine Or.inr ⟨[], List.Sublist.refl _, ?_, ?_⟩
      · rw [List.append_nil]; exact h.1
      · rw [List.append_nil]; exact h.2.1
    · exact Or.inl h.1
  | item :: rest, sack, sol, hok => by
    simp only [knapsack_candidates_recursive]
    obtain ⟨hl1, hok1⟩ := candidates_limit rest sack sol hok
    rcases candidates_keeps_or_records rest (k_sack_add_item (k_sack_copy sack) item)
        (knapsack_candidates_recursive rest sack sol) hok1 with h2 | ⟨sub, hs, h2, hc⟩
    · rcases candidates_keeps_or_records rest sack sol hok with h1 | ⟨sub, hs, h1, hc⟩
      · exact Or.inl (h2.trans h1)
      · exact Or.inr ⟨sub, List.Sublist.cons _ hs, h2.trans h1, hc⟩
    · refine Or.inr ⟨item :: sub, List.Sublist.cons₂ _ hs, ?_, ?_⟩
      · rw [h2]
        simp [k_sack_add_item, k_sack_copy]
      · rw [hl1] at hc
        simpa [k_sack_add_item, k_sack_copy] using hc

theorem candidates_not_worse :
    ∀ (items : List k_item) (sack : k_sack) (sol : k_solution) (b : k_sack),
      solution_ok sol → sol.bestSack = some b →
      ∃ b', (knapsack_candidates_recursive items sack sol).bestSack = some b' ∧
        (k_sack_sum_up b).2 ≤ (k_sack_sum_up b').2
  | [], sack, sol, b, hok, hb => by
    rcases (check_cases sol sack hok).2.2 with h | h
    · exact ⟨sack, h.1, Int.le_of_lt (h.2.2 b hb)⟩
    · exact ⟨b, h.1.trans hb, Int.le_refl _⟩
  | item :: rest, sack, sol, b, hok, hb => by
    simp only [knapsack_candidates_recursive]
    obtain ⟨-, hok1⟩ := candidates_limit rest sack sol hok
    obtain ⟨b1, h1, hv1⟩ := candidates_not_worse rest sack sol b hok hb
    obtain ⟨b2, h2, hv2⟩ := candidates_not_worse rest
      (k_sack_add_item (k_sack_copy sack) item) _ b1 hok1 h1
    exact ⟨b2, h2, Int.le_trans hv1 hv2⟩

theorem candidates_covers :
    ∀ (items : List k_item) (sack : k_sack) (sol : k_solution) (sub : List k_item),
      solution_ok sol → sub.Sublist items →
      (k_sack_sum_up { items := sack.items ++ sub }).1 ≤ sol.limit →
      ∃ b', (knapsack_candidates_recursive items sack sol).bestSack = some b' ∧
        (k_sack_sum_up { items := sack.items ++ sub }).2 ≤ (k_sack_sum_up b').2
  | [], sack, sol, sub, hok, hs, hc => by
    have : sub = [] := List.sublist_nil.mp hs
    subst this
    rw [List.append_nil] at hc ⊢
    rcases (check_cases sol sack hok).2.2 with h | h
    · exact ⟨sack, h.1, Int.le_refl _⟩
    · obtain ⟨b, hb, hv⟩ := h.2 hc
      exact ⟨b, h.1.trans hb, hv⟩
  | item :: rest, sack, sol, sub, hok, hs, hc => by
    simp only [knapsack_candidates_recursive]
    obtain ⟨hl1, hok1⟩ := candidates_limit rest sack sol hok
    rcases List.sublist_cons_iff.mp hs with h | ⟨r, hr, h⟩
    · obtain ⟨b1, h1, hv1⟩ := candidates_covers rest sack sol sub hok h hc
      obtain ⟨b2, h2, hv2⟩ := candidates_not_worse rest
        (k_sack_add_item (k_sack_copy sack) item) _ b1 hok1 h1
      exact ⟨b2, h2, Int.le_trans hv1 hv2⟩
    · subst hr
      have hitems : (k_sack_add_item (k_sack_copy sack) item).items ++ r =
          sack.items ++ item :: r := by
        simp [k_sack_add_item, k_sack_copy]
      have := candidates_covers rest (k_sack_add_item (k_sack_copy sack) item)
        (knapsack_candidates_recursive rest sack sol) r hok1 h (by rw [hitems, hl1]; exact hc)
      rw [hitems] at this
      exact this

end Knapsack1

namespace Knapsack2

/-! ## Lemmas on sacks -/

theorem items_cost_nil : items_cost [] = 0 := rfl

theorem items_value_nil : items_value [] = 0 := rfl

theorem items_cost_cons (a : k_item) (l : List k_item) :
    items_cost (a :: l) = a.cost + items_cost l := by
  simp [items_cost]

theorem items_value_cons (a : k_item) (l : List k_item) :
    items_value (a :: l) = a.value + items_value l := by
  simp [items_value]

theorem items_cost_append (l₁ l₂ : List k_item) :
    items_cost (l₁ ++ l₂) = items_cost l₁ + items_cost l₂ := by
  simp [items_cost]

theorem items_value_append (l₁ l₂ : List k_item) :
    items_value (l₁ ++ l₂) = items_value l₁ + items_value l₂ := by
  simp [items_value]

theorem items_cost_nonneg (l : List k_item) (h : ∀ it ∈ l, 0 ≤ it.cost) : 0 ≤ items_cost l := by
  induction l with
  | nil => simp [items_cost]
  | cons a l ih =>
    rw [items_cost_cons]
    have h1 := h a (List.mem_cons_self _ _)
    have h2 := ih (fun it hit => h it (List.mem_cons_of_mem _ hit))
    omega

theorem items_value_sublist_le (sub l : List k_item) (hs : sub.Sublist l)
    (h : ∀ it ∈ l, 0 ≤ it.value) : items_value sub ≤ items_value l := by
  induction hs with
  | slnil => exact Int.le_refl _
  | cons a _ ih =>
    rw [items_value_cons]
    have h1 := h a (List.mem_cons_self _ _)
    have h2 := ih (fun it hit => h it (List.mem_cons_of_mem _ hit))
    omega
  | cons₂ a _ ih =>
    rw [items_value_cons, items_value_cons]
    have h2 := ih (fun it hit => h it (List.mem_cons_of_mem _ hit))
    omega

theorem sack_copy_eq (sack : k_sack) : k_sack_copy sack = sack := rfl

theorem sack_with_nil (sack : k_sack) : sack_with sack [] = sack := rfl

theorem sack_with_cons (sack : k_sack) (item : k_item) (sub : List k_item) :
    sack_with sack (item :: sub) = sack_with (k_sack_add_item (k_sack_copy sack) item) sub :=
  rfl

theorem sack_with_snoc (sack : k_sack) (sub : List k_item) (item : k_item) :
    sack_with sack (sub ++ [item]) = k_sack_add_item (sack_with sack sub) item := by
  unfold sack_with
  rw [List.foldl_append]
  rfl

theorem sack_with_items (sub : List k_item) :
    ∀ sack : k_sack, (sack_with sack sub).items = sack.items ++ sub := by
  induction sub with
  | nil => intro sack; simp [sack_with]
  | cons a sub ih =>
    intro sack
    rw [sack_with_cons, ih]
    show sack.items ++ [a] ++ sub = _
    simp

/-! ## Sacks whose running cost and value are exact -/

/-- The running cost and value of the sack built from the empty sack are the totals of its items
when the totals of every initial part of its item array are values of type `int`. -/
theorem sack_with_initial (l : List k_item) :
    (∀ p : List k_item, p <+: l → CInt.fits (items_cost p) ∧ CInt.fits (items_value p)) →
      (sack_with k_sack_new l).cost = items_cost l ∧
        (sack_with k_sack_new l).value = items_value l := by
  induction l using List.reverseRecOn with
  | nil => intro _; exact ⟨rfl, rfl⟩
  | append_singleton l a ih =>
    intro h
    obtain ⟨ihc, ihv⟩ := ih (fun p hp => h p (hp.trans (List.prefix_append l [a])))
    have hfit := h (l ++ [a]) (List.prefix_refl _)
    rw [sack_with_snoc]
    rw [items_cost_append, items_value_append] at hfit ⊢
    have hc : items_cost [a] = a.cost := by simp [items_cost]
    have hv : items_value [a] = a.value := by simp [items_value]
    rw [hc, hv] at hfit ⊢
    constructor
    · show CInt.add (sack_with k_sack_new l).cost a.cost = _
      rw [ihc, CInt.add_of_fits _ _ hfit.1]
    · show CInt.add (sack_with k_sack_new l).value a.value = _
      rw [ihv, CInt.add_of_fits _ _ hfit.2]

theorem sack_with_new_cost (items sub : List k_item) (hno : no_overflow items)
    (hs : sub.Sublist items) : (sack_with k_sack_new sub).cost = items_cost sub :=
  (sack_with_initial sub
    (fun p hp => hno p (List.mem_sublists.mpr (hp.sublist.trans hs)))).1

theorem sack_with_new_value (items sub : List k_item) (hno : no_overflow items)
    (hs : sub.Sublist items) : (sack_with k_sack_new sub).value = items_value sub :=
  (sack_with_initial sub
    (fun p hp => hno p (List.mem_sublists.mpr (hp.sublist.trans hs)))).2

theorem sack_with_new_items (sub : List k_item) : (sack_with k_sack_new sub).items = sub := by
  rw [sack_with_items]
  rfl

theorem sack_exact_new (items : List k_item) (hno : no_overflow items) :
    sack_exact k_sack_new items := by
  intro s hs
  rw [sack_with_new_cost items s hno hs, sack_with_new_value items s hno hs]
  exact ⟨by show _ = 0 + _; omega, by show _ = 0 + _; omega⟩

theorem sack_exact_left (sack : k_sack) (item : k_item) (rest : List k_item)
    (h : sack_exact sack (item :: rest)) : sack_exact sack rest :=
  fun s hs => h s (List.Sublist.cons _ hs)

theorem sack_exact_add (sack : k_sack) (item : k_item) (rest : List k_item)
    (h : sack_exact sack (item :: rest)) :
    (k_sack_add_item (k_sack_copy sack) item).cost = sack.cost + item.cost ∧
      (k_sack_add_item (k_sack_copy sack) item).value = sack.value + item.value := by
  have h1 := h [item] (List.Sublist.cons₂ _ (List.nil_sublist _))
  rw [sack_with_cons, sack_with_nil, items_cost_cons, items_value_cons, items_cost_nil,
    items_value_nil] at h1
  exact ⟨by omega, by omega⟩

theorem sack_exact_right (sack : k_sack) (item : k_item) (rest : List k_item)
    (h : sack_exact sack (item :: rest)) :
    sack_exact (k_sack_add_item (k_sack_copy sack) item) rest := by
  intro s hs
  have h1 := h (item :: s) (List.Sublist.cons₂ _ hs)
  obtain ⟨h2, h3⟩ := sack_exact_add sack item rest h
  rw [sack_with_cons, items_cost_cons, items_value_cons] at h1
  exact ⟨by omega, by omega⟩

/-! ## The leaf of a search: `k_solution_check_sack` -/

theorem check_sack_cases (info : k_info) (sol : k_solution) (sack : k_sack) :
    ((k_solution_check_sack info sol sack).2.sack = some sack ∧ sack.cost ≤ info.limit ∧
      ∀ b, sol.sack = some b → b.value < sack.value) ∨
    ((k_solution_check_sack info sol sack).2.sack = sol.sack ∧
      (sack.cost ≤ info.limit → ∃ b, sol.sack = some b ∧ sack.value ≤ b.value)) := by
  unfold k_solution_check_sack
  cases hs : sol.sack with
  | none =>
    by_cases hc : sack.cost ≤ info.limit
    · left
      simp [hc]
    · right
      simp [hc, hs]
  | some best =>
    by_cases hc : sack.cost ≤ info.limit
    · by_cases hv : sack.value > best.value
      · left
        simp only [hc, hv, decide_True, and_self, if_true, true_and]
        intro b hb
        cases hb
        exact hv
      · right
        simp only [hc, hv, decide_False, Bool.false_eq_true, and_false, if_false, hs, true_and,
          forall_true_left]
        exact ⟨best, rfl, by omega⟩
    · right
      simp [hc, hs]

theorem leaf_keeps_or_records (info : k_info) (sol : k_solution) (sack : k_sack) :
    (k_solution_check_sack info (count_sack sol) sack).2.sack = sol.sack ∨
      ((k_solution_check_sack info (count_sack sol) sack).2.sack = some sack ∧
        sack.cost ≤ info.limit) := by
  rcases check_sack_cases info (count_sack sol) sack with h | h
  · exact Or.inr ⟨h.1, h.2.1⟩
  · exact Or.inl h.1

theorem leaf_not_worse (info : k_info) (sol : k_solution) (sack : k_sack) (b : k_sack)
    (hb : sol.sack = some b) :
    ∃ b', (k_solution_check_sack info (count_sack sol) sack).2.sack = some b' ∧
      b.value ≤ b'.value := by
  rcases check_sack_cases info (count_sack sol) sack with h | h
  · exact ⟨sack, h.1, Int.le_of_lt (h.2.2 b hb)⟩
  · exact ⟨b, h.1.trans hb, Int.le_refl _⟩

theorem leaf_covers (info : k_info) (sol : k_solution) (sack : k_sack)
    (hc : sack.cost ≤ info.limit) :
    ∃ b', (k_solution_check_sack info (count_sack sol) sack).2.sack = some b' ∧
      sack.value ≤ b'.value := by
  rcases check_sack_cases info (count_sack sol) sack with h | h
  · exact ⟨sack, h.1, Int.le_refl _⟩
  · obtain ⟨b, hb, hv⟩ := h.2 hc
    exact ⟨b, h.1.trans hb, hv⟩

/-! ## The brute-force search -/

theorem bruteforce_keeps_or_records (info : k_info) :
    ∀ (items : List k_item) (sack : k_sack) (sol : k_solution),
      (knapsack_bruteforce_recursive info items sack sol).sack = sol.sack ∨
      ∃ sub : List k_item, sub.Sublist items ∧
        (knapsack_bruteforce_recursive info items sack sol).sack = some (sack_with sack sub) ∧
        (sack_with sack sub).cost ≤ info.limit
  | [], sack, sol => by
    rcases leaf_keeps_or_records info sol sack with h | h
    · exact Or.inl h
    · exact Or.inr ⟨[], List.Sublist.refl _, h.1, h.2⟩
  | item :: rest, sack, sol => by
    simp only [knapsack_bruteforce_recursive]
    rcases bruteforce_keeps_or_records info rest (k_sack_add_item (k_sack_copy sack) item)
        (knapsack_bruteforce_recursive info rest sack sol) with h2 | ⟨sub, hs, h2, hc⟩
    · rcases bruteforce_keeps_or_records info rest sack sol with h1 | ⟨sub, hs, h1, hc⟩
      · exact Or.inl (h2.trans h1)
      · exact Or.inr ⟨sub, List.Sublist.cons _ hs, h2.trans h1, hc⟩
    · exact Or.inr ⟨item :: sub, List.Sublist.cons₂ _ hs, h2, hc⟩

theorem bruteforce_not_worse (info : k_info) :
    ∀ (items : List k_item) (sack : k_sack) (sol : k_solution) (b : k_sack),
      sol.sack = some b →
      ∃ b', (knapsack_bruteforce_recursive info items sack sol).sack = some b' ∧
        b.value ≤ b'.value
  | [], sack, sol, b, hb => leaf_not_worse info sol sack b hb
  | item :: rest, sack, sol, b, hb => by
    simp only [knapsack_bruteforce_recursive]
    obtain ⟨b1, h1, hv1⟩ := bruteforce_not_worse info rest sack sol b hb
    obtain ⟨b2, h2, hv2⟩ := bruteforce_not_worse info rest
      (k_sack_add_item (k_sack_copy sack) item) _ b1 h1
    exact ⟨b2, h2, Int.le_trans hv1 hv2⟩

theorem bruteforce_covers (info : k_info) :
    ∀ (items : List k_item) (sack : k_sack) (sol : k_solution) (sub : List k_item),
      sub.Sublist items → (sack_with sack sub).cost ≤ info.limit →
      ∃ b', (knapsack_bruteforce_recursive info items sack sol).sack = some b' ∧
        (sack_with sack sub).value ≤ b'.value
  | [], sack, sol, sub, hs, hc => by
    have : sub = [] := List.sublist_nil.mp hs
    subst this
    exact leaf_covers info sol sack hc
  | item :: rest, sack, sol, sub, hs, hc => by
    simp only [knapsack_bruteforce_recursive]
    rcases List.sublist_cons_iff.mp hs with h | ⟨r, hr, h⟩
    · obtain ⟨b1, h1, hv1⟩ := bruteforce_covers info rest sack sol sub h hc
      obtain ⟨b2, h2, hv2⟩ := bruteforce_not_worse info rest
        (k_sack_add_item (k_sack_copy sack) item) _ b1 h1
      exact ⟨b2, h2, Int.le_trans hv1 hv2⟩
    · subst hr
      exact bruteforce_covers info rest (k_sack_add_item (k_sack_copy sack) item) _ r h hc

/-! ## The search with cost pruning -/

theorem optimized1_keeps_or_records (info : k_info) :
    ∀ (items : List k_item) (sack : k_sack) (sol : k_solution),
      (knapsack_optimized1_recursive info items sack sol).sack = sol.sack ∨
      ∃ sub : List k_item, sub.Sublist items ∧
        (knapsack_optimized1_recursive info items sack sol).sack = some (sack_with sack sub) ∧
        (sack_with sack sub).cost ≤ info.limit
  | [], sack, sol => by
    rcases leaf_keeps_or_records info sol sack with h | h
    · exact Or.inl h
    · exact Or.inr ⟨[], List.Sublist.refl _, h.1, h.2⟩
  | item :: rest, sack, sol => by
    simp only [knapsack_optimized1_recursive]
    rcases optimized1_keeps_or_records info rest sack
        (if (k_sack_add_item (k_sack_copy sack) item).cost ≤ info.limit then
          knapsack_optimized1_recursive info rest (k_sack_add_item (k_sack_copy sack) item) sol
        else sol) with h2 | ⟨sub, hs, h2, hc⟩
    · by_cases hfit : (k_sack_add_item (k_sack_copy sack) item).cost ≤ info.limit
      · rw [if_pos hfit] at h2 ⊢
        rcases optimized1_keeps_or_records info rest (k_sack_add_item (k_sack_copy sack) item)
            sol with h1 | ⟨sub, hs, h1, hc⟩
        · exact Or.inl (h2.trans h1)
        · exact Or.inr ⟨item :: sub, List.Sublist.cons₂ _ hs, h2.trans h1, hc⟩
      · rw [if_neg hfit] at h2 ⊢
        exact Or.inl h2
    · exact Or.inr ⟨sub, List.Sublist.cons _ hs, h2, hc⟩

theorem optimized1_not_worse (info : k_info) :
    ∀ (items : List k_item) (sack : k_sack) (sol : k_solution) (b : k_sack),
      sol.sack = some b →
      ∃ b', (knapsack_optimized1_recursive info items sack sol).sack = some b' ∧
        b.value ≤ b'.value
  | [], sack, sol, b, hb => leaf_not_worse info sol sack b hb
  | item :: rest, sack, sol, b, hb => by
    simp only [knapsack_optimized1_recursive]
    by_cases hfit : (k_sack_add_item (k_sack_copy sack) item).cost ≤ info.limit
    · rw [if_pos hfit]
      obtain ⟨b1, h1, hv1⟩ := optimized1_not_worse info rest
        (k_sack_add_item (k_sack_copy sack) item) sol b hb
      obtain ⟨b2, h2, hv2⟩ := optimized1_not_worse info rest sack _ b1 h1
      exact ⟨b2, h2, Int.le_trans hv1 hv2⟩
    · rw [if_neg hfit]
      exact optimized1_not_worse info rest sack sol b hb

theorem optimized1_covers (info : k_info) :
    ∀ (items : List k_item) (sack : k_sack) (sol : k_solution) (sub : List k_item),
      (∀ it ∈ items, 0 ≤ it.cost) → sack_exact sack items →
      sub.Sublist items → (sack_with sack sub).cost ≤ info.limit →
      ∃ b', (knapsack_optimized1_recursive info items sack sol).sack = some b' ∧
        (sack_with sack sub).value ≤ b'.value
  | [], sack, sol, sub, _, _, hs, hc => by
    have : sub = [] := List.sublist_nil.mp hs
    subst this
    exact leaf_covers info sol sack hc
  | item :: rest, sack, sol, sub, hpos, hex, hs, hc => by
    simp only [knapsack_optimized1_recursive]
    have hrest : ∀ it ∈ rest, 0 ≤ it.cost := fun it hit => hpos it (List.mem_cons_of_mem _ hit)
    rcases List.sublist_cons_iff.mp hs with h | ⟨r, hr, h⟩
    · exact optimized1_covers info rest sack _ sub hrest (sack_exact_left sack item rest hex)
        h hc
    · subst hr
      have hr0 : 0 ≤ items_cost r :=
        items_cost_nonneg r (fun it hit => hrest it (h.subset hit))
      have hfit : (k_sack_add_item (k_sack_copy sack) item).cost ≤ info.limit := by
        have h1 := (hex (item :: r) hs).1
        have h2 := (sack_exact_add sack item rest hex).1
        rw [items_cost_cons] at h1
        omega
      rw [sack_with_cons] at hc ⊢
      rw [if_pos hfit]
      obtain ⟨b1, h1, hv1⟩ := optimized1_covers info rest
        (k_sack_add_item (k_sack_copy sack) item) sol r hrest
        (sack_exact_right sack item rest hex) h hc
      obtain ⟨b2, h2, hv2⟩ := optimized1_not_worse info rest sack _ b1 h1
      exact ⟨b2, h2, Int.le_trans hv1 hv2⟩

/-! ## The search with cost pruning and the lower value bound -/

/-- When `knapsack_optimized2_recursive` returns 0, it has recorded nothing, and the sack with
all the remaining items added is below the lower value bound. -/
theorem optimized2_false (info : k_info) :
    ∀ (items : List k_item) (sack : k_sack) (sol : k_solution),
      (knapsack_optimized2_recursive info items sack sol).1 = false →
      (knapsack_optimized2_recursive info items sack sol).2.sack = sol.sack ∧
        (sack_with sack items).value < info.lowerValueBound
  | [], sack, sol, h => by
    simp only [knapsack_optimized2_recursive] at h ⊢
    by_cases hv : sack.value < info.lowerValueBound
    · rw [if_pos hv]
      exact ⟨rfl, hv⟩
    · rw [if_neg hv] at h
      cases h
  | item :: rest, sack, sol, h => by
    simp only [knapsack_optimized2_recursive] at h ⊢
    by_cases hfit : (k_sack_add_item (k_sack_copy sack) item).cost ≤ info.limit
    · rw [if_pos hfit] at h ⊢
      by_cases hres : (knapsack_optimized2_recursive info rest
          (k_sack_add_item (k_sack_copy sack) item) sol).1 = false
      · rw [if_pos hres]
        have ih := optimized2_false info rest (k_sack_add_item (k_sack_copy sack) item) sol hres
        exact ⟨ih.1, by rw [sack_with_cons]; exact ih.2⟩
      · rw [if_neg hres] at h
        cases h
    · rw [if_neg hfit] at h
      cases h

theorem optimized2_keeps_or_records (info : k_info) :
    ∀ (items : List k_item) (sack : k_sack) (sol : k_solution),
      (knapsack_optimized2_recursive info items sack sol).2.sack = sol.sack ∨
      ∃ sub : List k_item, sub.Sublist items ∧
        (knapsack_optimized2_recursive info items sack sol).2.sack =
          some (sack_with sack sub) ∧
        (sack_with sack sub).cost ≤ info.limit
  | [], sack, sol => by
    simp only [knapsack_optimized2_recursive]
    by_cases hv : sack.value < info.lowerValueBound
    · rw [if_pos hv]
      exact Or.inl rfl
    · rw [if_neg hv]
      rcases leaf_keeps_or_records info sol sack with h | h
      · exact Or.inl h
      · exact Or.inr ⟨[], List.Sublist.refl _, h.1, h.2⟩
  | item :: rest, sack, sol => by
    simp only [knapsack_optimized2_recursive]
    by_cases hfit : (k_sack_add_item (k_sack_copy sack) item).cost ≤ info.limit
    · rw [if_pos hfit]
      have ih1 := optimized2_keeps_or_records info rest
        (k_sack_add_item (k_sack_copy sack) item) sol
      by_cases hres : (knapsack_optimized2_recursive info rest
          (k_sack_add_item (k_sack_copy sack) item) sol).1 = false
      · rw [if_pos hres]
        exact Or.inl (optimized2_false info rest _ sol hres).1
      · rw [if_neg hres]
        rcases optimized2_keeps_or_records info rest sack
            (knapsack_optimized2_recursive info rest
              (k_sack_add_item (k_sack_copy sack) item) sol).2 with h2 | ⟨sub, hs, h2, hc⟩
        · rcases ih1 with h1 | ⟨sub, hs, h1, hc⟩
          · exact Or.inl (h2.trans h1)
          · exact Or.inr ⟨item :: sub, List.Sublist.cons₂ _ hs, h2.trans h1, hc⟩
        · exact Or.inr ⟨sub, List.Sublist.cons _ hs, h2, hc⟩
    · rw [if_neg hfit]
      rcases optimized2_keeps_or_records info rest sack sol with h2 | ⟨sub, hs, h2, hc⟩
      · exact Or.inl h2
      · exact Or.inr ⟨sub, List.Sublist.cons _ hs, h2, hc⟩

theorem optimized2_not_worse (info : k_info) :
    ∀ (items : List k_item) (sack : k_sack) (sol : k_solution) (b : k_sack),
      sol.sack = some b →
      ∃ b', (knapsack_optimized2_recursive info items sack sol).2.sack = some b' ∧
        b.value ≤ b'.value
  | [], sack, sol, b, hb => by
    simp only [knapsack_optimized2_recursive]
    by_cases hv : sack.value < info.lowerValueBound
    · rw [if_pos hv]
      exact ⟨b, hb, Int.le_refl _⟩
    · rw [if_neg hv]
      exact leaf_not_worse info sol sack b hb
  | item :: rest, sack, sol, b, hb => by
    simp only [knapsack_optimized2_recursive]
    by_cases hfit : (k_sack_add_item (k_sack_copy sack) item).cost ≤ info.limit
    · rw [if_pos hfit]
      obtain ⟨b1, h1, hv1⟩ := optimized2_not_worse info rest
        (k_sack_add_item (k_sack_copy sack) item) sol b hb
      by_cases hres : (knapsack_optimized2_recursive info rest
          (k_sack_add_item (k_sack_copy sack) item) sol).1 = false
      · rw [if_pos hres]
        exact ⟨b1, h1, hv1⟩
      · rw [if_neg hres]
        obtain ⟨b2, h2, hv2⟩ := optimized2_not_worse info rest sack _ b1 h1
        exact ⟨b2, h2, Int.le_trans hv1 hv2⟩
    · rw [if_neg hfit]
      exact optimized2_not_worse info rest sack sol b hb

theorem optimized2_covers (info : k_info) :
    ∀ (items : List k_item) (sack : k_sack) (sol : k_solution) (sub : List k_item),
      (∀ it ∈ items, 0 ≤ it.cost) → (∀ it ∈ items, 0 ≤ it.value) → sack_exact sack items →
      sub.Sublist items → (sack_with sack sub).cost ≤ info.limit →
      info.lowerValueBound ≤ (sack_with sack sub).value →
      ∃ b', (knapsack_optimized2_recursive info items sack sol).2.sack = some b' ∧
        (sack_with sack sub).value ≤ b'.value
  | [], sack, sol, sub, _, _, _, hs, hc, hlb => by
    have : sub = [] := List.sublist_nil.mp hs
    subst this
    simp only [knapsack_optimized2_recursive]
    have hv : ¬ sack.value < info.lowerValueBound := by
      rw [sack_with_nil] at hlb
      omega
    rw [if_neg hv]
    exact leaf_covers info sol sack hc
  | item :: rest, sack, sol, sub, hpos, hval, hex, hs, hc, hlb => by
    simp only [knapsack_optimized2_recursive]
    have hrest : ∀ it ∈ rest, 0 ≤ it.cost := fun it hit => hpos it (List.mem_cons_of_mem _ hit)
    have hrestv : ∀ it ∈ rest, 0 ≤ it.value :=
      fun it hit => hval it (List.mem_cons_of_mem _ hit)
    have hexl := sack_exact_left sack item rest hex
    have hexr := sack_exact_right sack item rest hex
    by_cases hfit : (k_sack_add_item (k_sack_copy sack) item).cost ≤ info.limit
    · rw [if_pos hfit]
      by_cases hres : (knapsack_optimized2_recursive info rest
          (k_sack_add_item (k_sack_copy sack) item) sol).1 = false
      · -- the subtree is given up: no subset of it reaches the bound
        have hlow := (optimized2_false info rest _ sol hres).2
        rw [← sack_with_cons, (hex (item :: rest) (List.Sublist.refl _)).2] at hlow
        rw [(hex sub hs).2] at hlb
        have := items_value_sublist_le sub (item :: rest) hs hval
        omega
      · rw [if_neg hres]
        rcases List.sublist_cons_iff.mp hs with h | ⟨r, hr, h⟩
        · exact optimized2_covers info rest sack _ sub hrest hrestv hexl h hc hlb
        · subst hr
          rw [sack_with_cons] at hc hlb ⊢
          obtain ⟨b1, h1, hv1⟩ := optimized2_covers info rest
            (k_sack_add_item (k_sack_copy sack) item) sol r hrest hrestv hexr h hc hlb
          obtain ⟨b2, h2, hv2⟩ := optimized2_not_worse info rest sack _ b1 h1
          exact ⟨b2, h2, Int.le_trans hv1 hv2⟩
    · rw [if_neg hfit]
      rcases List.sublist_cons_iff.mp hs with h | ⟨r, hr, h⟩
      · exact optimized2_covers info rest sack sol sub hrest hrestv hexl h hc hlb
      · subst hr
        have h1 := (hex (item :: r) hs).1
        have h2 := (sack_exact_add sack item rest hex).1
        rw [items_cost_cons] at h1
        have hr0 : 0 ≤ items_cost r :=
          items_cost_nonneg r (fun it hit => hrest it (h.subset hit))
        exact absurd hc (by omega)

/-! ## The greedy solutions and the lower value bound -/

theorem greedy_fill_spec :
    ∀ (l : List k_item) (leftover : Int) (sack : k_sack), (∀ it ∈ l, 0 ≤ it.cost) →
      0 ≤ leftover → leftover ≤ CInt.INT_MAX →
      ∃ sub : List k_item, sub.Sublist l ∧ greedy_fill l leftover sack = sack_with sack sub ∧
        items_cost sub ≤ leftover
  | [], leftover, sack, _, h, _ =>
    ⟨[], List.Sublist.refl _, rfl, by rw [items_cost_nil]; exact h⟩
  | item :: rest, leftover, sack, hpos, h, hmax => by
    simp only [greedy_fill]
    have hrest : ∀ it ∈ rest, 0 ≤ it.cost := fun it hit => hpos it (List.mem_cons_of_mem _ hit)
    have hitem := hpos item (List.mem_cons_self _ _)
    by_cases hfit : item.cost ≤ leftover
    · rw [if_pos hfit]
      have hsub : CInt.sub leftover item.cost = leftover - item.cost := by
        apply CInt.sub_of_fits
        unfold CInt.INT_MAX at hmax
        exact ⟨by unfold CInt.INT_MIN; omega, by unfold CInt.INT_MAX; omega⟩
      rw [hsub]
      obtain ⟨sub, hs, he, hc⟩ := greedy_fill_spec rest (leftover - item.cost)
        (k_sack_add_item sack item) hrest (by omega) (by omega)
      refine ⟨item :: sub, List.Sublist.cons₂ _ hs, he, ?_⟩
      rw [items_cost_cons]
      omega
    · rw [if_neg hfit]
      obtain ⟨sub, hs, he, hc⟩ := greedy_fill_spec rest leftover sack hrest h hmax
      exact ⟨sub, List.Sublist.cons _ hs, he, hc⟩

theorem greedy_fill_break_spec :
    ∀ (l : List k_item) (leftover : Int) (sack : k_sack), (∀ it ∈ l, 0 ≤ it.cost) →
      0 ≤ leftover → leftover ≤ CInt.INT_MAX →
      ∃ sub : List k_item, sub.Sublist l ∧
        greedy_fill_break l leftover sack = sack_with sack sub ∧ items_cost sub ≤ leftover
  | [], leftover, sack, _, h, _ =>
    ⟨[], List.Sublist.refl _, rfl, by rw [items_cost_nil]; exact h⟩
  | item :: rest, leftover, sack, hpos, h, hmax => by
    simp only [greedy_fill_break]
    have hrest : ∀ it ∈ rest, 0 ≤ it.cost := fun it hit => hpos it (List.mem_cons_of_mem _ hit)
    have hitem := hpos item (List.mem_cons_self _ _)
    by_cases hfit : item.cost ≤ leftover
    · rw [if_pos hfit]
      have hsub : CInt.sub leftover item.cost = leftover - item.cost := by
        apply CInt.sub_of_fits
        unfold CInt.INT_MAX at hmax
        exact ⟨by unfold CInt.INT_MIN; omega, by unfold CInt.INT_MAX; omega⟩
      rw [hsub]
      obtain ⟨sub, hs, he, hc⟩ := greedy_fill_break_spec rest (leftover - item.cost)
        (k_sack_add_item sack item) hrest (by omega) (by omega)
      refine ⟨item :: sub, List.Sublist.cons₂ _ hs, he, ?_⟩
      rw [items_cost_cons]
      omega
    · rw [if_neg hfit]
      exact ⟨[], List.nil_sublist _, rfl, by rw [items_cost_nil]; exact h⟩

/-- A subset of a permutation of the items has the cost and value of some subset of the items. -/
theorem sublist_of_perm (items sorted sub : List k_item) (hp : sorted.Perm items)
    (hs : sub.Sublist sorted) :
    ∃ sub' : List k_item, sub'.Sublist items ∧ items_cost sub' = items_cost sub ∧
      items_value sub' = items_value sub := by
  obtain ⟨l, hl, hsub⟩ := hs.subperm.trans hp.subperm
  refine ⟨l, hsub, ?_, ?_⟩
  · unfold items_cost
    exact (hl.map _).sum_eq
  · unfold items_value
    exact (hl.map _).sum_eq

/-- When no sum overflows on the items, none does on a permutation of them. -/
theorem no_overflow_perm (items sorted : List k_item) (hp : sorted.Perm items)
    (hno : no_overflow items) : no_overflow sorted := by
  intro sub hsub
  obtain ⟨sub', hs', hc', hv'⟩ :=
    sublist_of_perm items sorted sub hp (List.mem_sublists.mp hsub)
  rw [← hc', ← hv']
  exact hno sub' (List.mem_sublists.mpr hs')

theorem update_limit (info : k_info) (sol : k_solution) :
    (k_info_update_lower_value_bound info sol).limit = info.limit := by
  unfold k_info_update_lower_value_bound
  split
  · rfl
  · split <;> rfl

/-- Folding a solution into the bound keeps it admissible when the sack of the solution has the
value of a subset within the limit. -/
theorem update_admissible (items : List k_item) (info : k_info) (sol : k_solution)
    (hadm : bound_admissible items info)
    (hsol : ∀ sack, sol.sack = some sack → ∃ sub : List k_item, sub.Sublist items ∧
      items_cost sub ≤ info.limit ∧ sack.value = items_value sub) :
    bound_admissible items (k_info_update_lower_value_bound info sol) := by
  unfold bound_admissible
  rw [update_limit]
  unfold k_info_update_lower_value_bound
  cases hs : sol.sack with
  | none => exact hadm
  | some sack =>
    simp only []
    by_cases h : sack.value > info.lowerValueBound
    · rw [if_pos h]
      obtain ⟨sub, hsub, hc, hv⟩ := hsol sack hs
      exact ⟨sub, hsub, hc, by show sack.value ≤ _; omega⟩
    · rw [if_neg h]
      exact hadm

theorem greedy_fill_feasible (items sorted : List k_item) (limit : Int)
    (hno : no_overflow items) (hcost : ∀ it ∈ items, 0 ≤ it.cost)
    (hlimit : 0 ≤ limit) (hmax : limit ≤ CInt.INT_MAX) (hp : sorted.Perm items) :
    ∃ sub : List k_item, sub.Sublist items ∧ items_cost sub ≤ limit ∧
      (greedy_fill sorted limit k_sack_new).value = items_value sub := by
  obtain ⟨sub, hs, he, hc⟩ := greedy_fill_spec sorted limit k_sack_new
    (fun it hit => hcost it (hp.subset hit)) hlimit hmax
  obtain ⟨sub', hs', hc', hv'⟩ := sublist_of_perm items sorted sub hp hs
  refine ⟨sub', hs', by omega, ?_⟩
  rw [he, sack_with_new_value sorted sub (no_overflow_perm items sorted hp hno) hs, hv']

theorem greedy_fill_break_feasible (items sorted : List k_item) (limit : Int)
    (hno : no_overflow items) (hcost : ∀ it ∈ items, 0 ≤ it.cost)
    (hlimit : 0 ≤ limit) (hmax : limit ≤ CInt.INT_MAX) (hp : sorted.Perm items) :
    ∃ sub : List k_item, sub.Sublist items ∧ items_cost sub ≤ limit ∧
      (greedy_fill_break sorted limit k_sack_new).value = items_value sub := by
  obtain ⟨sub, hs, he, hc⟩ := greedy_fill_break_spec sorted limit k_sack_new
    (fun it hit => hcost it (hp.subset hit)) hlimit hmax
  obtain ⟨sub', hs', hc', hv'⟩ := sublist_of_perm items sorted sub hp hs
  refine ⟨sub', hs', by omega, ?_⟩
  rw [he, sack_with_new_value sorted sub (no_overflow_perm items sorted hp hno) hs, hv']

theorem greedy_highest_value_feasible (items sorted : List k_item) (info : k_info)
    (hno : no_overflow items) (hcost : ∀ it ∈ items, 0 ≤ it.cost)
    (hlimit : 0 ≤ info.limit) (hmax : info.limit ≤ CInt.INT_MAX) (hp : sorted.Perm items) :
    ∀ sack, (greedy_highest_value info sorted).sack = some sack →
      ∃ sub : List k_item, sub.Sublist items ∧ items_cost sub ≤ info.limit ∧
        sack.value = items_value sub := by
  intro sack hs
  have : greedy_fill sorted info.limit k_sack_new = sack := Option.some.inj hs
  rw [← this]
  exact greedy_fill_feasible items sorted info.limit hno hcost hlimit hmax hp

theorem greedy_lowest_cost_feasible (items sorted : List k_item) (info : k_info)
    (hno : no_overflow items) (hcost : ∀ it ∈ items, 0 ≤ it.cost)
    (hlimit : 0 ≤ info.limit) (hmax : info.limit ≤ CInt.INT_MAX) (hp : sorted.Perm items) :
    ∀ sack, (greedy_lowest_cost info sorted).sack = some sack →
      ∃ sub : List k_item, sub.Sublist items ∧ items_cost sub ≤ info.limit ∧
        sack.value = items_value sub := by
  intro sack hs
  have : greedy_fill_break sorted info.limit k_sack_new = sack := Option.some.inj hs
  rw [← this]
  exact greedy_fill_break_feasible items sorted info.limit hno hcost hlimit hmax hp

theorem greedy_highest_ratio_feasible (items sorted : List k_item) (info : k_info)
    (hno : no_overflow items) (hcost : ∀ it ∈ items, 0 ≤ it.cost)
    (hlimit : 0 ≤ info.limit) (hmax : info.limit ≤ CInt.INT_MAX) (hp : sorted.Perm items) :
    ∀ sack, (greedy_highest_ratio info sorted).sack = some sack →
      ∃ sub : List k_item, sub.Sublist items ∧ items_cost sub ≤ info.limit ∧
        sack.value = items_value sub := by
  intro sack hs
  have : greedy_fill sorted info.limit k_sack_new = sack := Option.some.inj hs
  rw [← this]
  exact greedy_fill_feasible items sorted info.limit hno hcost hlimit hmax hp

/-- The lower value bound that `knapsack` computes from the three greedy solutions is admissible,
provided the limit is at least 0, the costs are at least 0 and no sum overflows. -/
theorem knapsack_info_admissible (limit : Int) (items byValue byCost byRatio : List k_item)
    (hno : no_overflow items) (hcost : ∀ it ∈ items, 0 ≤ it.cost)
    (hlimit : 0 ≤ limit) (hmax : limit ≤ CInt.INT_MAX)
    (h1 : byValue.Perm items) (h2 : byCost.Perm items) (h3 : byRatio.Perm items) :
    (knapsack_info limit byValue byCost byRatio).limit = limit ∧
    bound_admissible items (knapsack_info limit byValue byCost byRatio) := by
  have hl0 : (knapsack_info_start limit).limit = limit := rfl
  have ha0 : bound_admissible items (knapsack_info_start limit) :=
    ⟨[], List.nil_sublist _, by rw [items_cost_nil]; exact hlimit,
      by rw [items_value_nil]; exact Int.le_refl _⟩
  have ha1 := update_admissible items (knapsack_info_start limit) _ ha0
    (greedy_highest_value_feasible items byValue _ hno hcost (by rw [hl0]; exact hlimit)
      (by rw [hl0]; exact hmax) h1)
  have hl1 := (update_limit (knapsack_info_start limit)
    (greedy_highest_value (knapsack_info_start limit) byValue)).trans hl0
  have ha2 := update_admissible items _ _ ha1
    (greedy_lowest_cost_feasible items byCost _ hno hcost (by rw [hl1]; exact hlimit)
      (by rw [hl1]; exact hmax) h2)
  have hl2 := (update_limit (k_info_update_lower_value_bound (knapsack_info_start limit)
      (greedy_highest_value (knapsack_info_start limit) byValue))
    (greedy_lowest_cost (k_info_update_lower_value_bound (knapsack_info_start limit)
      (greedy_highest_value (knapsack_info_start limit) byValue)) byCost)).trans hl1
  have ha3 := update_admissible items _ _ ha2
    (greedy_highest_ratio_feasible items byRatio _ hno hcost (by rw [hl2]; exact hlimit)
      (by rw [hl2]; exact hmax) h3)
  refine ⟨?_, ha3⟩
  show (k_info_update_lower_value_bound _ _).limit = limit
  rw [update_limit, hl2]

/-! ## The recorded sack as a best subset -/

/-- A search that starts on the empty sack with nothing recorded, records only sacks of subsets
within the limit, and matches every subset within the limit, ends with a best subset, provided no
sum overflows. -/
theorem is_best_of (limit : Int) (items : List k_item) (res : Option k_sack)
    (hno : no_overflow items)
    (h1 : res = none ∨ ∃ sub : List k_item, sub.Sublist items ∧
      res = some (sack_with k_sack_new sub) ∧ (sack_with k_sack_new sub).cost ≤ limit)
    (h3 : ∀ sub : List k_item, sub.Sublist items → (sack_with k_sack_new sub).cost ≤ limit →
      ∃ b', res = some b' ∧ (sack_with k_sack_new sub).value ≤ b'.value) :
    is_best limit items res := by
  have hrec : ∀ b, res = some b → b.items.Sublist items ∧ items_cost b.items ≤ limit ∧
      b.cost = items_cost b.items ∧ b.value = items_value b.items := by
    intro b hb
    rcases h1 with h | ⟨sub, hs, h, hc⟩
    · rw [h] at hb; cases hb
    · rw [h] at hb
      have := Option.some.inj hb
      subst this
      rw [sack_with_new_items, sack_with_new_cost items sub hno hs,
        sack_with_new_value items sub hno hs]
      rw [sack_with_new_cost items sub hno hs] at hc
      exact ⟨hs, hc, rfl, rfl⟩
  refine ⟨hrec, ?_⟩
  intro sub hs hc
  obtain ⟨b', hb', hv⟩ := h3 sub hs (by rw [sack_with_new_cost items sub hno hs]; exact hc)
  refine ⟨b', hb', ?_⟩
  rw [← (hrec b' hb').2.2.2, ← sack_with_new_value items sub hno hs]
  exact hv

/-- Two best subsets have the same total value, and one is absent exactly when the other is. -/
theorem is_best_value_eq (limit : Int) (items : List k_item) (r1 r2 : Option k_sack)
    (h1 : is_best limit items r1) (h2 : is_best limit items r2) :
    r1.map (fun b => items_value b.items) = r2.map (fun b => items_value b.items) := by
  cases hr1 : r1 with
  | none =>
    cases hr2 : r2 with
    | none => rfl
    | some b2 =>
      obtain ⟨hs, hc, -, -⟩ := h2.1 b2 hr2
      obtain ⟨b, hb, -⟩ := h1.2 b2.items hs hc
      rw [hr1] at hb
      cases hb
  | some b1 =>
    obtain ⟨hs1, hc1, -, -⟩ := h1.1 b1 hr1
    obtain ⟨b2, hb2, hv12⟩ := h2.2 b1.items hs1 hc1
    obtain ⟨hs2, hc2, -, -⟩ := h2.1 b2 hb2
    obtain ⟨b1', hb1', hv21⟩ := h1.2 b2.items hs2 hc2
    rw [hr1] at hb1'
    have := Option.some.inj hb1'
    subst this
    rw [hb2]
    simp only [Option.map_some', Option.some.injEq]
    omega

theorem is_best_none_iff (limit : Int) (items : List k_item) (res : Option k_sack)
    (h : is_best limit items res) :
    res = none ↔ ∀ sub : List k_item, sub.Sublist items → ¬ items_cost sub ≤ limit := by
  constructor
  · intro hnone sub hs hc
    obtain ⟨b, hb, -⟩ := h.2 sub hs hc
    rw [hnone] at hb
    cases hb
  · intro hno
    cases hr : res with
    | none => rfl
    | some b =>
      obtain ⟨hs, hc, -, -⟩ := h.1 b hr
      exact absurd hc (hno b.items hs)

theorem bruteforce_is_best (info : k_info) (items : List k_item) (hno : no_overflow items) :
    is_best info.limit items
      (knapsack_bruteforce_recursive info items k_sack_new k_solution_new).sack :=
  is_best_of info.limit items _ hno
    (bruteforce_keeps_or_records info items k_sack_new k_solution_new)
    (fun sub hs hc => bruteforce_covers info items k_sack_new k_solution_new sub hs hc)

theorem optimized1_is_best (info : k_info) (items : List k_item) (hno : no_overflow items)
    (hcost : ∀ it ∈ items, 0 ≤ it.cost) :
    is_best info.limit items
      (knapsack_optimized1_recursive info items k_sack_new k_solution_new).sack :=
  is_best_of info.limit items _ hno
    (optimized1_keeps_or_records info items k_sack_new k_solution_new)
    (fun sub hs hc => optimized1_covers info items k_sack_new k_solution_new sub hcost
      (sack_exact_new items hno) hs hc)

theorem optimized2_is_best (info : k_info) (items : List k_item) (hno : no_overflow items)
    (hcost : ∀ it ∈ items, 0 ≤ it.cost) (hvalue : ∀ it ∈ items, 0 ≤ it.value)
    (hbound : bound_admissible items info) :
    is_best info.limit items
      (knapsack_optimized2_recursive info items k_sack_new k_solution_new).2.sack := by
  -- the sack that brute force records is within the limit and reaches the bound
  obtain ⟨t, hts, htc, htv⟩ := hbound
  obtain ⟨a, ha, hta⟩ := (bruteforce_is_best info items hno).2 t hts htc
  obtain ⟨has, hac, -, -⟩ := (bruteforce_is_best info items hno).1 a ha
  obtain ⟨b, hb, hab⟩ := optimized2_covers info items k_sack_new k_solution_new a.items
    hcost hvalue (sack_exact_new items hno) has
    (by rw [sack_with_new_cost items a.items hno has]; exact hac)
    (by rw [sack_with_new_value items a.items hno has]; omega)
  rw [sack_with_new_value items a.items hno has] at hab
  apply is_best_of info.limit items _ hno
    (optimized2_keeps_or_records info items k_sack_new k_solution_new)
  intro sub hs hc
  rw [sack_with_new_cost items sub hno hs] at hc
  rw [sack_with_new_value items sub hno hs]
  obtain ⟨a', ha', hsa⟩ := (bruteforce_is_best info items hno).2 sub hs hc
  rw [ha] at ha'
  have := Option.some.inj ha'
  subst this
  exact ⟨b, hb, by omega⟩

/-! ## Claims on the pruned searches -/

/-- Claim C38 fails as stated: on the items a (cost 2147483647, value 10) and b (cost 1, value
10), whose costs are at least 0, with cost limit 0, `knapsack_optimized1_recursive` prunes both
items and ends with the empty sack, of value 0, while `knapsack_bruteforce_recursive` adds both
items, the `int` cost of the sack wraps to -2147483648, which is at most the limit, and the sack
of value 20 is recorded. -/
theorem cost_pruning_overflow :
    (∀ it ∈ overflow_items, 0 ≤ it.cost) ∧
    (knapsack_optimized1_recursive overflow_info overflow_items k_sack_new k_solution_new).sack.map
        (fun b => (b.cost, b.value, b.items.map (fun i => i.name))) = some (0, 0, []) ∧
    (knapsack_bruteforce_recursive overflow_info overflow_items k_sack_new k_solution_new).sack.map
        (fun b => (b.cost, b.value, b.items.map (fun i => i.name))) =
      some (-2147483648, 20, ["a", "b"]) ∧
    (knapsack_optimized1_recursive overflow_info overflow_items k_sack_new k_solution_new).sack.map
        (fun b => items_value b.items) ≠
      (knapsack_bruteforce_recursive overflow_info overflow_items k_sack_new
        k_solution_new).sack.map (fun b => items_value b.items) := by
  decide

/-- Claim C38, amended: cost pruning does not change the answer when no sum overflows. For every
item list whose costs are all at least 0 and in which no subset has a total cost or a total value
outside the range of `int`, and for every cost limit, `knapsack_optimized1_recursive` started on
the empty sack with nothing recorded ends with a sack of the same total value as
`knapsack_bruteforce_recursive` does, and with no sack exactly when brute force ends with none;
the sack it records is a subset of the items within the limit whose field `value` is the total
value of its items. -/
theorem cost_pruning_same_value (info : k_info) (items : List k_item)
    (hno : no_overflow items) (hcost : ∀ it ∈ items, 0 ≤ it.cost) :
    (knapsack_optimized1_recursive info items k_sack_new k_solution_new).sack.map
        (fun b => items_value b.items) =
      (knapsack_bruteforce_recursive info items k_sack_new k_solution_new).sack.map
        (fun b => items_value b.items) ∧
    ((knapsack_optimized1_recursive info items k_sack_new k_solution_new).sack = none ↔
      (knapsack_bruteforce_recursive info items k_sack_new k_solution_new).sack = none) ∧
    (∀ b, (knapsack_optimized1_recursive info items k_sack_new k_solution_new).sack = some b →
      b.items.Sublist items ∧ items_cost b.items ≤ info.limit ∧
        b.value = items_value b.items) := by
  have h1 := optimized1_is_best info items hno hcost
  have h2 := bruteforce_is_best info items hno
  refine ⟨is_best_value_eq _ _ _ _ h1 h2, ?_, ?_⟩
  · rw [is_best_none_iff _ _ _ h1, is_best_none_iff _ _ _ h2]
  · intro b hb
    obtain ⟨hs, hc, -, hv⟩ := h1.1 b hb
    exact ⟨hs, hc, hv⟩

/-- Witness for the amended C38 on three items with costs 2, 3, 4, values 3, 4, 5 and cost limit
5: no sum overflows, and both searches end with a sack of value 7. -/
theorem cost_pruning_same_value_witness :
    (no_overflow sample_items ∧ ∀ it ∈ sample_items, 0 ≤ it.cost) ∧
    (knapsack_optimized1_recursive sample_info sample_items k_sack_new k_solution_new).sack.map
        (fun b => items_value b.items) = some 7 ∧
    (knapsack_optimized1_recursive sample_info sample_items k_sack_new k_solution_new).sack.map
        (fun b => items_value b.items) =
      (knapsack_bruteforce_recursive sample_info sample_items k_sack_new
        k_solution_new).sack.map (fun b => items_value b.items) :=
  ⟨⟨by decide, by decide⟩, by decide,
    (cost_pruning_same_value sample_info sample_items (by decide) (by decide)).1⟩

/-- Claim C39 fails as stated: on the items a (cost 2147483647, value 10) and b (cost 1, value
10), whose costs and values are at least 0, with cost limit 0 and the lower value bound 0 that
`knapsack` computes from its greedy solutions (the value of the empty subset, which is within the
limit), `knapsack_optimized2_recursive` ends with the empty sack, of value 0, while
`knapsack_bruteforce_recursive` records the sack of both items, of value 20, because its `int`
cost wraps to -2147483648. -/
theorem bound_pruning_overflow :
    ((∀ it ∈ overflow_items, 0 ≤ it.cost) ∧ (∀ it ∈ overflow_items, 0 ≤ it.value)) ∧
    (0 ≤ overflow_info.limit ∧
      knapsack_info 0 overflow_items overflow_items overflow_items = overflow_info ∧
      bound_admissible overflow_items overflow_info) ∧
    (knapsack_optimized2_recursive overflow_info overflow_items k_sack_new
        k_solution_new).2.sack.map
        (fun b => (b.cost, b.value, b.items.map (fun i => i.name))) = some (0, 0, []) ∧
    (knapsack_bruteforce_recursive overflow_info overflow_items k_sack_new k_solution_new).sack.map
        (fun b => (b.cost, b.value, b.items.map (fun i => i.name))) =
      some (-2147483648, 20, ["a", "b"]) ∧
    (knapsack_optimized2_recursive overflow_info overflow_items k_sack_new
        k_solution_new).2.sack.map (fun b => items_value b.items) ≠
      (knapsack_bruteforce_recursive overflow_info overflow_items k_sack_new
        k_solution_new).sack.map (fun b => items_value b.items) :=
  ⟨⟨by decide, by decide⟩,
    ⟨by decide, by decide, [], List.nil_sublist _, by decide, by decide⟩,
    by decide, by decide, by decide⟩

/-- Claim C39, amended: lower-bound pruning does not change the answer when no sum overflows. For
every item list whose costs and values are all at least 0 and in which no subset has a total cost
or a total value outside the range of `int`: for every cost limit and every `lowerValueBound`
that is at most the total value of some subset within the limit (such a subset exists only if the
limit is at least 0), `knapsack_optimized2_recursive` started on the empty sack with nothing
recorded ends with a sack of the same total value as `knapsack_bruteforce_recursive` does, a
subset of the items within the limit whose value reaches the bound; and for every cost limit in
`0 .. INT_MAX` the bound that `knapsack` computes from its three greedy solutions, whatever order
`qsort` gave the items, is such a bound. -/
theorem bound_pruning_same_value (items : List k_item) (hno : no_overflow items)
    (hcost : ∀ it ∈ items, 0 ≤ it.cost) (hvalue : ∀ it ∈ items, 0 ≤ it.value) :
    (∀ info : k_info, bound_admissible items info →
      0 ≤ info.limit ∧
      (knapsack_optimized2_recursive info items k_sack_new k_solution_new).2.sack.map
          (fun b => items_value b.items) =
        (knapsack_bruteforce_recursive info items k_sack_new k_solution_new).sack.map
          (fun b => items_value b.items) ∧
      ∃ b, (knapsack_optimized2_recursive info items k_sack_new k_solution_new).2.sack =
          some b ∧
        b.items.Sublist items ∧ items_cost b.items ≤ info.limit ∧
        b.value = items_value b.items ∧ info.lowerValueBound ≤ items_value b.items) ∧
    (∀ (limit : Int) (byValue byCost byRatio : List k_item), 0 ≤ limit →
      limit ≤ CInt.INT_MAX →
      byValue.Perm items → byCost.Perm items → byRatio.Perm items →
      (knapsack_info limit byValue byCost byRatio).limit = limit ∧
      bound_admissible items (knapsack_info limit byValue byCost byRatio)) := by
  constructor
  · intro info hbound
    have h1 := optimized2_is_best info items hno hcost hvalue hbound
    have h2 := bruteforce_is_best info items hno
    obtain ⟨t, hts, htc, htv⟩ := hbound
    have hlim : 0 ≤ info.limit := by
      have := items_cost_nonneg t (fun it hit => hcost it (hts.subset hit))
      omega
    refine ⟨hlim, is_best_value_eq _ _ _ _ h1 h2, ?_⟩
    obtain ⟨b, hb, hv⟩ := h1.2 t hts htc
    obtain ⟨hs, hc, -, hbv⟩ := h1.1 b hb
    exact ⟨b, hb, hs, hc, hbv, by omega⟩
  · intro limit byValue byCost byRatio hlimit hmax h1 h2 h3
    exact knapsack_info_admissible limit items byValue byCost byRatio hno hcost hlimit hmax
      h1 h2 h3

/-- Witness for the amended C39 on three items with costs 2, 3, 4, values 3, 4, 5 and cost limit
5: no sum overflows, the bound that `knapsack` computes is 7 (the greedy solution by value takes
the item of value 5, the other two take the first two items), it is admissible, and each of the
two searches ends with a sack of value 7. -/
theorem bound_pruning_same_value_witness :
    (no_overflow sample_items ∧ (∀ it ∈ sample_items, 0 ≤ it.cost) ∧
      (∀ it ∈ sample_items, 0 ≤ it.value)) ∧
    knapsack_info 5 sample_items.reverse sample_items sample_items = sample_info ∧
    bound_admissible sample_items sample_info ∧
    (knapsack_optimized2_recursive sample_info sample_items k_sack_new k_solution_new).2.sack.map
        (fun b => items_value b.items) = some 7 ∧
    (knapsack_optimized2_recursive sample_info sample_items k_sack_new k_solution_new).2.sack.map
        (fun b => items_value b.items) =
      (knapsack_bruteforce_recursive sample_info sample_items k_sack_new
        k_solution_new).sack.map (fun b => items_value b.items) := by
  have hinfo : knapsack_info 5 sample_items.reverse sample_items sample_items = sample_info := by
    decide
  have h := bound_pruning_same_value sample_items (by decide) (by decide) (by decide)
  have hadm : bound_admissible sample_items sample_info := by
    rw [← hinfo]
    exact (h.2 5 sample_items.reverse sample_items sample_items (by decide) (by decide)
      (List.reverse_perm _) (List.Perm.refl _) (List.Perm.refl _)).2
  exact ⟨⟨by decide, by decide, by decide⟩, hinfo, hadm, by decide,
    (h.1 sample_info hadm).2.1⟩

end Knapsack2

namespace Knapsack1

/-! ## The exhaustive searches are optimal when no sum overflows -/

theorem candidates_result (items : List k_item) (sol : k_solution)
    (hno : no_overflow items) (hnone : sol.bestSack = none) :
    (∀ b, (knapsack_candidates_recursive items k_sack_new sol).bestSack = some b →
      b.items.Sublist items ∧ items_cost b.items ≤ sol.limit ∧
      (knapsack_candidates_recursive items k_sack_new sol).bestCost = items_cost b.items ∧
      (knapsack_candidates_recursive items k_sack_new sol).bestValue = items_value b.items ∧
      ∀ sub : List k_item, sub.Sublist items → items_cost sub ≤ sol.limit →
        items_value sub ≤ items_value b.items) ∧
    ((knapsack_candidates_recursive items k_sack_new sol).bestSack = none ↔
      ∀ sub : List k_item, sub.Sublist items → ¬ items_cost sub ≤ sol.limit) := by
  have hok : solution_ok sol := by
    intro b hb
    rw [hnone] at hb
    cases hb
  obtain ⟨-, hok'⟩ := candidates_limit items k_sack_new sol hok
  have hrec : ∀ b, (knapsack_candidates_recursive items k_sack_new sol).bestSack = some b →
      b.items.Sublist items ∧ items_cost b.items ≤ sol.limit := by
    intro b hb
    rcases candidates_keeps_or_records items k_sack_new sol hok with h | ⟨sub, hs, h, hc⟩
    · rw [h, hnone] at hb
      cases hb
    · rw [h] at hb
      have := Option.some.inj hb
      subst this
      simp only [k_sack_new, List.nil_append] at hc ⊢
      rw [sum_up_sublist items sub hno hs] at hc
      exact ⟨hs, hc⟩
  have hsum : ∀ b, (knapsack_candidates_recursive items k_sack_new sol).bestSack = some b →
      k_sack_sum_up b = (items_cost b.items, items_value b.items) :=
    fun b hb => sum_up_sublist items b.items hno (hrec b hb).1
  have hcov : ∀ sub : List k_item, sub.Sublist items → items_cost sub ≤ sol.limit →
      ∃ b', (knapsack_candidates_recursive items k_sack_new sol).bestSack = some b' ∧
        items_value sub ≤ items_value b'.items := by
    intro sub hs hc
    have hsub := sum_up_sublist items sub hno hs
    have := candidates_covers items k_sack_new sol sub hok hs
      (by simp only [k_sack_new, List.nil_append]; rw [hsub]; exact hc)
    simp only [k_sack_new, List.nil_append] at this
    obtain ⟨b', hb', hv⟩ := this
    rw [hsub, hsum b' hb'] at hv
    exact ⟨b', hb', hv⟩
  constructor
  · intro b hb
    obtain ⟨hs, hc⟩ := hrec b hb
    refine ⟨hs, hc, ?_, ?_, ?_⟩
    · rw [(hok' b hb).1, hsum b hb]
    · rw [(hok' b hb).2, hsum b hb]
    · intro sub hsub hcsub
      obtain ⟨b', hb', hv⟩ := hcov sub hsub hcsub
      rw [hb] at hb'
      have := Option.some.inj hb'
      subst this
      exact hv
  · constructor
    · intro hn sub hs hc
      obtain ⟨b', hb', -⟩ := hcov sub hs hc
      rw [hn] at hb'
      cases hb'
    · intro hno'
      cases hr : (knapsack_candidates_recursive items k_sack_new sol).bestSack with
      | none => rfl
      | some b => exact absurd (hrec b hr).2 (hno' b.items (hrec b hr).1)

end Knapsack1

namespace Knapsack

/-- Claim C37 fails as stated: on the items a (cost 2147483647, value 10) and b (cost 1, value
10) with cost limit 0, the only subsets of total cost at most 0 have the value 0, yet both
exhaustive searches record the sack of both items, with cost -2147483648 and value 20: the sum of
the two costs, 2147483648, does not fit the `int` that holds it and wraps to a value below the
limit. The recorded sack is not a subset within the limit. -/
theorem exhaustive_search_overflow :
    ((Knapsack1.knapsack_candidates_recursive Knapsack1.overflow_items Knapsack1.k_sack_new
        (Knapsack1.k_solution_new 0 0 0)).bestSack.map (fun b => b.items.map (fun i => i.name)) =
      some ["a", "b"] ∧
    (Knapsack1.knapsack_candidates_recursive Knapsack1.overflow_items Knapsack1.k_sack_new
        (Knapsack1.k_solution_new 0 0 0)).bestCost = -2147483648 ∧
    (Knapsack1.knapsack_candidates_recursive Knapsack1.overflow_items Knapsack1.k_sack_new
        (Knapsack1.k_solution_new 0 0 0)).bestValue = 20 ∧
    (Knapsack1.knapsack_candidates_recursive Knapsack1.overflow_items Knapsack1.k_sack_new
        (Knapsack1.k_solution_new 0 0 0)).bestSack.map (fun b => Knapsack1.items_cost b.items) =
      some 2147483648 ∧
    ∀ sub ∈ Knapsack1.overflow_items.sublists, Knapsack1.items_cost sub ≤ 0 →
      Knapsack1.items_value sub ≤ 0) ∧
    ((Knapsack2.knapsack_bruteforce_recursive Knapsack2.overflow_info Knapsack2.overflow_items
        Knapsack2.k_sack_new Knapsack2.k_solution_new).sack.map
          (fun b => (b.cost, b.value, b.items.map (fun i => i.name))) =
      some (-2147483648, 20, ["a", "b"]) ∧
    (Knapsack2.knapsack_bruteforce_recursive Knapsack2.overflow_info Knapsack2.overflow_items
        Knapsack2.k_sack_new Knapsack2.k_solution_new).sack.map
          (fun b => Knapsack2.items_cost b.items) = some 2147483648 ∧
    ∀ sub ∈ Knapsack2.overflow_items.sublists, Knapsack2.items_cost sub ≤ 0 →
      Knapsack2.items_value sub ≤ 0) := by
  decide

/-- Claim C37, amended: the exhaustive knapsack searches are optimal when no sum overflows. For
every item list in which no subset has a total cost or a total value outside the range of `int`,
and every integer cost limit, after `knapsack_candidates_recursive` (`knapsack1.c`) or
`knapsack_bruteforce_recursive` (`knapsack2.c`) started on the empty sack with nothing recorded,
the recorded best sack is a subset of the items (its items in their order) of total cost at most
the limit, the cost and value recorded with it are the totals of its items, and its total value
is at least that of every subset of total cost at most the limit; no sack is recorded exactly
when no subset, not even the empty one, has total cost at most the limit. -/
theorem exhaustive_search_optimal :
    (∀ (items : List Knapsack1.k_item) (sol : Knapsack1.k_solution),
      Knapsack1.no_overflow items → sol.bestSack = none →
      (∀ b, (Knapsack1.knapsack_candidates_recursive items Knapsack1.k_sack_new sol).bestSack =
          some b →
        b.items.Sublist items ∧ Knapsack1.items_cost b.items ≤ sol.limit ∧
        (Knapsack1.knapsack_candidates_recursive items Knapsack1.k_sack_new sol).bestCost =
          Knapsack1.items_cost b.items ∧
        (Knapsack1.knapsack_candidates_recursive items Knapsack1.k_sack_new sol).bestValue =
          Knapsack1.items_value b.items ∧
        ∀ sub : List Knapsack1.k_item, sub.Sublist items →
          Knapsack1.items_cost sub ≤ sol.limit →
          Knapsack1.items_value sub ≤ Knapsack1.items_value b.items) ∧
      ((Knapsack1.knapsack_candidates_recursive items Knapsack1.k_sack_new sol).bestSack =
          none ↔
        ∀ sub : List Knapsack1.k_item, sub.Sublist items →
          ¬ Knapsack1.items_cost sub ≤ sol.limit)) ∧
    (∀ (info : Knapsack2.k_info) (items : List Knapsack2.k_item),
      Knapsack2.no_overflow items →
      (∀ b, (Knapsack2.knapsack_bruteforce_recursive info items Knapsack2.k_sack_new
          Knapsack2.k_solution_new).sack = some b →
        b.items.Sublist items ∧ Knapsack2.items_cost b.items ≤ info.limit ∧
        b.cost = Knapsack2.items_cost b.items ∧ b.value = Knapsack2.items_value b.items ∧
        ∀ sub : List Knapsack2.k_item, sub.Sublist items →
          Knapsack2.items_cost sub ≤ info.limit →
          Knapsack2.items_value sub ≤ Knapsack2.items_value b.items) ∧
      ((Knapsack2.knapsack_bruteforce_recursive info items Knapsack2.k_sack_new
          Knapsack2.k_solution_new).sack = none ↔
        ∀ sub : List Knapsack2.k_item, sub.Sublist items →
          ¬ Knapsack2.items_cost sub ≤ info.limit)) := by
  refine ⟨Knapsack1.candidates_result, ?_⟩
  intro info items hno
  have h := Knapsack2.bruteforce_is_best info items hno
  refine ⟨?_, Knapsack2.is_best_none_iff _ _ _ h⟩
  intro b hb
  obtain ⟨hs, hc, hbc, hbv⟩ := h.1 b hb
  refine ⟨hs, hc, hbc, hbv, ?_⟩
  intro sub hsub hcsub
  obtain ⟨b', hb', hv⟩ := h.2 sub hsub hcsub
  rw [hb] at hb'
  have := Option.some.inj hb'
  subst this
  exact hv

/-- Witness for the amended C37 on three items with costs 2, 3, 4, values 3, 4, 5, on which no
sum overflows: with cost limit 5 both searches record the first two items, of cost 5 and value 7;
with the cost limit -1 nothing is recorded. -/
theorem exhaustive_search_optimal_witness :
    (Knapsack1.no_overflow Knapsack1.sample_items ∧
      Knapsack2.no_overflow Knapsack2.sample_items) ∧
    ((Knapsack1.knapsack_candidates_recursive Knapsack1.sample_items Knapsack1.k_sack_new
        (Knapsack1.k_solution_new 5 0 0)).bestSack.map (fun b => b.items.map (fun i => i.name)) =
      some ["a", "b"] ∧
    (Knapsack1.knapsack_candidates_recursive Knapsack1.sample_items Knapsack1.k_sack_new
        (Knapsack1.k_solution_new 5 0 0)).bestValue = 7 ∧
    (Knapsack2.knapsack_bruteforce_recursive Knapsack2.sample_info Knapsack2.sample_items
        Knapsack2.k_sack_new Knapsack2.k_solution_new).sack.map
          (fun b => (b.cost, b.value, b.items.map (fun i => i.name))) =
      some (5, 7, ["a", "b"]) ∧
    (Knapsack1.knapsack_candidates_recursive Knapsack1.sample_items Knapsack1.k_sack_new
        (Knapsack1.k_solution_new (-1) 0 0)).bestSack = none) ∧
    ((Knapsack1.knapsack_candidates_recursive Knapsack1.sample_items Knapsack1.k_sack_new
        (Knapsack1.k_solution_new (-1) 0 0)).bestSack = none ↔
      ∀ sub : List Knapsack1.k_item, sub.Sublist Knapsack1.sample_items →
        ¬ Knapsack1.items_cost sub ≤ (Knapsack1.k_solution_new (-1) 0 0).limit) ∧
    (∀ b, (Knapsack2.knapsack_bruteforce_recursive Knapsack2.sample_info Knapsack2.sample_items
        Knapsack2.k_sack_new Knapsack2.k_solution_new).sack = some b →
      b.items.Sublist Knapsack2.sample_items ∧
        Knapsack2.items_cost b.items ≤ Knapsack2.sample_info.limit) :=
  ⟨⟨by decide, by decide⟩, ⟨by decide, by decide, by decide, by decide⟩,
    (exhaustive_search_optimal.1 Knapsack1.sample_items (Knapsack1.k_solution_new (-1) 0 0)
      (by decide) rfl).2,
    fun b hb =>
      ⟨((exhaustive_search_optimal.2 Knapsack2.sample_info Knapsack2.sample_items
          (by decide)).1 b hb).1,
        ((exhaustive_search_optimal.2 Knapsack2.sample_info Knapsack2.sample_items
          (by decide)).1 b hb).2.1⟩⟩

end Knapsack

namespace GaKnapsack

/-! ## What the mutation step does to a byte -/

theorem mutate_byte_testBit (b u v : Nat) (hb : b < 256) :
    (mutate_byte b u).testBit v = (b.testBit v && !decide (u = v)) := by
  unfold mutate_byte
  rw [Nat.testBit_mod_two_pow, Nat.testBit_xor, Nat.testBit_and, Nat.one_shiftLeft,
    Nat.testBit_two_pow]
  by_cases hv : v < 8
  · by_cases huv : u = v <;> simp [hv, huv]
  · have hfalse : b.testBit v = false := by
      apply Nat.testBit_eq_false_of_lt
      calc b < 2 ^ 8 := hb
        _ ≤ 2 ^ v := Nat.pow_le_pow_right (by decide) (by omega)
    simp [hv, hfalse]

/-- Claim C40 fails on the code: for every byte `b` and bit index `u` in `0 .. 7` the update
`bits[t] ^= bits[t] & (0x1<<u)` leaves bit `u` at 0, whatever it was, and leaves the other bits
unchanged: it clears the bit. A bit that is 0 is never turned to 1: the byte 0 stays 0 for
`u = 0`, and 0xFF becomes 0xF7 for `u = 3`. The comment in the source announces a toggle, which
would be `bits[t] ^= (0x1<<u)`. -/
theorem mutation_clears_bit :
    (∀ b u : Nat, b < 256 → u < 8 →
      (mutate_byte b u).testBit u = false ∧
      (∀ v : Nat, v ≠ u → (mutate_byte b u).testBit v = b.testBit v) ∧
      mutate_byte b u = b &&& (255 ^^^ (1 <<< u))) ∧
    (Nat.testBit 0 0 = false ∧ mutate_byte 0 0 = 0 ∧ (mutate_byte 0 0).testBit 0 = false) ∧
    mutate_byte 0xFF 3 = 0xF7 := by
  refine ⟨?_, ⟨by decide, by decide, by decide⟩, by decide⟩
  intro b u hb hu
  refine ⟨?_, ?_, ?_⟩
  · rw [mutate_byte_testBit b u u hb]
    simp
  · intro v hv
    rw [mutate_byte_testBit b u v hb]
    have : ¬ u = v := fun h => hv h.symm
    simp [this]
  · apply Nat.eq_of_testBit_eq
    intro v
    rw [mutate_byte_testBit b u v hb, Nat.testBit_and, Nat.testBit_xor, Nat.one_shiftLeft,
      Nat.testBit_two_pow]
    by_cases hv : v < 8
    · have h255 : Nat.testBit 255 v = true := by
        interval_cases v <;> decide
      by_cases huv : u = v <;> simp [h255, huv]
    · have hfalse : b.testBit v = false := by
        apply Nat.testBit_eq_false_of_lt
        calc b < 2 ^ 8 := hb
          _ ≤ 2 ^ v := Nat.pow_le_pow_right (by decide) (by omega)
      simp [hfalse]

end GaKnapsack
